import Mathlib

/-!
# DTree: lazy directory tree and viewport engine

A shallow embedding of `internal/tree/node.go` and `internal/ui/{model,update}.go`.

Go pointers `*Node` are indices into a heap (a list of node records); allocating a node
appends a record, so a pointer is valid iff it is smaller than the heap length.  The
operating system (`os.ReadDir`, `filepath.Join`, `filepath.Base`, `fileops.OpenFile`) is an
explicit environment.  Recursive Go functions take a fuel argument and return `none` when
it runs out; the theorems show how much fuel always suffices.

`Node.Depth` is an unbounded `Int`: a node at depth `d` has `d` ancestors in memory, so
`Depth + 1` never reaches `2^63`.  The viewport arithmetic of the UI model depends on the
terminal height carried by a message, an arbitrary Go `int`, and is therefore done modulo
`2^64` (`wrapInt`).
-/

namespace DTree

/-! ## Environment -/

/-- One `os.DirEntry`: the entry name and whether it is a directory. -/
structure DirEntry where
  Name : String
  IsDir : Bool
deriving DecidableEq, Repr

/-- The services of the host system used by the program.  `ReadDir p = none` stands for
`err != nil`; `OpenFile p = some e` stands for an error whose text is `e`. -/
structure Env where
  ReadDir : String → Option (List DirEntry)
  Join : String → String → String
  Base : String → String
  OpenFile : String → Option String

/-! ## internal/tree/node.go -/

/-- The Go struct `Node`.  A `*Node` is the index (a `Nat`) of the record in the heap;
`Parent = none` is the nil pointer. -/
structure Node where
  Name : String
  Path : String
  IsDir : Bool
  IsExpanded : Bool
  Children : List Nat
  Parent : Option Nat
  Depth : Int
deriving DecidableEq, Repr

/-- The memory holding every allocated node. -/
abbrev Heap := List Node

/-- The composite literal `&Node{Name: .., Path: .., IsDir: .., Parent: node, Depth: ..}` built
for a directory entry by `LoadChildren` and `loadChildrenRecursive` (other fields zero). -/
def newChild (env : Env) (node : Nat) (n : Node) (entry : DirEntry) : Node :=
  { Name := entry.Name
    Path := env.Join n.Path entry.Name
    IsDir := entry.IsDir
    IsExpanded := false
    Children := []
    Parent := some node
    Depth := n.Depth + 1 }

/-- The two statements `child := &Node{..}; node.Children = append(node.Children, child)`:
the child is allocated at the end of the heap and its pointer appended to the children of
`node`.  Returns the new heap and the child pointer. -/
def addChild (env : Env) (h : Heap) (node : Nat) (entry : DirEntry) : Option (Heap × Nat) :=
  match h[node]? with
  | none => none
  | some n =>
    let child : Nat := h.length
    let h1 := h ++ [newChild env node n entry]
    some (h1.set node { n with Children := n.Children ++ [child] }, child)

/-- The assignment `node.IsExpanded = b`. -/
def setIsExpanded (h : Heap) (node : Nat) (b : Bool) : Option Heap :=
  match h[node]? with
  | none => none
  | some n => some (h.set node { n with IsExpanded := b })

/-- The body of `for _, entry := range entries` in `LoadChildren`. -/
def LoadChildren.loop (env : Env) (node : Nat) : List DirEntry → Heap → Option Heap
  | [], h => some h
  | entry :: rest, h =>
    match addChild env h node entry with
    | none => none
    | some (h1, _) => LoadChildren.loop env node rest h1

/-- Go `(n *Node) LoadChildren()`. -/
def LoadChildren (env : Env) (h : Heap) (n : Nat) : Option Heap :=
  match h[n]? with
  | none => none
  | some nd =>
    match env.ReadDir nd.Path with
    | none => some h
    | some entries => LoadChildren.loop env n entries h

/-- Go `(n *Node) IsLastChild()`; `==` on pointers is equality of indices. -/
def IsLastChild (h : Heap) (n : Nat) : Option Bool :=
  match h[n]? with
  | none => none
  | some nd =>
    match nd.Parent with
    | none => some true
    | some p =>
      match h[p]? with
      | none => none
      | some pn =>
        let visibleSiblings := pn.Children
        if visibleSiblings.length = 0 then some true
        else some (decide (visibleSiblings[visibleSiblings.length - 1]? = some n))

/-- The body of `for _, entry := range entries` in `loadChildrenRecursive`; `recur` is the
recursive call. -/
def loadChildrenRecursive.loop (env : Env) (initialDepth : Int)
    (recur : Heap → Nat → Option Heap) (node : Nat) : List DirEntry → Heap → Option Heap
  | [], h => some h
  | entry :: rest, h =>
    match addChild env h node entry with
    | none => none
    | some (h1, child) =>
      match h1[child]? with
      | none => none
      | some c =>
        if c.IsDir ∧ c.Depth < initialDepth then
          match setIsExpanded h1 child true with
          | none => none
          | some h2 =>
            match recur h2 child with
            | none => none
            | some h3 => loadChildrenRecursive.loop env initialDepth recur node rest h3
        else loadChildrenRecursive.loop env initialDepth recur node rest h1

/-- Go `loadChildrenRecursive(node, initialDepth)`; `none` when the fuel is exhausted. -/
def loadChildrenRecursive (env : Env) (initialDepth : Int) : Nat → Heap → Nat → Option Heap
  | 0, _, _ => none
  | fuel + 1, h, node =>
    match h[node]? with
    | none => none
    | some n =>
      if n.Depth ≥ initialDepth then some h
      else
        match env.ReadDir n.Path with
        | none => some h
        | some entries =>
          loadChildrenRecursive.loop env initialDepth
            (loadChildrenRecursive env initialDepth fuel) node entries h

/-- Go `Build(rootPath, initialDepth)`, run in an empty heap: the heap after the call and the
returned root pointer. -/
def Build (env : Env) (fuel : Nat) (rootPath : String) (initialDepth : Int) :
    Option (Heap × Nat) :=
  let root : Node :=
    { Name := env.Base rootPath
      Path := rootPath
      IsDir := true
      IsExpanded := true
      Children := []
      Parent := none
      Depth := 0 }
  match loadChildrenRecursive env initialDepth fuel [root] 0 with
  | none => none
  | some h => some (h, 0)

/-! ## internal/ui/model.go -/

/-- The value of a Go `int` expression whose mathematical result is `x` (64-bit two's
complement wrap-around). -/
def wrapInt (x : Int) : Int :=
  (x + 9223372036854775808) % 18446744073709551616 - 9223372036854775808

/-- The Go struct `Model` together with the heap its tree lives in.  The lipgloss style
fields carry no behaviour and are left out. -/
structure Model where
  heap : Heap
  tree : Nat
  cursor : Int
  flattenedNodes : List Nat
  initialDepth : Int
  rootPath : String
  status : String
  viewportHeight : Int
  viewportOffset : Int
  terminalHeight : Int
  terminalWidth : Int
  pendingG : Bool
deriving DecidableEq, Repr

/-- Go `len(m.flattenedNodes)`. -/
def Model.len (m : Model) : Int := (m.flattenedNodes.length : Int)

/-- The loop `for _, child := range node.Children { m.flattenRecursive(child) }`; `recur` is
the recursive call, the second argument the slice `m.flattenedNodes` built so far. -/
def flattenRecursive.loop (recur : Nat → List Nat → Option (List Nat)) :
    List Nat → List Nat → Option (List Nat)
  | [], acc => some acc
  | child :: rest, acc =>
    match recur child acc with
    | none => none
    | some acc1 => flattenRecursive.loop recur rest acc1

/-- Go `(m *Model) flattenRecursive(node)`: `acc` is `m.flattenedNodes` before the call, the
result is `m.flattenedNodes` after it; `none` when the fuel is exhausted. -/
def flattenRecursive (h : Heap) : Nat → Nat → List Nat → Option (List Nat)
  | 0, _, _ => none
  | fuel + 1, node, acc =>
    match h[node]? with
    | none => none
    | some n =>
      let acc1 := acc ++ [node]
      if n.IsExpanded then flattenRecursive.loop (flattenRecursive h fuel) n.Children acc1
      else some acc1

/-- Go `(m *Model) updateFlattenedNodes()`. -/
def updateFlattenedNodes (fuel : Nat) (m : Model) : Option Model :=
  match flattenRecursive m.heap fuel m.tree [] with
  | none => none
  | some l => some { m with flattenedNodes := l }

/-- Go `New(rootTree, initialDepth, rootPath)`, for a tree living in `heap`. -/
def New (fuel : Nat) (heap : Heap) (rootTree : Nat) (initialDepth : Int) (rootPath : String) :
    Option Model :=
  updateFlattenedNodes fuel
    { heap := heap
      tree := rootTree
      cursor := 0
      flattenedNodes := []
      initialDepth := initialDepth
      rootPath := rootPath
      status := ""
      viewportHeight := 1000
      viewportOffset := 0
      terminalHeight := 1000
      terminalWidth := 80
      pendingG := false }

/-- Go `(m *Model) SetStatus(status)`. -/
def SetStatus (m : Model) (status : String) : Model := { m with status := status }

/-- Go `(m *Model) updateViewportHeight()`. -/
def updateViewportHeight (m : Model) : Model :=
  let headerLines : Int := 2
  let controlLines : Int := 1
  let statusLines : Int := if m.status ≠ "" then 1 else 0
  let availableHeight :=
    wrapInt (wrapInt (wrapInt (m.terminalHeight - headerLines) - controlLines) - statusLines)
  let m1 : Model :=
    if m.terminalHeight > 10 ∧ availableHeight > 0 then
      { m with viewportHeight := availableHeight }
    else
      { m with viewportHeight := max availableHeight m.len }
  if m1.viewportHeight < 1 then { m1 with viewportHeight := 1 } else m1

/-- Go `(m *Model) adjustViewportToCursor()`. -/
def adjustViewportToCursor (m : Model) : Model :=
  let m1 : Model :=
    if m.cursor < m.viewportOffset then
      { m with viewportOffset := m.cursor }
    else if m.cursor ≥ wrapInt (m.viewportOffset + m.viewportHeight) then
      { m with viewportOffset := wrapInt (wrapInt (m.cursor - m.viewportHeight) + 1) }
    else m
  let m2 : Model := if m1.viewportOffset < 0 then { m1 with viewportOffset := 0 } else m1
  let maxOffset := wrapInt (m2.len - m2.viewportHeight)
  let maxOffset := if maxOffset < 0 then 0 else maxOffset
  if m2.viewportOffset > maxOffset then { m2 with viewportOffset := maxOffset } else m2

/-- Go `(m *Model) moveCursor(delta)`. -/
def moveCursor (m : Model) (delta : Int) : Model :=
  let newPos := wrapInt (m.cursor + delta)
  let newPos := if newPos < 0 then 0 else newPos
  let newPos := if newPos ≥ m.len then wrapInt (m.len - 1) else newPos
  adjustViewportToCursor { m with cursor := newPos }

/-- Go `(m *Model) jumpHalfScreen(direction)`; `/` on Go ints truncates toward zero. -/
def jumpHalfScreen (m : Model) (direction : Int) : Model :=
  let jump := Int.tdiv m.viewportHeight 2
  let jump := if jump < 1 then 1 else jump
  moveCursor m (wrapInt (direction * jump))

/-- Go `(m *Model) jumpFullScreen(direction)`. -/
def jumpFullScreen (m : Model) (direction : Int) : Model :=
  let jump := m.viewportHeight
  let jump := if jump < 1 then 1 else jump
  moveCursor m (wrapInt (direction * jump))

/-- Go `(m *Model) jumpToTop()`. -/
def jumpToTop (m : Model) : Model := adjustViewportToCursor { m with cursor := 0 }

/-- Go `(m *Model) jumpToBottom()`. -/
def jumpToBottom (m : Model) : Model :=
  if m.len > 0 then adjustViewportToCursor { m with cursor := wrapInt (m.len - 1) } else m

/-! ## internal/fileops/opener.go and internal/ui/update.go -/

/-- Go `fileops.FormatOpenError(filePath, err)`, with `err` given by its text. -/
def FormatOpenError (env : Env) (filePath : String) (err : String) : String :=
  "Error opening " ++ env.Base filePath ++ ": " ++ err

/-- Go `(m *Model) openFileWithStatus(filePath)`. -/
def openFileWithStatus (env : Env) (m : Model) (filePath : String) : Model :=
  match env.OpenFile filePath with
  | some err => { m with status := FormatOpenError env filePath err }
  | none => { m with status := "" }

/-- A `tea.Msg`: a window size, a key (given by `msg.String()`), or anything else. -/
inductive Msg where
  | WindowSizeMsg (Width Height : Int)
  | KeyMsg (key : String)
  | other
deriving DecidableEq, Repr

/-- A `tea.Cmd` returned by `Update`: `none` is nil, `some Quit` is `tea.Quit`. -/
inductive Cmd where
  | Quit
deriving DecidableEq, Repr

/-- The `"enter", " "` case of `Update`.  `none` is a run-time panic (index out of range, or
a dangling pointer) or exhausted fuel. -/
def Update.enter (env : Env) (fuel : Nat) (m : Model) : Option Model :=
  let m : Model := { m with pendingG := false }
  if m.cursor < m.len then
    if m.cursor < 0 then none
    else
      match m.flattenedNodes[m.cursor.toNat]? with
      | none => none
      | some node =>
        match m.heap[node]? with
        | none => none
        | some n =>
          if n.IsDir then
            match setIsExpanded m.heap node (!n.IsExpanded) with
            | none => none
            | some h1 =>
              let h2 : Option Heap :=
                if (!n.IsExpanded) = true ∧ n.Children.length = 0 then LoadChildren env h1 node
                else some h1
              match h2 with
              | none => none
              | some h2 =>
                match updateFlattenedNodes fuel { m with heap := h2 } with
                | none => none
                | some m1 => some (adjustViewportToCursor m1)
          else some (openFileWithStatus env m n.Path)
  else some m

/-- Go `(m *Model) Update(msg)`: the model after the call and the returned command. -/
def Update (env : Env) (fuel : Nat) (m : Model) (msg : Msg) : Option (Model × Option Cmd) :=
  match msg with
  | Msg.WindowSizeMsg width height =>
    let m1 : Model := { m with terminalHeight := height, terminalWidth := width }
    some (adjustViewportToCursor (updateViewportHeight m1), none)
  | Msg.KeyMsg key =>
    if key = "q" ∨ key = "ctrl+c" ∨ key = "esc" then some (m, some Cmd.Quit)
    else if key = "up" ∨ key = "k" then
      if m.cursor > 0 then
        some (adjustViewportToCursor { m with cursor := wrapInt (m.cursor - 1) }, none)
      else some (m, none)
    else if key = "down" ∨ key = "j" then
      if m.cursor < wrapInt (m.len - 1) then
        some (adjustViewportToCursor { m with cursor := wrapInt (m.cursor + 1) }, none)
      else some (m, none)
    else if key = "ctrl+u" then some (jumpHalfScreen m (-1), none)
    else if key = "ctrl+d" then some (jumpHalfScreen m 1, none)
    else if key = "ctrl+b" then some (jumpFullScreen m (-1), none)
    else if key = "ctrl+f" then some (jumpFullScreen m 1, none)
    else if key = "g" then
      if m.pendingG then some ({ jumpToTop m with pendingG := false }, none)
      else some ({ m with pendingG := true }, none)
    else if key = "G" then some ({ jumpToBottom m with pendingG := false }, none)
    else if key = "enter" ∨ key = " " then
      match Update.enter env fuel m with
      | none => none
      | some m1 => some (m1, none)
    else some ({ m with pendingG := false }, none)
  | Msg.other => some (m, none)

/-! ## internal/ui/view.go -/

/-- The loop `for current.Parent != nil` of `getTreeChars`: records at index `Depth - 1`
whether `current` is not the last child, then moves to the parent. An index outside
`positions` is Go's run-time panic (`none`); so is running out of fuel. -/
def getTreeChars.climb (h : Heap) : Nat → Nat → List Bool → Option (List Bool)
  | 0, _, _ => none
  | fuel + 1, current, positions =>
    match h[current]? with
    | none => none
    | some c =>
      match c.Parent with
      | none => some positions
      | some p =>
        match IsLastChild h current with
        | none => none
        | some isLast =>
          if 0 ≤ c.Depth - 1 ∧ c.Depth - 1 < positions.length then
            getTreeChars.climb h fuel p (positions.set (c.Depth - 1).toNat (!isLast))
          else none

/-- The loop `for i := 0; i < node.Depth-1; i++` of `getTreeChars`, over the indices `is`,
appending one four-column segment per index to `result`. -/
def getTreeChars.emit (positions : List Bool) : List Nat → String → Option String
  | [], result => some result
  | i :: is, result =>
    match positions[i]? with
    | none => none
    | some b => getTreeChars.emit positions is (result ++ (if b then "│   " else "    "))

/-- Go `(m *Model) getTreeChars(node)`; the receiver is not used. `make([]bool, node.Depth)`
panics on a negative depth. -/
def getTreeChars (h : Heap) (fuel : Nat) (node : Nat) : Option String :=
  match h[node]? with
  | none => none
  | some nd =>
    if nd.Depth = 0 then some ""
    else if nd.Depth < 0 then none
    else
      match getTreeChars.climb h fuel node (List.replicate nd.Depth.toNat false) with
      | none => none
      | some positions =>
        match getTreeChars.emit positions (List.range (nd.Depth - 1).toNat) "" with
        | none => none
        | some result =>
          match IsLastChild h node with
          | none => none
          | some isLast => some (result ++ (if isLast then "└── " else "├── "))

/-- The `Render` functions of the lipgloss styles the view uses: the five style fields of
the Go `Model`, which `New` sets once and nothing changes, and the fresh
`lipgloss.NewStyle()` of the controls legend.  lipgloss is a library outside the source, so
its rendering is a parameter. -/
structure Styles where
  dirStyle : String → String
  fileStyle : String → String
  cursorStyle : String → String
  headerStyle : String → String
  errorStyle : String → String
  newStyle : String → String

/-- Styles taken as identity: `Render` returns its argument. -/
def plainStyles : Styles :=
  { dirStyle := fun s => s
    fileStyle := fun s => s
    cursorStyle := fun s => s
    headerStyle := fun s => s
    errorStyle := fun s => s
    newStyle := fun s => s }

/-- Go `(m *Model) renderTreeLine(index, node)`; `fmt.Sprintf("%s %s%s", …)` is
concatenation. -/
def renderTreeLine (st : Styles) (fuel : Nat) (m : Model) (index : Int) (node : Nat) :
    Option String :=
  let cursor := if index = m.cursor then st.cursorStyle ">" else " "
  match getTreeChars m.heap fuel node with
  | none => none
  | some treeChars =>
    match m.heap[node]? with
    | none => none
    | some n =>
      let name :=
        if n.IsDir then
          let indicator := if n.IsExpanded then "▼ " else "▶ "
          st.dirStyle (indicator ++ n.Name)
        else st.fileStyle n.Name
      some (cursor ++ " " ++ treeChars ++ name)

/-- The text of the controls legend in `View`, line break included. -/
def controlsText : String :=
  "\nControls: ↑↓/jk navigate, Ctrl+U/D half-page, Ctrl+B/F full-page, gg/G top/bottom, Enter/Space expand/collapse, q quit"

/-- The loop `for i := start; i < end; i++` of `View` over the indices `is`, appending to the
builder `b`; `m.flattenedNodes[i]` outside the slice is Go's run-time panic (`none`). -/
def View.loop (st : Styles) (fuel : Nat) (m : Model) : List Int → String → Option String
  | [], b => some b
  | i :: rest, b =>
    if i < 0 then none
    else
      match m.flattenedNodes[i.toNat]? with
      | none => none
      | some node =>
        match renderTreeLine st fuel m i node with
        | none => none
        | some line => View.loop st fuel m rest (b ++ (line ++ "\n"))

/-- Go `(m *Model) View()`; `%d` prints the decimal digits of the depth, with a minus sign
when it is negative. -/
def View (st : Styles) (fuel : Nat) (m : Model) : Option String :=
  let header := st.headerStyle
    ("DTree - " ++ m.rootPath ++ " (initial depth: " ++ toString m.initialDepth ++ ")")
  let b := header ++ "\n\n"
  let start := m.viewportOffset
  let stop := wrapInt (start + m.viewportHeight)
  let stop := if stop > m.len then m.len else stop
  let range : Int × Int := if m.viewportHeight ≥ m.len then (0, m.len) else (start, stop)
  let start := range.1
  let stop := range.2
  match View.loop st fuel m
      ((List.range (stop - start).toNat).map (fun (k : Nat) => start + (k : Int))) b with
  | none => none
  | some b =>
    let controls := st.newStyle controlsText
    let b := b ++ controls
    if m.status ≠ "" then some (b ++ st.errorStyle ("\n" ++ m.status)) else some b

/-! ## Specification vocabulary -/

/-- Children are allocated after their parent and are valid pointers. -/
def Ordered (h : Heap) : Prop :=
  ∀ p n, h[p]? = some n → ∀ c ∈ n.Children, p < c ∧ c < h.length

/-- The relation computed by `flattenRecursive` on a list of nodes visited one after the
other: `Flat h rs L` says that visiting the nodes `rs` in order appends `L`. -/
inductive Flat (h : Heap) : List Nat → List Nat → Prop
  | nil : Flat h [] []
  | collapsed {r : Nat} {n : Node} {rs L : List Nat} :
      h[r]? = some n → n.IsExpanded = false → Flat h rs L → Flat h (r :: rs) (r :: L)
  | expanded {r : Nat} {n : Node} {rs L1 L2 : List Nat} :
      h[r]? = some n → n.IsExpanded = true → Flat h n.Children L1 → Flat h rs L2 →
      Flat h (r :: rs) (r :: (L1 ++ L2))

/-- The shape invariant of every heap the program builds, for the tree rooted at `root`. -/
structure TreeInv (h : Heap) (root : Nat) : Prop where
  root_ok : ∃ n, h[root]? = some n ∧ n.Parent = none ∧ n.Depth = 0 ∧ n.IsDir = true
  parent_of : ∀ (c : Nat) (n : Node) (p : Nat), h[c]? = some n → n.Parent = some p →
    p < c ∧ ∃ pn : Node, h[p]? = some pn ∧ c ∈ pn.Children ∧ n.Depth = pn.Depth + 1
  child_of : ∀ (p : Nat) (pn : Node) (c : Nat), h[p]? = some pn → c ∈ pn.Children →
    ∃ n : Node, h[c]? = some n ∧ n.Parent = some p
  nodup : ∀ (p : Nat) (pn : Node), h[p]? = some pn → pn.Children.Nodup
  has_parent : ∀ (c : Nat) (n : Node), h[c]? = some n → c ≠ root → n.Parent ≠ none
  file_leaf : ∀ (p : Nat) (n : Node), h[p]? = some n → n.IsDir = false →
    n.IsExpanded = false ∧ n.Children = []

/-- Heap `h'` keeps every cell of `h` with its write-once fields (name, path, kind, parent,
depth) unchanged. -/
def Immut (h h' : Heap) : Prop :=
  ∀ (q : Nat) (m : Node), h[q]? = some m → ∃ m' : Node, h'[q]? = some m' ∧
    m'.Name = m.Name ∧ m'.Path = m.Path ∧ m'.IsDir = m.IsDir ∧ m'.Parent = m.Parent ∧
    m'.Depth = m.Depth

/-- The pointers `kids` are, in order, nodes made from the directory entries `es` of the
node `p`, whose path is `path` and depth `depth`. -/
def ChildrenOf (env : Env) (h : Heap) (p : Nat) (path : String) (depth : Int)
    (kids : List Nat) (es : List DirEntry) : Prop :=
  List.Forall₂ (fun (c : Nat) (e : DirEntry) => ∃ cn : Node, h[c]? = some cn ∧
    cn.Name = e.Name ∧ cn.IsDir = e.IsDir ∧ cn.Path = env.Join path e.Name ∧
    cn.Parent = some p ∧ cn.Depth = depth + 1) kids es

/-- What `Build` with expansion depth `D` leaves at node `q`: the node is expanded exactly
when it is the root or a directory above depth `D`; a directory above depth `D` has the
entries of its directory as children (none if the read failed); any other node has no
children. -/
def Built (env : Env) (D : Int) (root : Nat) (h : Heap) (q : Nat) : Prop :=
  ∃ n : Node, h[q]? = some n ∧
    (n.IsExpanded = true ↔ (q = root ∨ (n.IsDir = true ∧ n.Depth < D))) ∧
    ((n.IsDir = true ∧ n.Depth < D) →
      (∀ es, env.ReadDir n.Path = some es → ChildrenOf env h q n.Path n.Depth n.Children es) ∧
      (env.ReadDir n.Path = none → n.Children = [])) ∧
    (¬ (n.IsDir = true ∧ n.Depth < D) → n.Children = [])

/-- Loop invariant of `loadChildrenRecursive(node, D)`, entered in heap `h0` where `node`
held the record `n`: after the entries `done`, in heap `h`. -/
structure LoadInv (env : Env) (D : Int) (root : Nat) (h0 : Heap) (node : Nat) (n : Node)
    (h : Heap) (done : List DirEntry) : Prop where
  inv : TreeInv h root
  immut : Immut h0 h
  frame : ∀ q, q < h0.length → q ≠ node → h[q]? = h0[q]?
  node_ok : ∃ m : Node, h[node]? = some m ∧ m.IsExpanded = n.IsExpanded ∧
    ChildrenOf env h node n.Path n.Depth m.Children done
  fresh : ∀ q, h0.length ≤ q → q < h.length → Built env D root h q

/-- The contract of one call `loadChildrenRecursive(node, D)` started in heap `h` and ending
in `h'`: the tree invariant holds, old cells other than `node` are untouched, and `node` and
every cell allocated by the call are as `Built` says. -/
def LoadPost (env : Env) (D : Int) (root : Nat) (h : Heap) (node : Nat) (h' : Heap) : Prop :=
  TreeInv h' root ∧ Immut h h' ∧ (∀ q, q < h.length → q ≠ node → h'[q]? = h[q]?) ∧
  (∀ q, (q = node ∨ h.length ≤ q) → q < h'.length → Built env D root h' q)

/-- Node `b` is reached from node `a` by following `Children` links. -/
inductive Desc (h : Heap) : Nat → Nat → Prop
  | refl (a : Nat) : Desc h a a
  | step {a p b : Nat} {n : Node} : Desc h a p → h[p]? = some n → b ∈ n.Children → Desc h a b

/-- The `Depth` field of the node at `q` (0 for a dangling pointer). -/
def depthOf (h : Heap) (q : Nat) : Int :=
  match h[q]? with
  | some n => n.Depth
  | none => 0

/-- The cursor and scroll conditions on the numbers `len(flattenedNodes)`, `cursor`,
`viewportHeight` and `viewportOffset`; the two upper bounds by `2^63` say that the length
and the height are values of a Go `int`. -/
structure ViewOK (len cursor vh off : Int) : Prop where
  len_fit : len < 9223372036854775808
  cursor_lo : 0 ≤ cursor
  cursor_hi : cursor < len
  vh_lo : 1 ≤ vh
  vh_hi : vh < 9223372036854775808
  off_lo : 0 ≤ off
  off_hi : off ≤ max 0 (len - vh)
  win_lo : off ≤ cursor
  win_hi : cursor < off + vh

/-- The invariant of the UI model: the heap holds a tree, `flattenedNodes` is the flattening
of the current tree, and cursor and viewport are consistent with it. -/
structure ModelInv (m : Model) : Prop where
  tree : TreeInv m.heap m.tree
  flat : Flat m.heap [m.tree] m.flattenedNodes
  view : ViewOK m.len m.cursor m.viewportHeight m.viewportOffset

/-- Go's `len` returns an `int`: no slice has `2^63` or more elements. -/
def FitsInt (m : Model) : Prop := m.len < 9223372036854775808

instance (m : Model) : Decidable (FitsInt m) :=
  inferInstanceAs (Decidable (m.len < 9223372036854775808))

/-- The states of a session: `New(Build(rootPath, D), D, rootPath)` followed by any number
of `Update` calls, each with the file system of its moment.  Fuel is arbitrary; a call
that runs out of fuel yields no state. -/
inductive Reachable : Model → Prop
  | init {env : Env} {fuel fuel' : Nat} {rootPath : String} {D : Int} {h : Heap} {root : Nat}
      {m : Model} : Build env fuel rootPath D = some (h, root) →
      New fuel' h root D rootPath = some m → FitsInt m → Reachable m
  | step {env : Env} {fuel : Nat} {m m' : Model} {msg : Msg} {cmd : Option Cmd} :
      Reachable m → Update env fuel m msg = some (m', cmd) → FitsInt m' → Reachable m'

/-- The `IsExpanded` flag of the node at `a` (false for a dangling pointer). -/
def expandedAt (h : Heap) (a : Nat) : Bool :=
  match h[a]? with
  | some n => n.IsExpanded
  | none => false

/-- The depth/parent conditions on a heap holding the tree rooted at `root`: the root has
depth 0 and a nil parent; any other node has a parent whose depth is one less and whose
children list contains the node. -/
def DepthParentOK (h : Heap) (root : Nat) : Prop :=
  (∃ r : Node, h[root]? = some r ∧ r.Depth = 0 ∧ r.Parent = none) ∧
  ∀ (q : Nat) (n : Node), h[q]? = some n → q ≠ root →
    ∃ (p : Nat) (pn : Node), n.Parent = some p ∧ h[p]? = some pn ∧
      n.Depth = pn.Depth + 1 ∧ q ∈ pn.Children

/-! ## A small file system for concrete runs -/

/-- Directory `/r` holds `a.txt`, `b.txt` and `sub`; `/r/sub` holds `c.txt`. -/
def demoEnv : Env where
  ReadDir := fun p =>
    if p = "/r" then some [⟨"a.txt", false⟩, ⟨"b.txt", false⟩, ⟨"sub", true⟩]
    else if p = "/r/sub" then some [⟨"c.txt", false⟩]
    else none
  Join := fun a b => a ++ "/" ++ b
  Base := fun p => p.drop 1
  OpenFile := fun _ => some "exit status 1"

/-- The tree of `demoEnv` built with depth 1: root `/r` with `a.txt`, `b.txt` and the
collapsed directory `sub`. -/
def demoHeap : Heap :=
  [ { Name := "r", Path := "/r", IsDir := true, IsExpanded := true, Children := [1, 2, 3],
      Parent := none, Depth := 0 },
    { Name := "a.txt", Path := "/r/a.txt", IsDir := false, IsExpanded := false, Children := [],
      Parent := some 0, Depth := 1 },
    { Name := "b.txt", Path := "/r/b.txt", IsDir := false, IsExpanded := false, Children := [],
      Parent := some 0, Depth := 1 },
    { Name := "sub", Path := "/r/sub", IsDir := true, IsExpanded := false, Children := [],
      Parent := some 0, Depth := 1 } ]

/-- The demo heap after `sub` has been expanded and its entry `c.txt` loaded. -/
def demoHeapExpanded : Heap :=
  [ { Name := "r", Path := "/r", IsDir := true, IsExpanded := true, Children := [1, 2, 3],
      Parent := none, Depth := 0 },
    { Name := "a.txt", Path := "/r/a.txt", IsDir := false, IsExpanded := false, Children := [],
      Parent := some 0, Depth := 1 },
    { Name := "b.txt", Path := "/r/b.txt", IsDir := false, IsExpanded := false, Children := [],
      Parent := some 0, Depth := 1 },
    { Name := "sub", Path := "/r/sub", IsDir := true, IsExpanded := true, Children := [4],
      Parent := some 0, Depth := 1 },
    { Name := "c.txt", Path := "/r/sub/c.txt", IsDir := false, IsExpanded := false,
      Children := [], Parent := some 3, Depth := 2 } ]

/-- The model `New` returns for the demo tree. -/
def demoModel : Model :=
  { heap := demoHeap, tree := 0, cursor := 0, flattenedNodes := [0, 1, 2, 3],
    initialDepth := 1, rootPath := "/r", status := "", viewportHeight := 1000,
    viewportOffset := 0, terminalHeight := 1000, terminalWidth := 80, pendingG := false }

/-- The demo model after `G` and `enter`: the cursor is on `sub`, now expanded, and `c.txt`
has been loaded. -/
def demoModelExpanded : Model :=
  { demoModel with heap := demoHeapExpanded, cursor := 3, flattenedNodes := [0, 1, 2, 3, 4] }

/-- The demo model after a resize to a 5-line terminal, `G`, `enter` and `G`: five nodes in a
window of four lines, scrolled down by one. -/
def demoModelScrolled : Model :=
  { demoModelExpanded with
    cursor := 4, viewportHeight := 4, viewportOffset := 1, terminalHeight := 5 }

/-- The demo heap after `LoadChildren` on the root, whose three entries were already loaded
by `Build`: they are appended a second time. -/
def demoHeapReloaded : Heap :=
  [ { Name := "r", Path := "/r", IsDir := true, IsExpanded := true,
      Children := [1, 2, 3, 4, 5, 6], Parent := none, Depth := 0 },
    { Name := "a.txt", Path := "/r/a.txt", IsDir := false, IsExpanded := false, Children := [],
      Parent := some 0, Depth := 1 },
    { Name := "b.txt", Path := "/r/b.txt", IsDir := false, IsExpanded := false, Children := [],
      Parent := some 0, Depth := 1 },
    { Name := "sub", Path := "/r/sub", IsDir := true, IsExpanded := false, Children := [],
      Parent := some 0, Depth := 1 },
    { Name := "a.txt", Path := "/r/a.txt", IsDir := false, IsExpanded := false, Children := [],
      Parent := some 0, Depth := 1 },
    { Name := "b.txt", Path := "/r/b.txt", IsDir := false, IsExpanded := false, Children := [],
      Parent := some 0, Depth := 1 },
    { Name := "sub", Path := "/r/sub", IsDir := true, IsExpanded := false, Children := [],
      Parent := some 0, Depth := 1 } ]

/-- The root record of the demo tree. -/
def demoRoot : Node :=
  { Name := "r", Path := "/r", IsDir := true, IsExpanded := true, Children := [1, 2, 3],
    Parent := none, Depth := 0 }

/-- The scroll scenario of the specification: five visible nodes, a window of two lines,
cursor and offset at 0. -/
def scrollScenario : Model :=
  { demoModelExpanded with cursor := 0, viewportHeight := 2, viewportOffset := 0 }

/-- The demo session after `G`, `enter`, `G` and a resize to a terminal of `2^63 - 1` lines:
the cursor is on the last of five nodes and the viewport is `2^63 - 4` lines high. -/
def demoModelTall : Model :=
  { demoModelExpanded with
    cursor := 4, viewportHeight := 9223372036854775804,
    terminalHeight := 9223372036854775807 }

/-- The demo model after `G`: the cursor is on the collapsed directory `sub`. -/
def demoModelAtSub : Model := { demoModel with cursor := 3 }

/-- A file system in which the directory `d` is followed by a sibling: `/r` holds `d` and
`z.txt`, and `/r/d` holds `x.txt`. -/
def siblingEnv : Env where
  ReadDir := fun p =>
    if p = "/r" then some [⟨"d", true⟩, ⟨"z.txt", false⟩]
    else if p = "/r/d" then some [⟨"x.txt", false⟩]
    else none
  Join := fun a b => a ++ "/" ++ b
  Base := fun p => p.drop 1
  OpenFile := fun _ => none

/-- The tree of `siblingEnv` built with depth 2: `x.txt`, allocated during the recursion
into `d`, comes before `z.txt`. -/
def siblingHeap : Heap :=
  [ { Name := "r", Path := "/r", IsDir := true, IsExpanded := true, Children := [1, 3],
      Parent := none, Depth := 0 },
    { Name := "d", Path := "/r/d", IsDir := true, IsExpanded := true, Children := [2],
      Parent := some 0, Depth := 1 },
    { Name := "x.txt", Path := "/r/d/x.txt", IsDir := false, IsExpanded := false,
      Children := [], Parent := some 1, Depth := 2 },
    { Name := "z.txt", Path := "/r/z.txt", IsDir := false, IsExpanded := false,
      Children := [], Parent := some 0, Depth := 1 } ]

/-- A file system that is infinitely deep: every directory read succeeds and returns one
sub-directory `d`. -/
def deepEnv : Env where
  ReadDir := fun _ => some [⟨"d", true⟩]
  Join := fun a b => a ++ "/" ++ b
  Base := fun p => p.drop 1
  OpenFile := fun _ => none

/-- The demo file system with an opener that fails on `a.txt` and succeeds on any other
file. -/
def openEnv : Env :=
  { demoEnv with
    Base := fun p => if p = "/r/a.txt" then "a.txt" else p.drop 1
    OpenFile := fun p => if p = "/r/a.txt" then some "exit status 1" else none }

/-- The number of lines of a string: one more than its line breaks (the length of Go's
`strings.Split(s, "\n")`). -/
def lineCount (s : String) : Nat := (s.data.filter (fun c => c = '\n')).length + 1

/-- A directory `/r` with eight files `f1` … `f8`. -/
def wideEnv : Env where
  ReadDir := fun p =>
    if p = "/r" then
      some [⟨"f1", false⟩, ⟨"f2", false⟩, ⟨"f3", false⟩, ⟨"f4", false⟩, ⟨"f5", false⟩,
        ⟨"f6", false⟩, ⟨"f7", false⟩, ⟨"f8", false⟩]
    else none
  Join := fun a b => a ++ "/" ++ b
  Base := fun p => p.drop 1
  OpenFile := fun _ => none

/-- The string holds no line break. -/
def NoBreak (s : String) : Prop := '\n' ∉ s.data

instance (s : String) : Decidable (NoBreak s) :=
  inferInstanceAs (Decidable ('\n' ∉ s.data))

/-- Splitting at line breaks: `cur` holds, reversed, the characters of the row being read. -/
def rowsOf.go : List Char → List Char → List String
  | [], cur => [String.mk cur.reverse]
  | c :: cs, cur =>
    if c = '\n' then String.mk cur.reverse :: rowsOf.go cs [] else rowsOf.go cs (c :: cur)

/-- The rows of a string as a terminal shows them: the pieces between its line breaks (Go's
`strings.Split(s, "\n")`). -/
def rowsOf (s : String) : List String := rowsOf.go s.data []

/-- A directory `/r` holding one file whose name contains a line break followed by `> `. -/
def breakEnv : Env where
  ReadDir := fun p => if p = "/r" then some [⟨"x\n> y", false⟩] else none
  Join := fun a b => a ++ "/" ++ b
  Base := fun p => p.drop 1
  OpenFile := fun _ => none

/-- The model `New` returns for the tree of `breakEnv` built with depth 1. -/
def breakModel : Model :=
  { heap :=
      [ { Name := "r", Path := "/r", IsDir := true, IsExpanded := true, Children := [1],
          Parent := none, Depth := 0 },
        { Name := "x\n> y", Path := "/r/x\n> y", IsDir := false, IsExpanded := false,
          Children := [], Parent := some 0, Depth := 1 } ],
    tree := 0, cursor := 0, flattenedNodes := [0, 1], initialDepth := 1, rootPath := "/r",
    status := "", viewportHeight := 1000, viewportOffset := 0, terminalHeight := 1000,
    terminalWidth := 80, pendingG := false }

/-! ## The flattener -/

theorem Flat.det {h : Heap} {rs L : List Nat} (hL : Flat h rs L) :
    ∀ {L' : List Nat}, Flat h rs L' → L' = L := by
  induction hL with
  | nil => intro L' h'; cases h'; rfl
  | collapsed hn he _ ih =>
    intro L' h'
    cases h' with
    | collapsed hn' _ ht => rw [ih ht]
    | expanded hn' he' _ _ => rw [hn] at hn'; cases hn'; rw [he] at he'; cases he'
  | expanded hn he _ _ ih1 ih2 =>
    intro L' h'
    cases h' with
    | collapsed hn' he' _ => rw [hn] at hn'; cases hn'; rw [he] at he'; cases he'
    | expanded hn' _ hk ht => rw [hn] at hn'; cases hn'; rw [ih1 hk, ih2 ht]

theorem Flat.append {h : Heap} {rs L : List Nat} (hL : Flat h rs L) :
    ∀ {rs' L' : List Nat}, Flat h rs' L' → Flat h (rs ++ rs') (L ++ L') := by
  induction hL with
  | nil => intro _ _ h'; exact h'
  | collapsed hn he _ ih => intro _ _ h'; exact Flat.collapsed hn he (ih h')
  | expanded hn he hk _ _ ih2 =>
    intro _ _ h'
    have := Flat.expanded hn he hk (ih2 h')
    simpa [List.append_assoc] using this

theorem Flat.cons_inv {h : Heap} {r : Nat} {rs L : List Nat} (hL : Flat h (r :: rs) L) :
    ∃ La Lb, Flat h [r] La ∧ Flat h rs Lb ∧ L = La ++ Lb := by
  cases hL with
  | collapsed hn he ht =>
    exact ⟨[r], _, Flat.collapsed hn he Flat.nil, ht, rfl⟩
  | expanded hn he hk ht =>
    refine ⟨r :: (_ ++ []), _, Flat.expanded hn he hk Flat.nil, ht, ?_⟩
    simp

theorem Flat.head {h : Heap} {r : Nat} {rs L : List Nat} (hL : Flat h (r :: rs) L) :
    ∃ T, L = r :: T := by
  cases hL with
  | collapsed _ _ _ => exact ⟨_, rfl⟩
  | expanded _ _ _ _ => exact ⟨_, rfl⟩

/-- With fuel at least the number of heap cells from `node` on, the loop over a list of
later, valid pointers returns, and what it appends is described by `Flat`. -/
theorem flattenRecursive_loop_total {h : Heap} (recur : Nat → List Nat → Option (List Nat))
    (node : Nat)
    (hrec : ∀ c, node < c → c < h.length →
      ∃ L, (∀ acc, recur c acc = some (acc ++ L)) ∧ Flat h [c] L) :
    ∀ kids : List Nat, (∀ c ∈ kids, node < c ∧ c < h.length) →
      ∃ L, (∀ acc, flattenRecursive.loop recur kids acc = some (acc ++ L)) ∧ Flat h kids L := by
  intro kids
  induction kids with
  | nil => intro _; exact ⟨[], by intro acc; simp [flattenRecursive.loop], Flat.nil⟩
  | cons c rest ih =>
    intro hk
    obtain ⟨Lc, hc, hfc⟩ := hrec c (hk c (List.mem_cons_self _ _)).1 (hk c (List.mem_cons_self _ _)).2
    obtain ⟨Lr, hr, hfr⟩ := ih (fun d hd => hk d (List.mem_cons_of_mem _ hd))
    refine ⟨Lc ++ Lr, ?_, Flat.append hfc hfr⟩
    intro acc
    simp [flattenRecursive.loop, hc, hr, List.append_assoc]

theorem flattenRecursive_total {h : Heap} (ho : Ordered h) :
    ∀ (fuel : Nat) (node : Nat), node < h.length → h.length ≤ fuel + node →
      ∃ L, (∀ acc, flattenRecursive h fuel node acc = some (acc ++ L)) ∧ Flat h [node] L := by
  intro fuel
  induction fuel with
  | zero => intro node h1 h2; omega
  | succ fuel ih =>
    intro node h1 h2
    obtain ⟨n, hn⟩ : ∃ n, h[node]? = some n := ⟨h[node], List.getElem?_eq_getElem h1⟩
    by_cases he : n.IsExpanded = true
    · obtain ⟨L, hL, hf⟩ := flattenRecursive_loop_total
        (flattenRecursive h fuel) node
        (fun c hc1 hc2 => ih c hc2 (by omega)) n.Children (ho node n hn)
      refine ⟨node :: (L ++ []), ?_, Flat.expanded hn he hf Flat.nil⟩
      intro acc
      simp [flattenRecursive, hn, he, hL, List.append_assoc]
    · have he' : n.IsExpanded = false := by simpa using he
      refine ⟨[node], ?_, Flat.collapsed hn he' Flat.nil⟩
      intro acc
      simp [flattenRecursive, hn, he']

/-! ## Heap primitives -/

theorem get_lt {h : Heap} {q : Nat} {n : Node} (hq : h[q]? = some n) : q < h.length := by
  obtain ⟨hlt, _⟩ := List.getElem?_eq_some.mp hq
  exact hlt

theorem get_of_lt {h : Heap} {q : Nat} (hq : q < h.length) : ∃ n, h[q]? = some n :=
  ⟨h[q], List.getElem?_eq_getElem hq⟩

/-- What `addChild` does to the heap, cell by cell. -/
theorem addChild_spec {env : Env} {h h' : Heap} {node c : Nat} {e : DirEntry}
    (ha : addChild env h node e = some (h', c)) :
    c = h.length ∧ h'.length = h.length + 1 ∧
    ∃ n, h[node]? = some n ∧
      h'[node]? = some { n with Children := n.Children ++ [c] } ∧
      h'[c]? = some (newChild env node n e) ∧
      ∀ q, q ≠ node → q ≠ c → h'[q]? = h[q]? := by
  unfold addChild at ha
  cases hn : h[node]? with
  | none => simp [hn] at ha
  | some n =>
    simp only [hn, Option.some.injEq, Prod.mk.injEq] at ha
    obtain ⟨rfl, rfl⟩ := ha
    have hlt := get_lt hn
    refine ⟨rfl, by simp, n, rfl, ?_, ?_, ?_⟩
    · rw [List.getElem?_set]; simp; omega
    · rw [List.getElem?_set]
      have : node ≠ h.length := by omega
      simp [this]
    · intro q hq1 hq2
      rw [List.getElem?_set]
      have : ¬ node = q := fun hh => hq1 hh.symm
      simp only [this, if_false]
      by_cases hql : q < h.length
      · exact List.getElem?_append_left hql
      · have h1 : h.length + 1 ≤ q := by omega
        rw [List.getElem?_eq_none (by simpa using h1), List.getElem?_eq_none (by omega)]

theorem addChild_some (env : Env) {h : Heap} {node : Nat} {n : Node} (e : DirEntry)
    (hn : h[node]? = some n) : ∃ h', addChild env h node e = some (h', h.length) := by
  simp [addChild, hn]

/-- What `setIsExpanded` does to the heap, cell by cell. -/
theorem setIsExpanded_spec {h h' : Heap} {node : Nat} {b : Bool}
    (hs : setIsExpanded h node b = some h') :
    h'.length = h.length ∧
    ∃ n, h[node]? = some n ∧ h'[node]? = some { n with IsExpanded := b } ∧
      ∀ q, q ≠ node → h'[q]? = h[q]? := by
  unfold setIsExpanded at hs
  cases hn : h[node]? with
  | none => simp [hn] at hs
  | some n =>
    simp only [hn, Option.some.injEq] at hs
    subst hs
    have hlt := get_lt hn
    refine ⟨by simp, n, rfl, ?_, ?_⟩
    · rw [List.getElem?_set]; simp [hlt]
    · intro q hq
      rw [List.getElem?_set]
      have : ¬ node = q := fun hh => hq hh.symm
      simp [this]

theorem TreeInv.ordered {h : Heap} {root : Nat} (ht : TreeInv h root) : Ordered h := by
  intro p n hn c hc
  obtain ⟨cn, hcn, hp⟩ := ht.child_of p n c hn hc
  exact ⟨(ht.parent_of c cn p hcn hp).1, get_lt hcn⟩

/-- Adding a child to a directory keeps the tree invariant. -/
theorem TreeInv.addChild {env : Env} {h h' : Heap} {root node c : Nat} {e : DirEntry}
    (ht : TreeInv h root) (ha : addChild env h node e = some (h', c))
    (hd : ∀ n, h[node]? = some n → n.IsDir = true) : TreeInv h' root := by
  obtain ⟨hc, hlen, n, hn, hnode, hnew, hframe⟩ := addChild_spec ha
  have hnlt := get_lt hn
  have hord := ht.ordered
  -- every cell of the new heap, classified
  have hcases : ∀ (q : Nat) (m : Node), h'[q]? = some m →
      (q = node ∧ m = { n with Children := n.Children ++ [c] }) ∨
      (q = c ∧ m = newChild env node n e) ∨
      (q ≠ node ∧ q ≠ c ∧ h[q]? = some m) := by
    intro q m hq
    by_cases h1 : q = node
    · subst h1; rw [hnode] at hq; left; exact ⟨rfl, (Option.some.inj hq).symm⟩
    · by_cases h2 : q = c
      · subst h2; rw [hnew] at hq; right; left; exact ⟨rfl, (Option.some.inj hq).symm⟩
      · right; right; rw [hframe q h1 h2] at hq; exact ⟨h1, h2, hq⟩
  -- an old cell is still there, with the same parent, depth and at least the same children
  have hold : ∀ (q : Nat) (m : Node), h[q]? = some m → ∃ m' : Node, h'[q]? = some m' ∧ m'.Parent = m.Parent ∧
      m'.Depth = m.Depth ∧ (∀ x ∈ m.Children, x ∈ m'.Children) := by
    intro q m hq
    have hqlt := get_lt hq
    by_cases h1 : q = node
    · subst h1; rw [hn] at hq; cases hq
      exact ⟨_, hnode, rfl, rfl, fun x hx => List.mem_append_left _ hx⟩
    · exact ⟨m, by rw [hframe q h1 (by omega)]; exact hq, rfl, rfl, fun x hx => hx⟩
  constructor
  · obtain ⟨r, hr, hp, hdp, hdir⟩ := ht.root_ok
    obtain ⟨r', hr', hp', hd', _⟩ := hold root r hr
    refine ⟨r', hr', by rw [hp', hp], by rw [hd', hdp], ?_⟩
    rcases hcases root r' hr' with ⟨h1, h2⟩ | ⟨h1, _⟩ | ⟨_, _, h3⟩
    · subst h1; rw [hn] at hr; cases hr; rw [h2]; exact hdir
    · have := get_lt hr; omega
    · rw [hr] at h3; cases h3; exact hdir
  · intro q m p hq hp
    rcases hcases q m hq with ⟨h1, h2⟩ | ⟨h1, h2⟩ | ⟨_, _, h3⟩
    · subst h1; subst h2
      obtain ⟨hlt, pn, hpn, hmem, hdep⟩ := ht.parent_of q n p hn hp
      obtain ⟨pn', hpn', _, hd', hch⟩ := hold p pn hpn
      exact ⟨hlt, pn', hpn', hch _ hmem, by rw [hd']; exact hdep⟩
    · subst h1; subst h2
      simp only [newChild, Option.some.injEq] at hp
      subst hp
      exact ⟨by omega, _, hnode, by simp, by simp [newChild]⟩
    · obtain ⟨hlt, pn, hpn, hmem, hdep⟩ := ht.parent_of q m p h3 hp
      obtain ⟨pn', hpn', _, hd', hch⟩ := hold p pn hpn
      exact ⟨hlt, pn', hpn', hch _ hmem, by rw [hd']; exact hdep⟩
  · intro p pn x hp hx
    rcases hcases p pn hp with ⟨h1, h2⟩ | ⟨h1, h2⟩ | ⟨_, _, h3⟩
    · subst h1; subst h2
      simp only [List.mem_append, List.mem_singleton] at hx
      rcases hx with hx | hx
      · obtain ⟨xn, hxn, hxp⟩ := ht.child_of p n x hn hx
        obtain ⟨xn', hxn', hp', _, _⟩ := hold x xn hxn
        exact ⟨xn', hxn', by rw [hp']; exact hxp⟩
      · subst hx; exact ⟨_, hnew, by simp [newChild]⟩
    · subst h2; simp [newChild] at hx
    · obtain ⟨xn, hxn, hxp⟩ := ht.child_of p pn x h3 hx
      obtain ⟨xn', hxn', hp', _, _⟩ := hold x xn hxn
      exact ⟨xn', hxn', by rw [hp']; exact hxp⟩
  · intro p pn hp
    rcases hcases p pn hp with ⟨h1, h2⟩ | ⟨_, h2⟩ | ⟨_, _, h3⟩
    · subst h1; subst h2
      have hnd := ht.nodup p n hn
      have hfresh : c ∉ n.Children := fun hm => by
        have := (hord p n hn c hm).2; omega
      simp only
      rw [List.nodup_append]
      refine ⟨hnd, List.nodup_singleton _, ?_⟩
      intro x hx hx'
      simp only [List.mem_singleton] at hx'
      subst hx'; exact hfresh hx
    · subst h2; simp [newChild]
    · exact ht.nodup p pn h3
  · intro q m hq hne
    rcases hcases q m hq with ⟨h1, h2⟩ | ⟨_, h2⟩ | ⟨_, _, h3⟩
    · subst h1; subst h2; exact ht.has_parent q n hn hne
    · subst h2; simp [newChild]
    · exact ht.has_parent q m h3 hne
  · intro q m hq hf
    rcases hcases q m hq with ⟨h1, h2⟩ | ⟨_, h2⟩ | ⟨_, _, h3⟩
    · subst h1; subst h2
      have := hd n hn
      simp only at hf
      rw [this] at hf; cases hf
    · subst h2; simp [newChild]
    · exact ht.file_leaf q m h3 hf

/-- Setting `IsExpanded` on a directory, or clearing it anywhere, keeps the tree invariant. -/
theorem TreeInv.setIsExpanded {h h' : Heap} {root node : Nat} {b : Bool}
    (ht : TreeInv h root) (hs : setIsExpanded h node b = some h')
    (hd : ∀ n, h[node]? = some n → n.IsDir = true ∨ b = false) : TreeInv h' root := by
  obtain ⟨hlen, n, hn, hnode, hframe⟩ := setIsExpanded_spec hs
  have hcases : ∀ (q : Nat) (m : Node), h'[q]? = some m →
      ∃ m0 : Node, h[q]? = some m0 ∧ m.Parent = m0.Parent ∧ m.Depth = m0.Depth ∧
        m.Children = m0.Children ∧ m.IsDir = m0.IsDir ∧
        (m.IsExpanded = m0.IsExpanded ∨ (q = node ∧ m.IsExpanded = b)) := by
    intro q m hq
    by_cases h1 : q = node
    · subst h1; rw [hnode] at hq; cases hq
      exact ⟨n, hn, rfl, rfl, rfl, rfl, Or.inr ⟨rfl, rfl⟩⟩
    · rw [hframe q h1] at hq
      exact ⟨m, hq, rfl, rfl, rfl, rfl, Or.inl rfl⟩
  have hold : ∀ (q : Nat) (m : Node), h[q]? = some m → ∃ m' : Node, h'[q]? = some m' ∧ m'.Parent = m.Parent ∧
      m'.Depth = m.Depth ∧ m'.Children = m.Children ∧ m'.IsDir = m.IsDir := by
    intro q m hq
    by_cases h1 : q = node
    · subst h1; rw [hn] at hq; cases hq
      exact ⟨_, hnode, rfl, rfl, rfl, rfl⟩
    · exact ⟨m, by rw [hframe q h1]; exact hq, rfl, rfl, rfl, rfl⟩
  constructor
  · obtain ⟨r, hr, hp, hdp, hdir⟩ := ht.root_ok
    obtain ⟨r', hr', hp', hd', _, hi'⟩ := hold root r hr
    exact ⟨r', hr', by rw [hp', hp], by rw [hd', hdp], by rw [hi', hdir]⟩
  · intro q m p hq hp
    obtain ⟨m0, hq0, e1, e2, _, _, _⟩ := hcases q m hq
    obtain ⟨hlt, pn, hpn, hmem, hdep⟩ := ht.parent_of q m0 p hq0 (by rw [← e1]; exact hp)
    obtain ⟨pn', hpn', _, hd', hch, _⟩ := hold p pn hpn
    exact ⟨hlt, pn', hpn', by rw [hch]; exact hmem, by rw [hd', e2]; exact hdep⟩
  · intro p pn x hp hx
    obtain ⟨p0, hp0, _, _, e3, _, _⟩ := hcases p pn hp
    obtain ⟨xn, hxn, hxp⟩ := ht.child_of p p0 x hp0 (by rw [← e3]; exact hx)
    obtain ⟨xn', hxn', hp', _, _, _⟩ := hold x xn hxn
    exact ⟨xn', hxn', by rw [hp']; exact hxp⟩
  · intro p pn hp
    obtain ⟨p0, hp0, _, _, e3, _, _⟩ := hcases p pn hp
    rw [e3]; exact ht.nodup p p0 hp0
  · intro q m hq hne
    obtain ⟨m0, hq0, e1, _, _, _, _⟩ := hcases q m hq
    rw [e1]; exact ht.has_parent q m0 hq0 hne
  · intro q m hq hf
    obtain ⟨m0, hq0, _, _, e3, e4, e5⟩ := hcases q m hq
    obtain ⟨f1, f2⟩ := ht.file_leaf q m0 hq0 (by rw [← e4]; exact hf)
    refine ⟨?_, by rw [e3]; exact f2⟩
    rcases e5 with e5 | ⟨e5, e6⟩
    · rw [e5]; exact f1
    · subst e5
      rw [hn] at hq0; cases hq0
      rcases hd _ hn with hh | hh
      · rw [e4, hh] at hf; cases hf
      · rw [e6]; exact hh

/-! ## Loading children -/

theorem Immut.refl (h : Heap) : Immut h h :=
  fun _ m hq => ⟨m, hq, rfl, rfl, rfl, rfl, rfl⟩

theorem Immut.comp {h1 h2 h3 : Heap} (a : Immut h1 h2) (b : Immut h2 h3) : Immut h1 h3 := by
  intro q m hq
  obtain ⟨m2, hq2, e1, e2, e3, e4, e5⟩ := a q m hq
  obtain ⟨m3, hq3, f1, f2, f3, f4, f5⟩ := b q m2 hq2
  exact ⟨m3, hq3, f1.trans e1, f2.trans e2, f3.trans e3, f4.trans e4, f5.trans e5⟩

theorem Immut.length_le {h h' : Heap} (a : Immut h h') : h.length ≤ h'.length := by
  by_contra hc
  have hlt : h'.length < h.length := by omega
  obtain ⟨m, hm⟩ := get_of_lt hlt
  obtain ⟨m', hm', _⟩ := a _ m hm
  have := get_lt hm'
  omega

theorem Immut.by_addChild {env : Env} {h h' : Heap} {node c : Nat} {e : DirEntry}
    (ha : addChild env h node e = some (h', c)) : Immut h h' := by
  obtain ⟨hc, _, n, hn, hnode, _, hframe⟩ := addChild_spec ha
  intro q m hq
  have hqlt := get_lt hq
  by_cases h1 : q = node
  · subst h1; rw [hn] at hq; cases hq
    exact ⟨_, hnode, rfl, rfl, rfl, rfl, rfl⟩
  · exact ⟨m, by rw [hframe q h1 (by omega)]; exact hq, rfl, rfl, rfl, rfl, rfl⟩

theorem Immut.by_setIsExpanded {h h' : Heap} {node : Nat} {b : Bool}
    (hs : setIsExpanded h node b = some h') : Immut h h' := by
  obtain ⟨_, n, hn, hnode, hframe⟩ := setIsExpanded_spec hs
  intro q m hq
  by_cases h1 : q = node
  · subst h1; rw [hn] at hq; cases hq
    exact ⟨_, hnode, rfl, rfl, rfl, rfl, rfl⟩
  · exact ⟨m, by rw [hframe q h1]; exact hq, rfl, rfl, rfl, rfl, rfl⟩

theorem ChildrenOf.mono {env : Env} {h h' : Heap} {p : Nat} {path : String} {depth : Int}
    {kids : List Nat} {es : List DirEntry} (hc : ChildrenOf env h p path depth kids es)
    (hi : Immut h h') : ChildrenOf env h' p path depth kids es := by
  unfold ChildrenOf at hc ⊢
  refine List.Forall₂.imp ?_ hc
  rintro c e ⟨cn, hcn, e1, e2, e3, e4, e5⟩
  obtain ⟨cn', hcn', f1, f2, f3, f4, f5⟩ := hi c cn hcn
  exact ⟨cn', hcn', f1.trans e1, f3.trans e2, f2.trans e3, f4.trans e4, f5.trans e5⟩

theorem ChildrenOf.snoc {env : Env} {h : Heap} {p : Nat} {path : String} {depth : Int}
    {kids : List Nat} {es : List DirEntry} (hc : ChildrenOf env h p path depth kids es)
    {c : Nat} {e : DirEntry} {cn : Node} (hcn : h[c]? = some cn) (e1 : cn.Name = e.Name)
    (e2 : cn.IsDir = e.IsDir) (e3 : cn.Path = env.Join path e.Name) (e4 : cn.Parent = some p)
    (e5 : cn.Depth = depth + 1) : ChildrenOf env h p path depth (kids ++ [c]) (es ++ [e]) := by
  unfold ChildrenOf at hc ⊢
  exact List.rel_append hc (List.Forall₂.cons ⟨cn, hcn, e1, e2, e3, e4, e5⟩ List.Forall₂.nil)

theorem Built.stable {env : Env} {D : Int} {root : Nat} {h h' : Heap} {q : Nat}
    (hb : Built env D root h q) (hq : h'[q]? = h[q]?) (hi : Immut h h') :
    Built env D root h' q := by
  obtain ⟨n, hn, b1, b2, b3⟩ := hb
  refine ⟨n, by rw [hq]; exact hn, b1, ?_, b3⟩
  intro hc
  exact ⟨fun es hes => ((b2 hc).1 es hes).mono hi, (b2 hc).2⟩

theorem setIsExpanded_some {h : Heap} {node : Nat} {n : Node} (b : Bool)
    (hn : h[node]? = some n) : ∃ h', setIsExpanded h node b = some h' := by
  simp [setIsExpanded, hn]

/-- One pass of the loop of `loadChildrenRecursive` keeps the loop invariant, provided the
recursive call meets its contract on the freshly made sub-directory. -/
theorem loadChildrenRecursive_loop_spec {env : Env} {D : Int} {root : Nat}
    (recur : Heap → Nat → Option Heap) {h0 : Heap} {node : Nat} {n : Node}
    (hn0 : h0[node]? = some n) (hdir : n.IsDir = true) (hroot : root < h0.length)
    (hrec : ∀ (h : Heap) (c : Nat) (cn : Node), TreeInv h root → h[c]? = some cn →
      cn.IsDir = true → cn.IsExpanded = true → cn.Children = [] → c ≠ root →
      cn.Depth = n.Depth + 1 → cn.Depth < D →
      ∃ h', recur h c = some h' ∧ LoadPost env D root h c h') :
    ∀ (entries done : List DirEntry) (h : Heap), LoadInv env D root h0 node n h done →
      ∃ h', loadChildrenRecursive.loop env D recur node entries h = some h' ∧
        LoadInv env D root h0 node n h' (done ++ entries) := by
  intro entries
  induction entries with
  | nil =>
    intro done h hinv
    exact ⟨h, by simp [loadChildrenRecursive.loop], by simpa using hinv⟩
  | cons e rest ih =>
    intro done h hinv
    obtain ⟨m, hm, hmexp, hmkids⟩ := hinv.node_ok
    obtain ⟨m', hm', -, hmpath, hmdir, -, hmdepth⟩ := hinv.immut node n hn0
    rw [hm] at hm'; cases hm'
    have hlen0 := hinv.immut.length_le
    have hnodelt := get_lt hn0
    obtain ⟨h1, ha⟩ := addChild_some env e hm
    obtain ⟨-, hlen1, m2, hm2, hnode1, hnew1, hframe1⟩ := addChild_spec ha
    rw [hm] at hm2; cases hm2
    have hinv1 : TreeInv h1 root :=
      hinv.inv.addChild ha (fun x hx => by rw [hm] at hx; cases hx; rw [hmdir, hdir])
    have himm1 : Immut h h1 := Immut.by_addChild ha
    have hkids1 : ChildrenOf env h1 node n.Path n.Depth (m.Children ++ [h.length])
        (done ++ [e]) :=
      (hmkids.mono himm1).snoc hnew1 rfl rfl (by simp [newChild, hmpath]) rfl
        (by simp [newChild, hmdepth])
    have hold1 : ∀ q, h0.length ≤ q → q < h.length → h1[q]? = h[q]? :=
      fun q hq1 hq2 => hframe1 q (by omega) (by omega)
    rw [loadChildrenRecursive.loop, ha]
    simp only [hnew1]
    by_cases hcond : (newChild env node m e).IsDir = true ∧ (newChild env node m e).Depth < D
    · -- a sub-directory above the depth limit: expand it and recurse
      rw [if_pos hcond]
      obtain ⟨h2, hs⟩ := setIsExpanded_some true hnew1
      obtain ⟨hlen2, c2, hc2, hnode2, hframe2⟩ := setIsExpanded_spec hs
      rw [hnew1] at hc2; cases hc2
      have hinv2 : TreeInv h2 root :=
        hinv1.setIsExpanded hs (fun x hx => by rw [hnew1] at hx; cases hx; exact Or.inl hcond.1)
      have himm2 : Immut h1 h2 := Immut.by_setIsExpanded hs
      obtain ⟨h3, hr, hinv3, himm3, hframe3, hfresh3⟩ :=
        hrec h2 h.length _ hinv2 hnode2 hcond.1 rfl rfl (by omega)
          (by simp [newChild, hmdepth]) hcond.2
      rw [hs]
      simp only [hr]
      have hinv' : LoadInv env D root h0 node n h3 (done ++ [e]) := by
        refine ⟨hinv3, hinv.immut.comp (himm1.comp (himm2.comp himm3)), ?_, ?_, ?_⟩
        · intro q hq1 hq2
          rw [hframe3 q (by omega) (by omega), hframe2 q (by omega),
            hframe1 q hq2 (by omega), hinv.frame q hq1 hq2]
        · refine ⟨{ m with Children := m.Children ++ [h.length] }, ?_, hmexp,
            hkids1.mono (himm2.comp himm3)⟩
          rw [hframe3 node (by omega) (by omega), hframe2 node (by omega), hnode1]
        · intro q hq1 hq2
          by_cases hq3 : q < h.length
          · have hb := hinv.fresh q hq1 hq3
            refine hb.stable ?_ (himm1.comp (himm2.comp himm3))
            rw [hframe3 q (by omega) (by omega), hframe2 q (by omega), hold1 q hq1 hq3]
          · by_cases hq4 : q = h.length
            · exact hfresh3 q (Or.inl hq4) hq2
            · exact hfresh3 q (Or.inr (by omega)) hq2
      obtain ⟨h', hl, hinv''⟩ := ih (done ++ [e]) h3 hinv'
      exact ⟨h', hl, by simpa [List.append_assoc] using hinv''⟩
    · -- a file, or a directory at the depth limit: left as allocated
      rw [if_neg hcond]
      have hinv' : LoadInv env D root h0 node n h1 (done ++ [e]) := by
        refine ⟨hinv1, hinv.immut.comp himm1, ?_, ?_, ?_⟩
        · intro q hq1 hq2
          rw [hframe1 q hq2 (by omega), hinv.frame q hq1 hq2]
        · exact ⟨{ m with Children := m.Children ++ [h.length] }, hnode1, hmexp, hkids1⟩
        · intro q hq1 hq2
          by_cases hq3 : q < h.length
          · exact (hinv.fresh q hq1 hq3).stable (hold1 q hq1 hq3) himm1
          · have hq4 : q = h.length := by omega
            subst hq4
            refine ⟨_, hnew1, ?_, fun hc => absurd hc hcond, fun _ => rfl⟩
            constructor
            · intro hx; simp [newChild] at hx
            · rintro (hx | hx)
              · omega
              · exact absurd hx hcond
      obtain ⟨h', hl, hinv''⟩ := ih (done ++ [e]) h1 hinv'
      exact ⟨h', hl, by simpa [List.append_assoc] using hinv''⟩

/-- Total correctness of `loadChildrenRecursive`: called on an expanded directory without
children, with more fuel than levels left above the depth limit, it returns and meets its
contract. -/
theorem loadChildrenRecursive_spec (env : Env) (D : Int) {root : Nat} :
    ∀ (fuel : Nat) (h : Heap) (node : Nat) (n : Node), TreeInv h root → h[node]? = some n →
      n.IsDir = true → n.IsExpanded = true → n.Children = [] →
      (node = root ∨ n.Depth < D) → (D - n.Depth).toNat < fuel →
      ∃ h', loadChildrenRecursive env D fuel h node = some h' ∧ LoadPost env D root h node h' := by
  intro fuel
  induction fuel with
  | zero => intro h node n _ _ _ _ _ _ hf; omega
  | succ fuel ih =>
    intro h node n hinv hn hdir hexp hkids hwhere hf
    have hself : ∀ q, (q = node ∨ h.length ≤ q) → q < h.length → q = node := by
      intro q hq1 hq2
      rcases hq1 with hq1 | hq1
      · exact hq1
      · omega
    rw [loadChildrenRecursive]
    simp only [hn]
    by_cases hge : n.Depth ≥ D
    · rw [if_pos hge]
      refine ⟨h, rfl, hinv, Immut.refl h, fun _ _ _ => rfl, ?_⟩
      intro q hq1 hq2
      have := hself q hq1 hq2
      subst this
      have hr : q = root := by
        rcases hwhere with hw | hw
        · exact hw
        · omega
      exact ⟨n, hn, ⟨fun _ => Or.inl hr, fun _ => hexp⟩, fun hc => by omega, fun _ => hkids⟩
    · rw [if_neg hge]
      have hlt : n.Depth < D := by omega
      cases hrd : env.ReadDir n.Path with
      | none =>
        refine ⟨h, rfl, hinv, Immut.refl h, fun _ _ _ => rfl, ?_⟩
        intro q hq1 hq2
        have := hself q hq1 hq2
        subst this
        refine ⟨n, hn, ⟨fun _ => Or.inr ⟨hdir, hlt⟩, fun _ => hexp⟩, fun _ => ⟨?_, fun _ => hkids⟩,
          fun hc => absurd ⟨hdir, hlt⟩ hc⟩
        intro es hes
        rw [hrd] at hes; cases hes
      | some entries =>
        have hrootlt : root < h.length := by
          obtain ⟨r, hr, _⟩ := hinv.root_ok
          exact get_lt hr
        have hstart : LoadInv env D root h node n h [] := by
          refine ⟨hinv, Immut.refl h, fun _ _ _ => rfl, ⟨n, hn, rfl, ?_⟩, ?_⟩
          · rw [hkids]; exact List.Forall₂.nil
          · intro q hq1 hq2; omega
        obtain ⟨h', hl, hfin⟩ := loadChildrenRecursive_loop_spec
          (loadChildrenRecursive env D fuel) hn hdir hrootlt
          (fun h2 c cn hi hc hd he hk hne hdep hlim =>
            ih h2 c cn hi hc hd he hk (Or.inr hlim) (by omega))
          entries [] h hstart
        refine ⟨h', hl, hfin.inv, hfin.immut, hfin.frame, ?_⟩
        intro q hq1 hq2
        by_cases hq3 : q = node
        · subst hq3
          obtain ⟨m, hm, hmexp, hmkids⟩ := hfin.node_ok
          obtain ⟨m', hm', -, hmpath, hmdir, -, hmdepth⟩ := hfin.immut q n hn
          rw [hm] at hm'; cases hm'
          refine ⟨m, hm, ?_, ?_, ?_⟩
          · rw [hmexp, hmdir, hmdepth]
            exact ⟨fun _ => Or.inr ⟨hdir, hlt⟩, fun _ => hexp⟩
          · intro _
            rw [hmpath, hmdepth, hrd]
            refine ⟨fun es hes => ?_, fun hx => by cases hx⟩
            cases hes
            simpa using hmkids
          · intro hc
            rw [hmdir, hmdepth] at hc
            exact absurd ⟨hdir, hlt⟩ hc
        · have hq4 : h.length ≤ q := by
            rcases hq1 with hq1 | hq1
            · exact absurd hq1 hq3
            · exact hq1
          exact hfin.fresh q hq4 hq2

theorem Build_spec (env : Env) (fuel : Nat) (rootPath : String) (D : Int)
    (hf : D.toNat < fuel) :
    ∃ h, Build env fuel rootPath D = some (h, 0) ∧ TreeInv h 0 ∧
      (∀ q, q < h.length → Built env D 0 h q) ∧
      ∃ r : Node, h[0]? = some r ∧ r.Name = env.Base rootPath ∧ r.Path = rootPath ∧
        r.IsDir = true ∧ r.Parent = none ∧ r.Depth = 0 := by
  let rootNode : Node :=
    { Name := env.Base rootPath, Path := rootPath, IsDir := true, IsExpanded := true,
      Children := [], Parent := none, Depth := 0 }
  have hinv : TreeInv [rootNode] 0 := by
    have hcell : ∀ (q : Nat) (m : Node), [rootNode][q]? = some m → q = 0 ∧ m = rootNode := by
      intro q m hq
      have hlt := get_lt hq
      have hq0 : q = 0 := by simpa using hlt
      subst hq0
      simp at hq
      exact ⟨rfl, hq.symm⟩
    constructor
    · exact ⟨rootNode, rfl, rfl, rfl, rfl⟩
    · intro c n p hc hp; obtain ⟨_, rfl⟩ := hcell c n hc; cases hp
    · intro p pn c hp hc; obtain ⟨_, rfl⟩ := hcell p pn hp; cases hc
    · intro p pn hp; obtain ⟨_, rfl⟩ := hcell p pn hp; exact List.nodup_nil
    · intro c n hc hne; exact absurd (hcell c n hc).1 hne
    · intro p n hp hf; obtain ⟨_, rfl⟩ := hcell p n hp; cases hf
  obtain ⟨h', hl, hinv', himm, _, hb⟩ :=
    loadChildrenRecursive_spec env D fuel [rootNode] 0 rootNode hinv rfl rfl rfl rfl
      (Or.inl rfl) (by simpa using hf)
  refine ⟨h', ?_, hinv', ?_, ?_⟩
  · show (match loadChildrenRecursive env D fuel [rootNode] 0 with
      | none => none
      | some h => some (h, 0)) = some (h', 0)
    rw [hl]
  · intro q hq
    refine hb q ?_ hq
    by_cases h0 : q = 0
    · exact Or.inl h0
    · right; simp; omega
  · obtain ⟨r, hr, e1, e2, e3, e4, e5⟩ := himm 0 rootNode rfl
    exact ⟨r, hr, e1, e2, e3, e4, e5⟩

theorem LoadChildren_loop_eq (env : Env) (node : Nat) :
    ∀ (entries : List DirEntry) (h : Heap) (n : Node), h[node]? = some n →
      LoadChildren.loop env node entries h =
        some ((h ++ entries.map (newChild env node n)).set node
          { n with Children := n.Children ++ List.range' h.length entries.length }) := by
  intro entries
  induction entries with
  | nil =>
    intro h n hn
    have hlt := get_lt hn
    simp only [LoadChildren.loop, List.map_nil, List.append_nil, List.length_nil, List.range'_zero,
      Option.some.injEq]
    apply List.ext_getElem?
    intro i
    rw [List.getElem?_set]
    by_cases hi : node = i
    · subst hi; simp [hlt, hn]
    · simp [hi]
  | cons e rest ih =>
    intro h n hn
    have hlt := get_lt hn
    obtain ⟨h1, ha⟩ := addChild_some env e hn
    obtain ⟨-, hlen1, m2, hm2, hnode1, hnew1, hframe1⟩ := addChild_spec ha
    rw [hn] at hm2; cases hm2
    rw [LoadChildren.loop, ha]
    simp only
    rw [ih h1 _ hnode1]
    simp only [Option.some.injEq]
    apply List.ext_getElem?
    intro i
    simp only [List.getElem?_set, List.length_append, List.length_map, List.length_cons, hlen1]
    by_cases hi : node = i
    · subst hi
      simp only [if_true]
      have h1 : node < h.length + 1 + rest.length := by omega
      have h2 : node < h.length + (rest.length + 1) := by omega
      simp [h1, h2, List.range'_succ, List.append_assoc]
    · simp only [hi, if_false]
      by_cases hi2 : i < h.length
      · rw [List.getElem?_append_left (by omega), List.getElem?_append_left hi2,
          hframe1 i (fun hh => hi hh.symm) (by omega)]
      · by_cases hi3 : i = h.length
        · subst hi3
          rw [List.getElem?_append_left (by omega), hnew1, List.getElem?_append_right (by omega)]
          simp [newChild]
        · rw [List.getElem?_append_right (by omega), List.getElem?_append_right (by omega), hlen1]
          have : i - h.length = (i - (h.length + 1)) + 1 := by omega
          rw [this]
          simp only [List.map_cons, List.getElem?_cons_succ, List.getElem?_map]
          rfl

/-! ## Tree shape: descendants and the absence of sharing -/

theorem Desc.trans {h : Heap} {a b c : Nat} (h1 : Desc h a b) (h2 : Desc h b c) :
    Desc h a c := by
  induction h2 with
  | refl => exact h1
  | step _ hp hb ih => exact Desc.step ih hp hb

theorem TreeInv.depth_child {h : Heap} {root : Nat} (ht : TreeInv h root) {p c : Nat}
    {pn : Node} (hp : h[p]? = some pn) (hc : c ∈ pn.Children) :
    depthOf h c = depthOf h p + 1 := by
  obtain ⟨cn, hcn, hpar⟩ := ht.child_of p pn c hp hc
  obtain ⟨_, pn', hpn', _, hd⟩ := ht.parent_of c cn p hcn hpar
  rw [hp] at hpn'; cases hpn'
  simp [depthOf, hcn, hp, hd]

theorem TreeInv.parent_unique {h : Heap} {root : Nat} (ht : TreeInv h root) {p p' c : Nat}
    {pn pn' : Node} (hp : h[p]? = some pn) (hc : c ∈ pn.Children)
    (hp' : h[p']? = some pn') (hc' : c ∈ pn'.Children) : p = p' := by
  obtain ⟨cn, hcn, hpar⟩ := ht.child_of p pn c hp hc
  obtain ⟨cn', hcn', hpar'⟩ := ht.child_of p' pn' c hp' hc'
  rw [hcn] at hcn'; cases hcn'
  rw [hpar] at hpar'
  exact Option.some.inj hpar'

theorem Desc.depth_le {h : Heap} {root : Nat} (ht : TreeInv h root) {a b : Nat}
    (hd : Desc h a b) : depthOf h a ≤ depthOf h b ∧ (depthOf h a = depthOf h b → a = b) := by
  induction hd with
  | refl => exact ⟨le_refl _, fun _ => rfl⟩
  | step _ hp hb ih =>
    have := ht.depth_child hp hb
    constructor
    · omega
    · intro he; omega

theorem Desc.linear {h : Heap} {root : Nat} (ht : TreeInv h root) {a y : Nat}
    (ha : Desc h a y) : ∀ {b : Nat}, Desc h b y → Desc h a b ∨ Desc h b a := by
  induction ha with
  | refl => intro b hb; exact Or.inr hb
  | step hap hp hy ih =>
    intro b hb
    cases hb with
    | refl => exact Or.inl (Desc.step hap hp hy)
    | step hbp' hp' hy' =>
      have := ht.parent_unique hp hy hp' hy'
      subst this
      exact ih hbp'

theorem Desc.same_depth {h : Heap} {root : Nat} (ht : TreeInv h root) {a b y : Nat}
    (ha : Desc h a y) (hb : Desc h b y) (hd : depthOf h a = depthOf h b) : a = b := by
  rcases ha.linear ht hb with hab | hba
  · exact (hab.depth_le ht).2 hd
  · exact ((hba.depth_le ht).2 hd.symm).symm

theorem Flat.mem_desc {h : Heap} {rs L : List Nat} (hL : Flat h rs L) :
    ∀ y ∈ L, ∃ r ∈ rs, Desc h r y := by
  induction hL with
  | nil => intro y hy; cases hy
  | @collapsed r n rs L hn he _ ih =>
    intro y hy
    rcases List.mem_cons.mp hy with hy | hy
    · subst hy; exact ⟨y, List.mem_cons_self _ _, Desc.refl y⟩
    · obtain ⟨r', hr', hd⟩ := ih y hy
      exact ⟨r', List.mem_cons_of_mem _ hr', hd⟩
  | @expanded r n rs L1 L2 hn he _ _ ih1 ih2 =>
    intro y hy
    rcases List.mem_cons.mp hy with hy | hy
    · subst hy; exact ⟨y, List.mem_cons_self _ _, Desc.refl y⟩
    · rcases List.mem_append.mp hy with hy | hy
      · obtain ⟨k, hk, hd⟩ := ih1 y hy
        exact ⟨r, List.mem_cons_self _ _, (Desc.step (Desc.refl r) hn hk).trans hd⟩
      · obtain ⟨r', hr', hd⟩ := ih2 y hy
        exact ⟨r', List.mem_cons_of_mem _ hr', hd⟩

/-- Visiting distinct nodes of one depth lists no node twice. -/
theorem Flat.nodup {h : Heap} {root : Nat} (ht : TreeInv h root) {rs L : List Nat}
    (hL : Flat h rs L) : rs.Nodup → (∀ d : Int, (∀ r ∈ rs, depthOf h r = d) → L.Nodup) := by
  induction hL with
  | nil => intro _ _ _; exact List.nodup_nil
  | @collapsed r n rs L hn he hrest ih =>
    intro hnd d hd
    have hnd' := List.nodup_cons.mp hnd
    have hL := ih hnd'.2 d (fun r' hr' => hd r' (List.mem_cons_of_mem _ hr'))
    refine List.nodup_cons.mpr ⟨?_, hL⟩
    intro hmem
    obtain ⟨r', hr', hdesc⟩ := hrest.mem_desc r hmem
    have : r' = r := (hdesc.depth_le ht).2
      ((hd r' (List.mem_cons_of_mem _ hr')).trans (hd r (List.mem_cons_self _ _)).symm)
    subst this
    exact hnd'.1 hr'
  | @expanded r n rs L1 L2 hn he hkids hrest ih1 ih2 =>
    intro hnd d hd
    have hnd' := List.nodup_cons.mp hnd
    have hdr : depthOf h r = d := hd r (List.mem_cons_self _ _)
    have hL1 := ih1 (ht.nodup r n hn) (d + 1)
      (fun k hk => by rw [ht.depth_child hn hk, hdr])
    have hL2 := ih2 hnd'.2 d (fun r' hr' => hd r' (List.mem_cons_of_mem _ hr'))
    have hnot2 : ∀ y ∈ L2, ¬ Desc h r y := by
      intro y hy hry
      obtain ⟨r', hr', hdesc⟩ := hrest.mem_desc y hy
      have : r = r' := Desc.same_depth ht hry hdesc
        (hdr.trans (hd r' (List.mem_cons_of_mem _ hr')).symm)
      subst this
      exact hnd'.1 hr'
    have hdesc1 : ∀ y ∈ L1, Desc h r y ∧ depthOf h r < depthOf h y := by
      intro y hy
      obtain ⟨k, hk, hdesc⟩ := hkids.mem_desc y hy
      have h1 := ht.depth_child hn hk
      have h2 := (hdesc.depth_le ht).1
      exact ⟨(Desc.step (Desc.refl r) hn hk).trans hdesc, by omega⟩
    refine List.nodup_cons.mpr ⟨?_, List.nodup_append.mpr ⟨hL1, hL2, ?_⟩⟩
    · intro hmem
      rcases List.mem_append.mp hmem with hm | hm
      · have := (hdesc1 r hm).2; omega
      · exact hnot2 r hm (Desc.refl r)
    · intro y hy1 hy2
      exact hnot2 y hy2 (hdesc1 y hy1).1

/-! ## Changing one node -/

/-- Visiting never reads a node it does not list: a heap that agrees on the listed nodes
gives the same visit. -/
theorem Flat.frame {h h' : Heap} {rs L : List Nat} (hL : Flat h rs L)
    (hagree : ∀ q ∈ L, h'[q]? = h[q]?) : Flat h' rs L := by
  induction hL with
  | nil => exact Flat.nil
  | @collapsed r n rs L hn he _ ih =>
    have hr : h'[r]? = some n := by rw [hagree r (List.mem_cons_self _ _)]; exact hn
    exact Flat.collapsed hr he (ih (fun q hq => hagree q (List.mem_cons_of_mem _ hq)))
  | @expanded r n rs L1 L2 hn he _ _ ih1 ih2 =>
    have hr : h'[r]? = some n := by rw [hagree r (List.mem_cons_self _ _)]; exact hn
    exact Flat.expanded hr he
      (ih1 (fun q hq => hagree q (List.mem_cons_of_mem _ (List.mem_append_left _ hq))))
      (ih2 (fun q hq => hagree q (List.mem_cons_of_mem _ (List.mem_append_right _ hq))))

/-- If only the node listed at position `i` changes, the listing up to and including
position `i` stays as it was. -/
theorem Flat.prefix_stable {h : Heap} (h' : Heap) {x : Nat} {rs L : List Nat}
    (hL : Flat h rs L) :
    L.Nodup → (∀ q ∈ L, q ≠ x → h'[q]? = h[q]?) →
    ∀ (i : Nat) (L' : List Nat), L[i]? = some x → Flat h' rs L' →
      L'.take (i + 1) = L.take (i + 1) := by
  induction hL with
  | nil => intro _ _ i L' hi _; simp at hi
  | @collapsed r n rs L hn he _ ih =>
    intro hnd hagree i L' hi hL'
    have hnd' := List.nodup_cons.mp hnd
    cases i with
    | zero =>
      obtain ⟨T, rfl⟩ := hL'.head
      simp
    | succ j =>
      have hj : L[j]? = some x := by simpa using hi
      have hxL : x ∈ L := List.mem_iff_getElem?.mpr ⟨j, hj⟩
      have hrx : r ≠ x := fun hh => hnd'.1 (hh ▸ hxL)
      have hr : h'[r]? = some n := by rw [hagree r (List.mem_cons_self _ _) hrx]; exact hn
      cases hL' with
      | collapsed hn' he' hrest' =>
        have := ih hnd'.2 (fun q hq => hagree q (List.mem_cons_of_mem _ hq)) j _ hj hrest'
        simp [List.take_succ_cons, this]
      | expanded hn' he' _ _ => rw [hr] at hn'; cases hn'; rw [he] at he'; cases he'
  | @expanded r n rs L1 L2 hn he hkids _ ih1 ih2 =>
    intro hnd hagree i L' hi hL'
    have hnd' := List.nodup_cons.mp hnd
    have hnd12 := List.nodup_append.mp hnd'.2
    cases i with
    | zero =>
      obtain ⟨T, rfl⟩ := hL'.head
      simp
    | succ j =>
      have hj : (L1 ++ L2)[j]? = some x := by simpa using hi
      have hxL : x ∈ L1 ++ L2 := List.mem_iff_getElem?.mpr ⟨j, hj⟩
      have hrx : r ≠ x := fun hh => hnd'.1 (hh ▸ hxL)
      have hr : h'[r]? = some n := by rw [hagree r (List.mem_cons_self _ _) hrx]; exact hn
      cases hL' with
      | collapsed hn' he' _ => rw [hr] at hn'; cases hn'; rw [he] at he'; cases he'
      | @expanded _ _ _ L1' L2' hn' he' hkids' hrest' =>
        rw [hr] at hn'; cases hn'
        have hag1 : ∀ q ∈ L1, q ≠ x → h'[q]? = h[q]? :=
          fun q hq => hagree q (List.mem_cons_of_mem _ (List.mem_append_left _ hq))
        have hag2 : ∀ q ∈ L2, q ≠ x → h'[q]? = h[q]? :=
          fun q hq => hagree q (List.mem_cons_of_mem _ (List.mem_append_right _ hq))
        by_cases hjl : j < L1.length
        · have hj1 : L1[j]? = some x := by rwa [List.getElem?_append_left hjl] at hj
          have h1 := ih1 hnd12.1 hag1 j L1' hj1 hkids'
          have hlen : j + 1 ≤ L1'.length := by
            have := congrArg List.length h1
            simp only [List.length_take] at this
            omega
          simp only [List.take_succ_cons]
          rw [List.take_append_of_le_length hlen, List.take_append_of_le_length (by omega), h1]
        · have hj2 : L2[j - L1.length]? = some x := by
            rwa [List.getElem?_append_right (by omega)] at hj
          have hx2 : x ∈ L2 := List.mem_iff_getElem?.mpr ⟨_, hj2⟩
          have hx1 : x ∉ L1 := fun hm => hnd12.2.2 hm hx2
          have hsame : Flat h' n.Children L1 :=
            hkids.frame (fun q hq => hag1 q hq (fun hh => hx1 (hh ▸ hq)))
          have he1 : L1' = L1 := hsame.det hkids'
          subst he1
          have h2 := ih2 hnd12.2.1 hag2 (j - L1'.length) L2' hj2 hrest'
          simp only [List.take_succ_cons]
          rw [List.take_append_eq_append_take, List.take_append_eq_append_take]
          have : j + 1 - L1'.length = j - L1'.length + 1 := by omega
          rw [this, h2]

/-! ## Fuel -/

theorem loadChildrenRecursive_loop_mono {env : Env} {D : Int}
    {recur recur' : Heap → Nat → Option Heap}
    (hrec : ∀ h c r, recur h c = some r → recur' h c = some r) (node : Nat) :
    ∀ (entries : List DirEntry) (h r : Heap),
      loadChildrenRecursive.loop env D recur node entries h = some r →
      loadChildrenRecursive.loop env D recur' node entries h = some r := by
  intro entries
  induction entries with
  | nil => intro h r hr; simpa [loadChildrenRecursive.loop] using hr
  | cons e rest ih =>
    intro h r hr
    rw [loadChildrenRecursive.loop] at hr ⊢
    cases ha : addChild env h node e with
    | none => simp [ha] at hr
    | some hc =>
      obtain ⟨h1, c⟩ := hc
      simp only [ha] at hr ⊢
      cases hg : h1[c]? with
      | none => simp [hg] at hr
      | some cn =>
        simp only [hg] at hr ⊢
        by_cases hcond : cn.IsDir = true ∧ cn.Depth < D
        · rw [if_pos hcond] at hr ⊢
          cases hs : setIsExpanded h1 c true with
          | none => simp [hs] at hr
          | some h2 =>
            simp only [hs] at hr ⊢
            cases hrc : recur h2 c with
            | none => simp [hrc] at hr
            | some h3 =>
              simp only [hrc] at hr
              simp only [hrec h2 c h3 hrc]
              exact ih h3 r hr
        · rw [if_neg hcond] at hr ⊢
          exact ih h1 r hr

/-- A run of `loadChildrenRecursive` that returns is not changed by more fuel. -/
theorem loadChildrenRecursive_mono {env : Env} {D : Int} :
    ∀ (fuel : Nat) (h : Heap) (node : Nat) (r : Heap),
      loadChildrenRecursive env D fuel h node = some r →
      ∀ fuel', fuel ≤ fuel' → loadChildrenRecursive env D fuel' h node = some r := by
  intro fuel
  induction fuel with
  | zero => intro h node r hr; simp [loadChildrenRecursive] at hr
  | succ fuel ih =>
    intro h node r hr fuel' hle
    obtain ⟨k, rfl⟩ : ∃ k, fuel' = k + 1 := ⟨fuel' - 1, by omega⟩
    rw [loadChildrenRecursive] at hr ⊢
    cases hn : h[node]? with
    | none => simp [hn] at hr
    | some n =>
      simp only [hn] at hr ⊢
      by_cases hge : n.Depth ≥ D
      · rw [if_pos hge] at hr ⊢; exact hr
      · rw [if_neg hge] at hr ⊢
        cases hrd : env.ReadDir n.Path with
        | none => simp only [hrd] at hr ⊢; exact hr
        | some entries =>
          simp only [hrd] at hr ⊢
          exact loadChildrenRecursive_loop_mono
            (fun h2 c r2 h2r => ih h2 c r2 h2r k (by omega)) node entries h r hr

theorem flattenRecursive_loop_sound {h : Heap} {recur : Nat → List Nat → Option (List Nat)}
    (hrec : ∀ c acc r, recur c acc = some r → ∃ L, r = acc ++ L ∧ Flat h [c] L) :
    ∀ (kids acc r : List Nat), flattenRecursive.loop recur kids acc = some r →
      ∃ L, r = acc ++ L ∧ Flat h kids L := by
  intro kids
  induction kids with
  | nil =>
    intro acc r hr
    simp only [flattenRecursive.loop, Option.some.injEq] at hr
    exact ⟨[], by simp [hr], Flat.nil⟩
  | cons c rest ih =>
    intro acc r hr
    rw [flattenRecursive.loop] at hr
    cases hc : recur c acc with
    | none => simp [hc] at hr
    | some acc1 =>
      simp only [hc] at hr
      obtain ⟨Lc, rfl, hfc⟩ := hrec c acc acc1 hc
      obtain ⟨Lr, rfl, hfr⟩ := ih _ r hr
      exact ⟨Lc ++ Lr, by simp [List.append_assoc], Flat.append hfc hfr⟩

/-- Whatever `flattenRecursive` returns is the visit described by `Flat`. -/
theorem flattenRecursive_sound {h : Heap} :
    ∀ (fuel : Nat) (node : Nat) (acc r : List Nat), flattenRecursive h fuel node acc = some r →
      ∃ L, r = acc ++ L ∧ Flat h [node] L := by
  intro fuel
  induction fuel with
  | zero => intro node acc r hr; simp [flattenRecursive] at hr
  | succ fuel ih =>
    intro node acc r hr
    rw [flattenRecursive] at hr
    cases hn : h[node]? with
    | none => simp [hn] at hr
    | some n =>
      simp only [hn] at hr
      by_cases he : n.IsExpanded = true
      · rw [if_pos he] at hr
        obtain ⟨L, rfl, hf⟩ := flattenRecursive_loop_sound (h := h) ih n.Children _ r hr
        refine ⟨node :: (L ++ []), by simp [List.append_assoc], Flat.expanded hn he hf Flat.nil⟩
      · rw [if_neg he] at hr
        simp only [Option.some.injEq] at hr
        subst hr
        exact ⟨[node], rfl, Flat.collapsed hn (by simpa using he) Flat.nil⟩

/-- Whatever `Build` returns is a tree rooted at pointer 0 whose nodes are as `Built` says. -/
theorem Build_sound {env : Env} {fuel : Nat} {rootPath : String} {D : Int} {h : Heap}
    {root : Nat} (hb : Build env fuel rootPath D = some (h, root)) :
    root = 0 ∧ TreeInv h 0 ∧ (∀ q, q < h.length → Built env D 0 h q) ∧
      ∃ r : Node, h[0]? = some r ∧ r.Name = env.Base rootPath ∧ r.Path = rootPath ∧
        r.IsDir = true ∧ r.Parent = none ∧ r.Depth = 0 := by
  obtain ⟨h2, hb2, hrest⟩ := Build_spec env (max fuel (D.toNat + 1)) rootPath D (by omega)
  unfold Build at hb hb2
  simp only [] at hb hb2
  cases hl : loadChildrenRecursive env D fuel
      [{ Name := env.Base rootPath, Path := rootPath, IsDir := true, IsExpanded := true,
         Children := [], Parent := none, Depth := 0 }] 0 with
  | none => simp [hl] at hb
  | some h1 =>
    simp only [hl, Option.some.injEq, Prod.mk.injEq] at hb
    obtain ⟨rfl, rfl⟩ := hb
    rw [loadChildrenRecursive_mono fuel _ 0 h1 hl _ (le_max_left _ _)] at hb2
    simp only [Option.some.injEq, Prod.mk.injEq, and_true] at hb2
    subst hb2
    exact ⟨rfl, hrest⟩

theorem LoadChildren_frame {env : Env} {h h' : Heap} {node : Nat}
    (hl : LoadChildren env h node = some h') :
    Immut h h' ∧ ∀ q, q ≠ node → q < h.length → h'[q]? = h[q]? := by
  unfold LoadChildren at hl
  cases hn : h[node]? with
  | none => simp [hn] at hl
  | some n =>
    simp only [hn] at hl
    cases hrd : env.ReadDir n.Path with
    | none =>
      simp only [hrd, Option.some.injEq] at hl
      subst hl
      exact ⟨Immut.refl h, fun _ _ _ => rfl⟩
    | some entries =>
      simp only [hrd] at hl
      rw [LoadChildren_loop_eq env node entries h n hn] at hl
      simp only [Option.some.injEq] at hl
      subst hl
      have hframe : ∀ q, q ≠ node → q < h.length →
          ((h ++ entries.map (newChild env node n)).set node
            { n with Children := n.Children ++ List.range' h.length entries.length })[q]? =
            h[q]? := by
        intro q hq hlt
        rw [List.getElem?_set]
        have : ¬ node = q := fun hh => hq hh.symm
        simp only [this, if_false]
        exact List.getElem?_append_left hlt
      refine ⟨?_, hframe⟩
      intro q m hq
      by_cases h1 : q = node
      · subst h1
        rw [hn] at hq; cases hq
        refine ⟨{ n with Children := n.Children ++ List.range' h.length entries.length },
          ?_, rfl, rfl, rfl, rfl, rfl⟩
        rw [List.getElem?_set]
        have := get_lt hn
        rw [if_pos rfl, if_pos (by rw [List.length_append]; omega)]
      · exact ⟨m, by rw [hframe q h1 (get_lt hq)]; exact hq, rfl, rfl, rfl, rfl, rfl⟩

theorem LoadChildren_loop_TreeInv {env : Env} {root node : Nat} :
    ∀ (entries : List DirEntry) (h h' : Heap), TreeInv h root →
      (∀ n, h[node]? = some n → n.IsDir = true) →
      LoadChildren.loop env node entries h = some h' → TreeInv h' root := by
  intro entries
  induction entries with
  | nil =>
    intro h h' ht _ hl
    simp only [LoadChildren.loop, Option.some.injEq] at hl
    subst hl; exact ht
  | cons e rest ih =>
    intro h h' ht hd hl
    rw [LoadChildren.loop] at hl
    cases ha : addChild env h node e with
    | none => simp [ha] at hl
    | some hc =>
      obtain ⟨h1, c⟩ := hc
      simp only [ha] at hl
      obtain ⟨-, -, n, hn, hnode1, -, -⟩ := addChild_spec ha
      refine ih h1 h' (ht.addChild ha hd) ?_ hl
      intro x hx
      rw [hnode1] at hx; cases hx
      exact hd n hn

theorem LoadChildren_TreeInv {env : Env} {root node : Nat} {h h' : Heap} {n : Node}
    (ht : TreeInv h root) (hn : h[node]? = some n) (hd : n.IsDir = true)
    (hl : LoadChildren env h node = some h') : TreeInv h' root := by
  unfold LoadChildren at hl
  simp only [hn] at hl
  cases hrd : env.ReadDir n.Path with
  | none =>
    simp only [hrd, Option.some.injEq] at hl
    subst hl; exact ht
  | some entries =>
    simp only [hrd] at hl
    exact LoadChildren_loop_TreeInv entries h h' ht
      (fun x hx => by rw [hn] at hx; cases hx; exact hd) hl

theorem LoadChildren_some (env : Env) {h : Heap} {node : Nat} {n : Node}
    (hn : h[node]? = some n) : ∃ h', LoadChildren env h node = some h' := by
  unfold LoadChildren
  simp only [hn]
  cases hrd : env.ReadDir n.Path with
  | none => exact ⟨h, rfl⟩
  | some entries => exact ⟨_, LoadChildren_loop_eq env node entries h n hn⟩

/-! ## The viewport arithmetic -/

theorem adjust_ok (m : Model) (hlen : m.len < 9223372036854775808)
    (hc0 : 0 ≤ m.cursor) (hc1 : m.cursor < m.len)
    (hv0 : 1 ≤ m.viewportHeight) (hv1 : m.viewportHeight < 9223372036854775808)
    (ho0 : 0 ≤ m.viewportOffset) (ho1 : m.viewportOffset < 9223372036854775808) :
    ∃ o : Int, adjustViewportToCursor m = { m with viewportOffset := o } ∧ 0 ≤ o ∧
      o ≤ max 0 (m.len - m.viewportHeight) ∧ o ≤ m.cursor ∧ m.cursor < o + m.viewportHeight := by
  have hl : ∀ o : Int, Model.len { m with viewportOffset := o } = m.len := fun _ => rfl
  unfold adjustViewportToCursor wrapInt
  simp only []
  split_ifs <;> simp only [hl] at * <;>
    exact ⟨_, rfl, by omega, by omega, by omega, by omega⟩

/-- After `adjustViewportToCursor` the view conditions hold, whatever the offset was before
(as long as it was a non-negative `int`), and nothing but the offset has changed. -/
theorem adjust_view (m : Model) (hlen : m.len < 9223372036854775808)
    (hc0 : 0 ≤ m.cursor) (hc1 : m.cursor < m.len)
    (hv0 : 1 ≤ m.viewportHeight) (hv1 : m.viewportHeight < 9223372036854775808)
    (ho0 : 0 ≤ m.viewportOffset) (ho1 : m.viewportOffset < 9223372036854775808) :
    ∃ o : Int, adjustViewportToCursor m = { m with viewportOffset := o } ∧
      ViewOK m.len m.cursor m.viewportHeight o := by
  obtain ⟨o, he, h1, h2, h3, h4⟩ := adjust_ok m hlen hc0 hc1 hv0 hv1 ho0 ho1
  exact ⟨o, he, ⟨hlen, hc0, hc1, hv0, hv1, h1, h2, h3, h4⟩⟩

theorem ViewOK.off_fit {len cursor vh off : Int} (hv : ViewOK len cursor vh off) :
    off < 9223372036854775808 := by
  have h1 := hv.off_hi
  have h2 := hv.len_fit
  have h3 := hv.vh_lo
  omega

theorem updateViewportHeight_ok (m : Model) (hlen : m.len < 9223372036854775808) :
    ∃ v : Int, updateViewportHeight m = { m with viewportHeight := v } ∧ 1 ≤ v ∧
      v < 9223372036854775808 := by
  have hl0 : 0 ≤ m.len := by unfold Model.len; omega
  unfold updateViewportHeight wrapInt
  simp only []
  split_ifs <;> refine ⟨_, rfl, ?_, ?_⟩ <;> dsimp only at * <;> omega

/-! ## The UI model keeps its invariant -/

theorem Flat.valid {h : Heap} {rs L : List Nat} (hL : Flat h rs L) :
    ∀ q ∈ L, ∃ n : Node, h[q]? = some n := by
  induction hL with
  | nil => intro q hq; cases hq
  | @collapsed r n rs L hn he _ ih =>
    intro q hq
    rcases List.mem_cons.mp hq with hq | hq
    · subst hq; exact ⟨n, hn⟩
    · exact ih q hq
  | @expanded r n rs L1 L2 hn he _ _ ih1 ih2 =>
    intro q hq
    rcases List.mem_cons.mp hq with hq | hq
    · subst hq; exact ⟨n, hn⟩
    · rcases List.mem_append.mp hq with hq | hq
      · exact ih1 q hq
      · exact ih2 q hq

theorem adjust_flattenedNodes (m : Model) :
    (adjustViewportToCursor m).flattenedNodes = m.flattenedNodes := by
  unfold adjustViewportToCursor
  simp only []
  split_ifs <;> rfl

theorem adjust_len (m : Model) : (adjustViewportToCursor m).len = m.len := by
  unfold Model.len; rw [adjust_flattenedNodes]

theorem ModelInv.adjust (m0 : Model) (ht : TreeInv m0.heap m0.tree)
    (hf : Flat m0.heap [m0.tree] m0.flattenedNodes) (hlen : m0.len < 9223372036854775808)
    (hc0 : 0 ≤ m0.cursor) (hc1 : m0.cursor < m0.len)
    (hv0 : 1 ≤ m0.viewportHeight) (hv1 : m0.viewportHeight < 9223372036854775808)
    (ho0 : 0 ≤ m0.viewportOffset) (ho1 : m0.viewportOffset < 9223372036854775808) :
    ModelInv (adjustViewportToCursor m0) := by
  obtain ⟨o, he, hv⟩ := adjust_view m0 hlen hc0 hc1 hv0 hv1 ho0 ho1
  rw [he]
  exact ⟨ht, hf, hv⟩

theorem ModelInv.moveCursor {m : Model} (hm : ModelInv m) (delta : Int) :
    ModelInv (moveCursor m delta) := by
  have hv := hm.view
  have h1 := hv.len_fit; have h2 := hv.cursor_lo; have h3 := hv.cursor_hi
  unfold DTree.moveCursor
  refine ModelInv.adjust _ hm.tree hm.flat hv.len_fit ?_ ?_ hv.vh_lo hv.vh_hi hv.off_lo hv.off_fit
  · show 0 ≤ (if (if wrapInt (m.cursor + delta) < 0 then 0 else wrapInt (m.cursor + delta)) ≥ m.len
      then wrapInt (m.len - 1) else
        (if wrapInt (m.cursor + delta) < 0 then 0 else wrapInt (m.cursor + delta)))
    unfold wrapInt
    split_ifs <;> omega
  · show (if (if wrapInt (m.cursor + delta) < 0 then 0 else wrapInt (m.cursor + delta)) ≥ m.len
      then wrapInt (m.len - 1) else
        (if wrapInt (m.cursor + delta) < 0 then 0 else wrapInt (m.cursor + delta))) < m.len
    unfold wrapInt
    split_ifs <;> omega

theorem ModelInv.windowSize {m : Model} (hm : ModelInv m) (width height : Int) :
    ModelInv (adjustViewportToCursor
      (updateViewportHeight { m with terminalHeight := height, terminalWidth := width })) := by
  have hv := hm.view
  obtain ⟨v, he, hv0, hv1⟩ := updateViewportHeight_ok
    { m with terminalHeight := height, terminalWidth := width } hv.len_fit
  rw [he]
  exact ModelInv.adjust _ hm.tree hm.flat hv.len_fit hv.cursor_lo hv.cursor_hi hv0 hv1
    hv.off_lo hv.off_fit

theorem toggle_frame {env : Env} {h h1 h2 : Heap} {node : Nat} {b : Bool}
    (hs : setIsExpanded h node b = some h1)
    (hl : h2 = h1 ∨ LoadChildren env h1 node = some h2) :
    ∀ q, q ≠ node → q < h.length → h2[q]? = h[q]? := by
  obtain ⟨hlen, n, hn, hnode, hframe⟩ := setIsExpanded_spec hs
  intro q hq hlt
  rcases hl with hl | hl
  · subst hl; exact hframe q hq
  · rw [(LoadChildren_frame hl).2 q hq (by omega), hframe q hq]

theorem ModelInv.enter {env : Env} {fuel : Nat} {m m' : Model} (hm : ModelInv m)
    (he : Update.enter env fuel m = some m') (hfit : FitsInt m') : ModelInv m' := by
  have hv := hm.view
  have hc0 := hv.cursor_lo
  have hc1 := hv.cursor_hi
  unfold Update.enter at he
  dsimp only at he
  have hlen0 : Model.len { m with pendingG := false } = m.len := rfl
  rw [hlen0, if_pos hc1, if_neg (by omega)] at he
  cases hx : m.flattenedNodes[m.cursor.toNat]? with
  | none => simp [hx] at he
  | some node =>
    rw [hx] at he
    dsimp only at he
    cases hn : m.heap[node]? with
    | none => simp [hn] at he
    | some n =>
      rw [hn] at he
      dsimp only at he
      by_cases hdir : n.IsDir = true
      · rw [if_pos hdir] at he
        cases hs : setIsExpanded m.heap node (!n.IsExpanded) with
        | none => simp [hs] at he
        | some h1 =>
          rw [hs] at he
          dsimp only at he
          have ht1 : TreeInv h1 m.tree :=
            hm.tree.setIsExpanded hs (fun x hx' => by rw [hn] at hx'; cases hx'; exact Or.inl hdir)
          obtain ⟨hlen1, n0, hn0, hnode1, hframe1⟩ := setIsExpanded_spec hs
          rw [hn] at hn0; cases hn0
          -- the heap after the optional lazy load
          have hh2 : ∀ h2 : Heap,
              (if (!n.IsExpanded) = true ∧ n.Children.length = 0 then LoadChildren env h1 node
                else some h1) = some h2 →
              TreeInv h2 m.tree ∧ (h2 = h1 ∨ LoadChildren env h1 node = some h2) := by
            intro h2 hh
            by_cases hc : (!n.IsExpanded) = true ∧ n.Children.length = 0
            · rw [if_pos hc] at hh
              exact ⟨LoadChildren_TreeInv ht1 hnode1 hdir hh, Or.inr hh⟩
            · rw [if_neg hc] at hh
              cases hh
              exact ⟨ht1, Or.inl rfl⟩
          cases hl : (if (!n.IsExpanded) = true ∧ n.Children.length = 0 then
              LoadChildren env h1 node else some h1) with
          | none => rw [hl] at he; cases he
          | some h2 =>
            rw [hl] at he
            dsimp only at he
            obtain ⟨ht2, hor⟩ := hh2 h2 hl
            have hframe := toggle_frame hs hor
            unfold updateFlattenedNodes at he
            dsimp only at he
            cases hfl : flattenRecursive h2 fuel m.tree [] with
            | none => rw [hfl] at he; cases he
            | some L' =>
              rw [hfl] at he
              dsimp only at he
              obtain ⟨L, hLe, hflat'⟩ := flattenRecursive_sound fuel m.tree [] L' hfl
              simp only [List.nil_append] at hLe
              subst hLe
              have hnd : m.flattenedNodes.Nodup :=
                hm.flat.nodup hm.tree (List.nodup_singleton _) (depthOf m.heap m.tree)
                  (fun r hr => by rw [List.mem_singleton.mp hr])
              have hpre := Flat.prefix_stable h2 (x := node) hm.flat hnd
                (fun q hq hne => hframe q hne (by
                  obtain ⟨qn, hqn⟩ := hm.flat.valid q hq
                  exact get_lt hqn))
                m.cursor.toNat L' hx hflat'
              have hlt : m.cursor.toNat < m.flattenedNodes.length := by
                obtain ⟨hlt, _⟩ := List.getElem?_eq_some.mp hx
                exact hlt
              have hlen' : m.cursor.toNat + 1 ≤ L'.length := by
                have := congrArg List.length hpre
                simp only [List.length_take] at this
                omega
              cases he
              have hfit' : ((L'.length : Nat) : Int) < 9223372036854775808 := by
                have := hfit
                unfold FitsInt at this
                rw [adjust_len] at this
                exact this
              exact ModelInv.adjust { m with pendingG := false, heap := h2, flattenedNodes := L' }
                ht2 hflat' hfit' hc0 (by show m.cursor < ((L'.length : Nat) : Int); omega)
                hv.vh_lo hv.vh_hi hv.off_lo hv.off_fit
      · rw [if_neg hdir] at he
        cases he
        unfold openFileWithStatus
        cases env.OpenFile n.Path <;> exact ⟨hm.tree, hm.flat, hm.view⟩

theorem ModelInv.update {env : Env} {fuel : Nat} {m m' : Model} {msg : Msg}
    {cmd : Option Cmd} (hm : ModelInv m) (hu : Update env fuel m msg = some (m', cmd))
    (hfit : FitsInt m') : ModelInv m' := by
  have hv := hm.view
  have h1 := hv.len_fit; have h2 := hv.cursor_lo; have h3 := hv.cursor_hi
  cases msg with
  | WindowSizeMsg width height =>
    unfold Update at hu
    dsimp only at hu
    cases hu
    exact hm.windowSize width height
  | other =>
    unfold Update at hu
    dsimp only at hu
    cases hu; exact hm
  | KeyMsg key =>
    unfold Update at hu
    dsimp only at hu
    by_cases k1 : key = "q" ∨ key = "ctrl+c" ∨ key = "esc"
    · rw [if_pos k1] at hu; cases hu; exact hm
    rw [if_neg k1] at hu
    by_cases k2 : key = "up" ∨ key = "k"
    · rw [if_pos k2] at hu
      by_cases c2 : m.cursor > 0
      · rw [if_pos c2] at hu
        cases hu
        refine ModelInv.adjust { m with cursor := wrapInt (m.cursor - 1) }
          hm.tree hm.flat hv.len_fit ?_ ?_ hv.vh_lo hv.vh_hi hv.off_lo hv.off_fit
        · show 0 ≤ wrapInt (m.cursor - 1); unfold wrapInt; omega
        · show wrapInt (m.cursor - 1) < m.len; unfold wrapInt; omega
      · rw [if_neg c2] at hu; cases hu; exact hm
    rw [if_neg k2] at hu
    by_cases k3 : key = "down" ∨ key = "j"
    · rw [if_pos k3] at hu
      by_cases c3 : m.cursor < wrapInt (m.len - 1)
      · rw [if_pos c3] at hu
        cases hu
        unfold wrapInt at c3
        refine ModelInv.adjust { m with cursor := wrapInt (m.cursor + 1) }
          hm.tree hm.flat hv.len_fit ?_ ?_ hv.vh_lo hv.vh_hi hv.off_lo hv.off_fit
        · show 0 ≤ wrapInt (m.cursor + 1); unfold wrapInt; omega
        · show wrapInt (m.cursor + 1) < m.len; unfold wrapInt; omega
      · rw [if_neg c3] at hu; cases hu; exact hm
    rw [if_neg k3] at hu
    by_cases k4 : key = "ctrl+u"
    · rw [if_pos k4] at hu; cases hu; exact hm.moveCursor _
    rw [if_neg k4] at hu
    by_cases k5 : key = "ctrl+d"
    · rw [if_pos k5] at hu; cases hu; exact hm.moveCursor _
    rw [if_neg k5] at hu
    by_cases k6 : key = "ctrl+b"
    · rw [if_pos k6] at hu; cases hu; exact hm.moveCursor _
    rw [if_neg k6] at hu
    by_cases k7 : key = "ctrl+f"
    · rw [if_pos k7] at hu; cases hu; exact hm.moveCursor _
    rw [if_neg k7] at hu
    by_cases k8 : key = "g"
    · rw [if_pos k8] at hu
      by_cases pg : m.pendingG = true
      · rw [if_pos pg] at hu
        cases hu
        have : ModelInv (jumpToTop m) :=
          ModelInv.adjust { m with cursor := 0 } hm.tree hm.flat hv.len_fit (le_refl _)
            (by show (0 : Int) < m.len; omega) hv.vh_lo hv.vh_hi hv.off_lo hv.off_fit
        exact ⟨this.tree, this.flat, this.view⟩
      · rw [if_neg pg] at hu; cases hu; exact ⟨hm.tree, hm.flat, hm.view⟩
    rw [if_neg k8] at hu
    by_cases k9 : key = "G"
    · rw [if_pos k9] at hu
      cases hu
      have : ModelInv (jumpToBottom m) := by
        unfold jumpToBottom
        rw [if_pos (by omega)]
        refine ModelInv.adjust { m with cursor := wrapInt (m.len - 1) }
          hm.tree hm.flat hv.len_fit ?_ ?_ hv.vh_lo hv.vh_hi hv.off_lo hv.off_fit
        · show 0 ≤ wrapInt (m.len - 1); unfold wrapInt; omega
        · show wrapInt (m.len - 1) < m.len; unfold wrapInt; omega
      exact ⟨this.tree, this.flat, this.view⟩
    rw [if_neg k9] at hu
    by_cases k10 : key = "enter" ∨ key = " "
    · rw [if_pos k10] at hu
      cases he : Update.enter env fuel m with
      | none => rw [he] at hu; cases hu
      | some m1 =>
        rw [he] at hu
        cases hu
        exact hm.enter he hfit
    rw [if_neg k10] at hu
    cases hu; exact ⟨hm.tree, hm.flat, hm.view⟩

/-- Every state of a session satisfies the model invariant. -/
theorem Reachable.inv {m : Model} (hr : Reachable m) : ModelInv m := by
  induction hr with
  | @init env fuel fuel' rootPath D h root m hb hnew hfit =>
    obtain ⟨rfl, ht, -, -⟩ := Build_sound hb
    unfold New updateFlattenedNodes at hnew
    dsimp only at hnew
    cases hfl : flattenRecursive h fuel' 0 [] with
    | none => rw [hfl] at hnew; cases hnew
    | some L =>
      rw [hfl] at hnew
      cases hnew
      obtain ⟨L', hLe, hflat⟩ := flattenRecursive_sound fuel' 0 [] L hfl
      simp only [List.nil_append] at hLe
      subst hLe
      obtain ⟨T, hT⟩ := hflat.head
      have hfit' : ((L.length : Nat) : Int) < 9223372036854775808 := hfit
      have hpos : (0 : Int) < ((L.length : Nat) : Int) := by rw [hT]; simp
      refine ⟨ht, hflat, ⟨hfit', le_refl _, hpos, by norm_num, by norm_num, le_refl _, ?_, ?_, ?_⟩⟩
      · exact le_max_left _ _
      · exact le_refl _
      · norm_num
  | step _ hu hfit ih => exact ih.update hu hfit

/-! ## Fuel does not matter, and `Update` never panics -/

/-- Two runs of `flattenRecursive` that return, with whatever fuel, return the same. -/
theorem flattenRecursive_fuel_irrelevant {h : Heap} {fuel1 fuel2 node : Nat}
    {acc r1 r2 : List Nat} (h1 : flattenRecursive h fuel1 node acc = some r1)
    (h2 : flattenRecursive h fuel2 node acc = some r2) : r1 = r2 := by
  obtain ⟨L1, rfl, hf1⟩ := flattenRecursive_sound fuel1 node acc r1 h1
  obtain ⟨L2, rfl, hf2⟩ := flattenRecursive_sound fuel2 node acc r2 h2
  rw [hf2.det hf1]

/-- Two runs of `loadChildrenRecursive` that return, with whatever fuel, return the same. -/
theorem loadChildrenRecursive_fuel_irrelevant {env : Env} {D : Int} {fuel1 fuel2 : Nat}
    {h : Heap} {node : Nat} {r1 r2 : Heap}
    (h1 : loadChildrenRecursive env D fuel1 h node = some r1)
    (h2 : loadChildrenRecursive env D fuel2 h node = some r2) : r1 = r2 := by
  have a := loadChildrenRecursive_mono fuel1 h node r1 h1 (max fuel1 fuel2) (le_max_left _ _)
  have b := loadChildrenRecursive_mono fuel2 h node r2 h2 (max fuel1 fuel2) (le_max_right _ _)
  rw [a] at b
  exact Option.some.inj b

/-- In every state of a session the heap is a tree with valid, later-allocated children:
the hypotheses of the flattener theorems hold. -/
theorem Reachable.heap_ordered {m : Model} (hr : Reachable m) : Ordered m.heap :=
  hr.inv.tree.ordered

/-- With enough fuel the `enter` case of `Update` returns in every state that satisfies the
model invariant: no index is out of range and no pointer dangles. -/
theorem Update_enter_total {m : Model} (hm : ModelInv m) (env : Env) :
    ∃ fuel0, ∀ fuel, fuel0 ≤ fuel → ∃ m', Update.enter env fuel m = some m' := by
  have hv := hm.view
  have hc0 := hv.cursor_lo
  have hc1 := hv.cursor_hi
  have hlen0 : Model.len { m with pendingG := false } = m.len := rfl
  have hlt : m.cursor.toNat < m.flattenedNodes.length := by
    have : m.cursor < (m.flattenedNodes.length : Int) := hc1
    omega
  obtain ⟨node, hx⟩ : ∃ node, m.flattenedNodes[m.cursor.toNat]? = some node :=
    ⟨_, List.getElem?_eq_getElem hlt⟩
  obtain ⟨n, hn⟩ := hm.flat.valid node (List.mem_iff_getElem?.mpr ⟨_, hx⟩)
  by_cases hdir : n.IsDir = true
  · obtain ⟨h1, hs⟩ := setIsExpanded_some (!n.IsExpanded) hn
    have ht1 : TreeInv h1 m.tree :=
      hm.tree.setIsExpanded hs (fun x hx' => by rw [hn] at hx'; cases hx'; exact Or.inl hdir)
    obtain ⟨hlen1, n0, hn0, hnode1, hframe1⟩ := setIsExpanded_spec hs
    rw [hn] at hn0; cases hn0
    obtain ⟨h2, hl, ht2⟩ : ∃ h2 : Heap,
        (if (!n.IsExpanded) = true ∧ n.Children.length = 0 then LoadChildren env h1 node
          else some h1) = some h2 ∧ TreeInv h2 m.tree := by
      by_cases hc : (!n.IsExpanded) = true ∧ n.Children.length = 0
      · obtain ⟨h2, hl⟩ := LoadChildren_some env hnode1
        exact ⟨h2, by rw [if_pos hc]; exact hl, LoadChildren_TreeInv ht1 hnode1 hdir hl⟩
      · exact ⟨h1, by rw [if_neg hc], ht1⟩
    obtain ⟨r, hr, _⟩ := ht2.root_ok
    refine ⟨h2.length, fun fuel hfuel => ?_⟩
    obtain ⟨L, hL, _⟩ := flattenRecursive_total ht2.ordered fuel m.tree (get_lt hr) (by omega)
    unfold Update.enter
    dsimp only
    rw [hlen0, if_pos hc1, if_neg (by omega), hx]
    dsimp only
    rw [hn]
    dsimp only
    rw [if_pos hdir, hs]
    dsimp only
    rw [hl]
    dsimp only
    unfold updateFlattenedNodes
    dsimp only
    rw [hL []]
    exact ⟨_, rfl⟩
  · refine ⟨0, fun fuel _ => ?_⟩
    unfold Update.enter
    dsimp only
    rw [hlen0, if_pos hc1, if_neg (by omega), hx]
    dsimp only
    rw [hn]
    dsimp only
    rw [if_neg hdir]
    exact ⟨_, rfl⟩

/-- With enough fuel `Update` returns on every message in every state of a session. -/
theorem Update_total {m : Model} (hr : Reachable m) (env : Env) (msg : Msg) :
    ∃ fuel0, ∀ fuel, fuel0 ≤ fuel → ∃ m' cmd, Update env fuel m msg = some (m', cmd) := by
  obtain ⟨fuel0, hen⟩ := Update_enter_total hr.inv env
  refine ⟨fuel0, fun fuel hfuel => ?_⟩
  obtain ⟨me, hme⟩ := hen fuel hfuel
  cases msg with
  | WindowSizeMsg width height => exact ⟨_, _, rfl⟩
  | other => exact ⟨_, _, rfl⟩
  | KeyMsg key =>
    unfold Update
    dsimp only
    rw [hme]
    dsimp only
    by_cases k1 : key = "q" ∨ key = "ctrl+c" ∨ key = "esc"
    · rw [if_pos k1]; exact ⟨_, _, rfl⟩
    rw [if_neg k1]
    by_cases k2 : key = "up" ∨ key = "k"
    · rw [if_pos k2]
      by_cases c2 : m.cursor > 0
      · rw [if_pos c2]; exact ⟨_, _, rfl⟩
      · rw [if_neg c2]; exact ⟨_, _, rfl⟩
    rw [if_neg k2]
    by_cases k3 : key = "down" ∨ key = "j"
    · rw [if_pos k3]
      by_cases c3 : m.cursor < wrapInt (m.len - 1)
      · rw [if_pos c3]; exact ⟨_, _, rfl⟩
      · rw [if_neg c3]; exact ⟨_, _, rfl⟩
    rw [if_neg k3]
    by_cases k4 : key = "ctrl+u"
    · rw [if_pos k4]; exact ⟨_, _, rfl⟩
    rw [if_neg k4]
    by_cases k5 : key = "ctrl+d"
    · rw [if_pos k5]; exact ⟨_, _, rfl⟩
    rw [if_neg k5]
    by_cases k6 : key = "ctrl+b"
    · rw [if_pos k6]; exact ⟨_, _, rfl⟩
    rw [if_neg k6]
    by_cases k7 : key = "ctrl+f"
    · rw [if_pos k7]; exact ⟨_, _, rfl⟩
    rw [if_neg k7]
    by_cases k8 : key = "g"
    · rw [if_pos k8]
      by_cases pg : m.pendingG = true
      · rw [if_pos pg]; exact ⟨_, _, rfl⟩
      · rw [if_neg pg]; exact ⟨_, _, rfl⟩
    rw [if_neg k8]
    by_cases k9 : key = "G"
    · rw [if_pos k9]; exact ⟨_, _, rfl⟩
    rw [if_neg k9]
    by_cases k10 : key = "enter" ∨ key = " "
    · rw [if_pos k10]; exact ⟨_, _, rfl⟩
    rw [if_neg k10]
    exact ⟨_, _, rfl⟩

/-! ## Claims about the flattener -/

theorem flatten_children_lists {h : Heap} {fuel : Nat} (ho : Ordered h) (hfuel : h.length ≤ fuel) :
    ∀ kids : List Nat, (∀ c ∈ kids, c < h.length) →
      ∃ Ls : List (List Nat),
        List.Forall₂ (fun c Lc => ∀ acc, flattenRecursive h fuel c acc = some (acc ++ Lc)) kids Ls ∧
        Flat h kids Ls.flatten := by
  intro kids
  induction kids with
  | nil => intro _; exact ⟨[], List.Forall₂.nil, Flat.nil⟩
  | cons c rest ih =>
    intro hk
    obtain ⟨Lc, hc, hfc⟩ := flattenRecursive_total ho fuel c (hk c (List.mem_cons_self _ _))
      (by omega)
    obtain ⟨Ls, hLs, hfr⟩ := ih (fun d hd => hk d (List.mem_cons_of_mem _ hd))
    refine ⟨Lc :: Ls, List.Forall₂.cons hc hLs, ?_⟩
    have := Flat.append hfc hfr
    simpa using this

/-- C1: `flattenRecursive` is the expansion-gated pre-order traversal.  In a heap whose
children pointers are valid and allocated after their parent, with fuel at least the heap
size, the call on any node `node` returns: it appends `node` followed, exactly when
`IsExpanded` is true, by the concatenation of what it appends for each child, in child
order; for a collapsed node it appends `[node]` alone. -/
theorem flattenRecursive_preorder (h : Heap) (ho : Ordered h) (fuel : Nat)
    (hfuel : h.length ≤ fuel) (node : Nat) (n : Node) (hn : h[node]? = some n) :
    ∃ Ls : List (List Nat),
      List.Forall₂ (fun c Lc => ∀ acc, flattenRecursive h fuel c acc = some (acc ++ Lc))
        n.Children Ls ∧
      (∀ acc, flattenRecursive h fuel node acc =
        some (acc ++ node :: (if n.IsExpanded = true then Ls.flatten else []))) ∧
      (n.IsExpanded = false → flattenRecursive h fuel node [] = some [node]) := by
  obtain ⟨Ls, hLs, hflat⟩ := flatten_children_lists ho hfuel n.Children
    (fun c hc => (ho node n hn c hc).2)
  obtain ⟨L, hL, hf⟩ := flattenRecursive_total ho fuel node (get_lt hn) (by omega)
  have hLeq : L = node :: (if n.IsExpanded = true then Ls.flatten else []) := by
    cases hf with
    | collapsed hn' he' hr =>
      rw [hn] at hn'; cases hn'
      cases hr
      simp [he']
    | expanded hn' he' hk hr =>
      rw [hn] at hn'; cases hn'
      cases hr
      rw [hflat.det hk]
      simp [he']
  refine ⟨Ls, hLs, fun acc => by rw [hL acc, hLeq], fun he => ?_⟩
  have := hL []
  rw [hLeq] at this
  simpa [he] using this

theorem demoHeap_built : Build demoEnv 2 "/r" 1 = some (demoHeap, 0) := by rfl

theorem demoHeap_inv : TreeInv demoHeap 0 := (Build_sound demoHeap_built).2.1

/-- Witness for C1 on the demo tree: the expanded root lists itself and its three children,
the collapsed directory `sub` lists itself alone. -/
theorem flattenRecursive_preorder_witness :
    Ordered demoHeap ∧ demoHeap.length ≤ 4 ∧
    ∃ Ls : List (List Nat),
      List.Forall₂ (fun c Lc => ∀ acc, flattenRecursive demoHeap 4 c acc = some (acc ++ Lc))
        [1, 2, 3] Ls ∧
      (∀ acc, flattenRecursive demoHeap 4 0 acc =
        some (acc ++ 0 :: (if true = true then Ls.flatten else []))) ∧
      (true = false → flattenRecursive demoHeap 4 0 [] = some [0]) :=
  ⟨demoHeap_inv.ordered, by decide,
    flattenRecursive_preorder demoHeap demoHeap_inv.ordered 4 (by decide) 0 _ rfl⟩

/-! ### Membership in the flattened sequence -/

theorem Flat.roots_mem {h : Heap} {rs L : List Nat} (hL : Flat h rs L) : ∀ r ∈ rs, r ∈ L := by
  induction hL with
  | nil => intro r hr; cases hr
  | collapsed _ _ _ ih =>
    intro r hr
    rcases List.mem_cons.mp hr with hr | hr
    · subst hr; exact List.mem_cons_self _ _
    · exact List.mem_cons_of_mem _ (ih r hr)
  | expanded _ _ _ _ _ ih2 =>
    intro r hr
    rcases List.mem_cons.mp hr with hr | hr
    · subst hr; exact List.mem_cons_self _ _
    · exact List.mem_cons_of_mem _ (List.mem_append_right _ (ih2 r hr))

/-- A listed node is one of the nodes visited at top level, or a child of a listed,
expanded node. -/
theorem Flat.mem_parent {h : Heap} {rs L : List Nat} (hL : Flat h rs L) :
    ∀ x ∈ L, x ∈ rs ∨ ∃ (p : Nat) (pn : Node), p ∈ L ∧ h[p]? = some pn ∧
      pn.IsExpanded = true ∧ x ∈ pn.Children := by
  induction hL with
  | nil => intro x hx; cases hx
  | @collapsed r n rs L hn he _ ih =>
    intro x hx
    rcases List.mem_cons.mp hx with hx | hx
    · subst hx; exact Or.inl (List.mem_cons_self _ _)
    · rcases ih x hx with hr | ⟨p, pn, hp, hpn, hpe, hxp⟩
      · exact Or.inl (List.mem_cons_of_mem _ hr)
      · exact Or.inr ⟨p, pn, List.mem_cons_of_mem _ hp, hpn, hpe, hxp⟩
  | @expanded r n rs L1 L2 hn he _ _ ih1 ih2 =>
    intro x hx
    rcases List.mem_cons.mp hx with hx | hx
    · subst hx; exact Or.inl (List.mem_cons_self _ _)
    · rcases List.mem_append.mp hx with hx | hx
      · rcases ih1 x hx with hr | ⟨p, pn, hp, hpn, hpe, hxp⟩
        · exact Or.inr ⟨r, n, List.mem_cons_self _ _, hn, he, hr⟩
        · exact Or.inr ⟨p, pn, List.mem_cons_of_mem _ (List.mem_append_left _ hp), hpn, hpe, hxp⟩
      · rcases ih2 x hx with hr | ⟨p, pn, hp, hpn, hpe, hxp⟩
        · exact Or.inl (List.mem_cons_of_mem _ hr)
        · exact Or.inr ⟨p, pn, List.mem_cons_of_mem _ (List.mem_append_right _ hp), hpn, hpe, hxp⟩

/-- The children of a listed, expanded node are listed. -/
theorem Flat.mem_child {h : Heap} {rs L : List Nat} (hL : Flat h rs L) :
    ∀ p ∈ L, ∀ pn : Node, h[p]? = some pn → pn.IsExpanded = true →
      ∀ x ∈ pn.Children, x ∈ L := by
  induction hL with
  | nil => intro p hp; cases hp
  | @collapsed r n rs L hn he _ ih =>
    intro p hp pn hpn hpe x hx
    rcases List.mem_cons.mp hp with hp | hp
    · subst hp; rw [hn] at hpn; cases hpn; rw [he] at hpe; cases hpe
    · exact List.mem_cons_of_mem _ (ih p hp pn hpn hpe x hx)
  | @expanded r n rs L1 L2 hn he hk _ ih1 ih2 =>
    intro p hp pn hpn hpe x hx
    rcases List.mem_cons.mp hp with hp | hp
    · subst hp; rw [hn] at hpn; cases hpn
      exact List.mem_cons_of_mem _ (List.mem_append_left _ (hk.roots_mem x hx))
    · rcases List.mem_append.mp hp with hp | hp
      · exact List.mem_cons_of_mem _ (List.mem_append_left _ (ih1 p hp pn hpn hpe x hx))
      · exact List.mem_cons_of_mem _ (List.mem_append_right _ (ih2 p hp pn hpn hpe x hx))

/-- Every allocated node descends from the root. -/
theorem TreeInv.desc_root {h : Heap} {root : Nat} (ht : TreeInv h root) :
    ∀ x : Nat, x < h.length → Desc h root x := by
  intro x
  induction x using Nat.strong_induction_on with
  | _ x ih =>
    intro hx
    by_cases hr : x = root
    · subst hr; exact Desc.refl x
    · obtain ⟨n, hn⟩ := get_of_lt hx
      cases hp : n.Parent with
      | none => exact absurd hp (ht.has_parent x n hn hr)
      | some p =>
        obtain ⟨hlt, pn, hpn, hmem, _⟩ := ht.parent_of x n p hn hp
        exact Desc.step (ih p hlt (get_lt hpn)) hpn hmem

/-- A node with a proper ancestor has a parent: it is valid and is not the root. -/
theorem Desc.proper {h : Heap} {root : Nat} (ht : TreeInv h root) {a x : Nat}
    (hd : Desc h a x) (hne : a ≠ x) :
    x < h.length ∧ x ≠ root ∧ ∃ (p : Nat) (pn : Node), h[p]? = some pn ∧ x ∈ pn.Children ∧
      Desc h a p := by
  cases hd with
  | refl => exact absurd rfl hne
  | @step p _ pn hap hp hx =>
    obtain ⟨xn, hxn, hpar⟩ := ht.child_of p pn x hp hx
    refine ⟨get_lt hxn, ?_, p, pn, hp, hx, hap⟩
    intro hr
    subst hr
    obtain ⟨r, hr, hrp, _⟩ := ht.root_ok
    rw [hxn] at hr; cases hr
    rw [hpar] at hrp; cases hrp

theorem expandedAt_eq {h : Heap} {a : Nat} {n : Node} (hn : h[a]? = some n) :
    expandedAt h a = n.IsExpanded := by
  simp [expandedAt, hn]

/-- In a tree, a node is listed exactly when all its proper ancestors are expanded. -/
theorem Flat.mem_iff {h : Heap} {root : Nat} (ht : TreeInv h root) {L : List Nat}
    (hL : Flat h [root] L) {x : Nat} (hx : Desc h root x) :
    x ∈ L ↔ ∀ a, Desc h a x → a ≠ x → expandedAt h a = true := by
  induction hx with
  | refl =>
    constructor
    · intro _ a ha hne
      exact absurd rfl (Desc.proper ht ha hne).2.1
    · intro _
      exact hL.roots_mem root (List.mem_singleton_self _)
  | @step p x pn hrp hp hxp ih =>
    have hxne : x ≠ root := (Desc.proper ht (Desc.step hrp hp hxp) (by
      intro hh
      have := (ht.ordered p pn hp x hxp).1
      have h2 := ((Desc.step hrp hp hxp).depth_le ht).1
      have h3 := ht.depth_child hp hxp
      have h4 := (hrp.depth_le ht).1
      rw [← hh] at h2 h3
      omega)).2.1
    have hpx : p ≠ x := fun hh => by
      have := (ht.ordered p pn hp x hxp).1
      omega
    constructor
    · intro hxL a ha hne
      rcases hL.mem_parent x hxL with hr | ⟨p', pn', hp'L, hp', hpe', hxp'⟩
      · exact absurd (List.mem_singleton.mp hr) hxne
      · have hpp := ht.parent_unique hp hxp hp' hxp'
        subst hpp
        rw [hp] at hp'; cases hp'
        obtain ⟨_, _, p2, pn2, hp2, hxp2, hap2⟩ := Desc.proper ht ha hne
        have hpp := ht.parent_unique hp hxp hp2 hxp2
        subst hpp
        by_cases hap : a = p
        · subst hap; rw [expandedAt_eq hp]; exact hpe'
        · exact (ih.mp hp'L) a hap2 hap
    · intro hall
      have hpe : pn.IsExpanded = true := by
        have := hall p (Desc.step (Desc.refl p) hp hxp) hpx
        rwa [expandedAt_eq hp] at this
      have hpL : p ∈ L := by
        refine ih.mpr (fun a ha hne => hall a (Desc.step ha hp hxp) ?_)
        intro hh
        subst hh
        have h1 := (ha.depth_le ht).1
        have h2 := ht.depth_child hp hxp
        omega
      exact hL.mem_child p hpL pn hp hpe x hxp

/-- C2: in a tree, with fuel at least the heap size, flattening from the root returns a
sequence in which a node other than the root occurs exactly when every proper ancestor of
it is expanded; hence no proper descendant of a collapsed node occurs, and when every
directory is collapsed the sequence is `[root]`. -/
theorem flatten_visible_iff (h : Heap) (root : Nat) (ht : TreeInv h root) (fuel : Nat)
    (hfuel : h.length ≤ fuel) :
    ∃ L, flattenRecursive h fuel root [] = some L ∧
      (∀ x, x < h.length → x ≠ root →
        (x ∈ L ↔ ∀ a, Desc h a x → a ≠ x → expandedAt h a = true)) ∧
      (∀ d x, expandedAt h d = false → Desc h d x → d ≠ x → x ∉ L) ∧
      ((∀ (q : Nat) (n : Node), h[q]? = some n → n.IsDir = true → n.IsExpanded = false) →
        L = [root]) := by
  obtain ⟨r, hr, _, _, hrdir⟩ := ht.root_ok
  obtain ⟨L, hL, hf⟩ := flattenRecursive_total ht.ordered fuel root (get_lt hr) (by omega)
  refine ⟨L, by simpa using hL [], ?_, ?_, ?_⟩
  · intro x hx _
    exact Flat.mem_iff ht hf (ht.desc_root x hx)
  · intro d x hd hdx hne hxL
    obtain ⟨hx, _, _⟩ := Desc.proper ht hdx hne
    have := (Flat.mem_iff ht hf (ht.desc_root x hx)).mp hxL d hdx hne
    rw [hd] at this; cases this
  · intro hall
    have hc := hall root r hr hrdir
    cases hf with
    | collapsed _ _ hrest => cases hrest; rfl
    | expanded hn' he' _ _ => rw [hr] at hn'; cases hn'; rw [hc] at he'; cases he'

/-- Witness for C2 on the demo tree. -/
theorem flatten_visible_iff_witness :
    TreeInv demoHeap 0 ∧ demoHeap.length ≤ 4 ∧
    ∃ L, flattenRecursive demoHeap 4 0 [] = some L ∧
      (∀ x, x < demoHeap.length → x ≠ 0 →
        (x ∈ L ↔ ∀ a, Desc demoHeap a x → a ≠ x → expandedAt demoHeap a = true)) ∧
      (∀ d x, expandedAt demoHeap d = false → Desc demoHeap d x → d ≠ x → x ∉ L) ∧
      ((∀ (q : Nat) (n : Node), demoHeap[q]? = some n → n.IsDir = true →
        n.IsExpanded = false) → L = [0]) :=
  ⟨demoHeap_inv, by decide, flatten_visible_iff demoHeap 0 demoHeap_inv 4 (by decide)⟩

/-! ## Claims about the cursor and the viewport -/

theorem demoModel_reachable : Reachable demoModel :=
  Reachable.init demoHeap_built (by rfl : New 4 demoHeap 0 1 "/r" = some demoModel) (by decide)

theorem demoModelExpanded_reachable : Reachable demoModelExpanded :=
  Reachable.step
    (Reachable.step demoModel_reachable
      (by rfl : Update demoEnv 5 demoModel (Msg.KeyMsg "G") =
        some ({ demoModel with cursor := 3 }, none)) (by decide))
    (by rfl : Update demoEnv 5 { demoModel with cursor := 3 } (Msg.KeyMsg "enter") =
      some (demoModelExpanded, none)) (by decide)

theorem adjust_cursor (m : Model) : (adjustViewportToCursor m).cursor = m.cursor := by
  unfold adjustViewportToCursor
  simp only []
  split_ifs <;> rfl

theorem moveCursor_cursor (m : Model) (delta : Int) :
    (moveCursor m delta).cursor =
      (if (if wrapInt (m.cursor + delta) < 0 then 0 else wrapInt (m.cursor + delta)) ≥ m.len
        then wrapInt (m.len - 1)
        else (if wrapInt (m.cursor + delta) < 0 then 0 else wrapInt (m.cursor + delta))) := by
  unfold moveCursor
  rw [adjust_cursor]

/-- C4: in every state of a session `0 ≤ viewportOffset ≤ max(0, len - viewportHeight)`, the
cursor lies in the window `viewportOffset ≤ cursor < viewportOffset + viewportHeight`, and
`viewportHeight ≥ 1`. -/
theorem scroll_invariant (m : Model) (hr : Reachable m) :
    0 ≤ m.viewportOffset ∧ m.viewportOffset ≤ max 0 (m.len - m.viewportHeight) ∧
    m.viewportOffset ≤ m.cursor ∧ m.cursor < m.viewportOffset + m.viewportHeight ∧
    1 ≤ m.viewportHeight :=
  have hv := hr.inv.view
  ⟨hv.off_lo, hv.off_hi, hv.win_lo, hv.win_hi, hv.vh_lo⟩

theorem demoModelScrolled_reachable : Reachable demoModelScrolled :=
  Reachable.step
    (Reachable.step
      (Reachable.step
        (Reachable.step demoModel_reachable
          (by rfl : Update demoEnv 5 demoModel (Msg.WindowSizeMsg 80 5) =
            some ({ demoModel with viewportHeight := 4, terminalHeight := 5 }, none))
          (by decide))
        (by rfl : Update demoEnv 5 { demoModel with viewportHeight := 4, terminalHeight := 5 }
            (Msg.KeyMsg "G") =
          some ({ demoModel with viewportHeight := 4, terminalHeight := 5, cursor := 3 }, none))
        (by decide))
      (by rfl : Update demoEnv 5
          { demoModel with viewportHeight := 4, terminalHeight := 5, cursor := 3 }
          (Msg.KeyMsg "enter") =
        some ({ demoModelExpanded with viewportHeight := 4, terminalHeight := 5 }, none))
      (by decide))
    (by rfl : Update demoEnv 5 { demoModelExpanded with viewportHeight := 4, terminalHeight := 5 }
        (Msg.KeyMsg "G") = some (demoModelScrolled, none))
    (by decide)

/-- Witness for C4: the demo session scrolled down by one line. -/
theorem scroll_invariant_witness :
    Reachable demoModelScrolled ∧
    0 ≤ demoModelScrolled.viewportOffset ∧
    demoModelScrolled.viewportOffset ≤
      max 0 (demoModelScrolled.len - demoModelScrolled.viewportHeight) ∧
    demoModelScrolled.viewportOffset ≤ demoModelScrolled.cursor ∧
    demoModelScrolled.cursor <
      demoModelScrolled.viewportOffset + demoModelScrolled.viewportHeight ∧
    1 ≤ demoModelScrolled.viewportHeight :=
  ⟨demoModelScrolled_reachable, scroll_invariant demoModelScrolled demoModelScrolled_reachable⟩

/-! ## Claims about the tree model -/

theorem TreeInv.depthParentOK {h : Heap} {root : Nat} (ht : TreeInv h root) :
    DepthParentOK h root := by
  obtain ⟨r, hr, hp, hd, _⟩ := ht.root_ok
  refine ⟨⟨r, hr, hd, hp⟩, ?_⟩
  intro q n hq hne
  cases hpar : n.Parent with
  | none => exact absurd hpar (ht.has_parent q n hq hne)
  | some p =>
    obtain ⟨_, pn, hpn, hmem, hdep⟩ := ht.parent_of q n p hq hpar
    exact ⟨p, pn, rfl, hpn, hdep, hmem⟩

/-- C7: in every tree returned by `Build`, and in every state of a session (so after any
number of lazy loads made by `Update`), the root has depth 0 and no parent, and every
other node has a parent, is one deeper than its parent, and is an element of its parent's
children. -/
theorem depth_parent_invariant :
    (∀ (env : Env) (fuel : Nat) (rootPath : String) (D : Int) (h : Heap) (root : Nat),
      Build env fuel rootPath D = some (h, root) → DepthParentOK h root) ∧
    (∀ m : Model, Reachable m → DepthParentOK m.heap m.tree) := by
  constructor
  · intro env fuel rootPath D h root hb
    obtain ⟨rfl, ht, _⟩ := Build_sound hb
    exact ht.depthParentOK
  · intro m hr
    exact hr.inv.tree.depthParentOK

/-- Witness for C7: the demo tree as built, and the demo session after a lazy load. -/
theorem depth_parent_invariant_witness :
    (Build demoEnv 2 "/r" 1 = some (demoHeap, 0) ∧ DepthParentOK demoHeap 0) ∧
    (Reachable demoModelExpanded ∧ DepthParentOK demoModelExpanded.heap demoModelExpanded.tree) :=
  ⟨⟨demoHeap_built, depth_parent_invariant.1 demoEnv 2 "/r" 1 demoHeap 0 demoHeap_built⟩,
    ⟨demoModelExpanded_reachable,
      depth_parent_invariant.2 demoModelExpanded demoModelExpanded_reachable⟩⟩

/-- C5, counterexample: built with depth 0, the demo root is at depth 0 = D and yet is
expanded, so not every node at depth `D` is collapsed. -/
theorem Build_root_expanded_at_depth :
    Build demoEnv 1 "/r" 0 =
      some ([{ Name := "r", Path := "/r", IsDir := true, IsExpanded := true, Children := [],
               Parent := none, Depth := 0 }], 0) ∧
    ¬ (∀ (q : Nat) (n : Node),
        [({ Name := "r", Path := "/r", IsDir := true, IsExpanded := true, Children := [],
            Parent := none, Depth := 0 } : Node)][q]? = some n →
        n.Depth = 0 → n.IsExpanded = false ∧ n.Children = []) := by
  refine ⟨by rfl, fun hall => ?_⟩
  have := (hall 0 _ rfl rfl).1
  cases this

/-- C5, amended: `Build` with depth `D` and fuel above `D` returns a tree in which every
directory node at depth below `D` is expanded and has as children exactly the entries its
directory read returned, in order (none if the read failed), and every node at depth `D`
has no children and is collapsed unless it is the root, which is expanded. -/
theorem Build_depth_spec (env : Env) (fuel : Nat) (rootPath : String) (D : Int)
    (hf : D.toNat < fuel) :
    ∃ h, Build env fuel rootPath D = some (h, 0) ∧
      ∀ (q : Nat) (n : Node), h[q]? = some n →
        (n.IsDir = true → n.Depth < D →
          n.IsExpanded = true ∧
          (∀ es, env.ReadDir n.Path = some es →
            ChildrenOf env h q n.Path n.Depth n.Children es) ∧
          (env.ReadDir n.Path = none → n.Children = [])) ∧
        (n.Depth = D → n.Children = [] ∧ (n.IsExpanded = true ↔ q = 0)) := by
  obtain ⟨h, hb, _, hbuilt, _⟩ := Build_spec env fuel rootPath D hf
  refine ⟨h, hb, ?_⟩
  intro q n hq
  obtain ⟨n', hq', b1, b2, b3⟩ := hbuilt q (get_lt hq)
  rw [hq] at hq'; cases hq'
  constructor
  · intro hd hlt
    exact ⟨b1.mpr (Or.inr ⟨hd, hlt⟩), (b2 ⟨hd, hlt⟩).1, (b2 ⟨hd, hlt⟩).2⟩
  · intro hd
    have hnot : ¬ (n.IsDir = true ∧ n.Depth < D) := fun hc => by omega
    refine ⟨b3 hnot, ?_⟩
    constructor
    · intro he
      rcases b1.mp he with h0 | hc
      · exact h0
      · exact absurd hc hnot
    · intro h0
      exact b1.mpr (Or.inl h0)

/-- Witness for C5 (amended): the demo directory built with depth 1. -/
theorem Build_depth_spec_witness :
    (1 : Int).toNat < 2 ∧
    ∃ h, Build demoEnv 2 "/r" 1 = some (h, 0) ∧
      ∀ (q : Nat) (n : Node), h[q]? = some n →
        (n.IsDir = true → n.Depth < 1 →
          n.IsExpanded = true ∧
          (∀ es, demoEnv.ReadDir n.Path = some es →
            ChildrenOf demoEnv h q n.Path n.Depth n.Children es) ∧
          (demoEnv.ReadDir n.Path = none → n.Children = [])) ∧
        (n.Depth = 1 → n.Children = [] ∧ (n.IsExpanded = true ↔ q = 0)) :=
  ⟨by decide, Build_depth_spec demoEnv 2 "/r" 1 (by decide)⟩

/-- C6: `Build` with depth 0 (one unit of fuel is enough) returns a heap holding the root
alone, with zero children, whatever the file system contains. -/
theorem Build_depth_zero (env : Env) (fuel : Nat) (rootPath : String) (hf : 0 < fuel) :
    Build env fuel rootPath 0 =
      some ([{ Name := env.Base rootPath, Path := rootPath, IsDir := true, IsExpanded := true,
               Children := [], Parent := none, Depth := 0 }], 0) := by
  obtain ⟨k, rfl⟩ : ∃ k, fuel = k + 1 := ⟨fuel - 1, by omega⟩
  simp [Build, loadChildrenRecursive]

/-- Witness for C6: the demo directory, which has three entries. -/
theorem Build_depth_zero_witness :
    0 < 1 ∧
    Build demoEnv 1 "/r" 0 =
      some ([{ Name := demoEnv.Base "/r", Path := "/r", IsDir := true, IsExpanded := true,
               Children := [], Parent := none, Depth := 0 }], 0) :=
  ⟨by decide, Build_depth_zero demoEnv 1 "/r" (by decide)⟩

theorem ChildrenOf.exists_of_mem {env : Env} {h : Heap} {p : Nat} {path : String}
    {depth : Int} {kids : List Nat} {es : List DirEntry}
    (hc : ChildrenOf env h p path depth kids es) :
    ∀ e ∈ es, ∃ (c : Nat) (cn : Node), c ∈ kids ∧ h[c]? = some cn ∧ cn.Name = e.Name ∧
      cn.IsDir = e.IsDir ∧ cn.Path = env.Join path e.Name := by
  unfold ChildrenOf at hc
  induction hc with
  | nil => intro e he; cases he
  | @cons c e kids es hce _ ih =>
    intro e' he'
    rcases List.mem_cons.mp he' with he' | he'
    · subst he'
      obtain ⟨cn, hcn, e1, e2, e3, _, _⟩ := hce
      exact ⟨c, cn, List.mem_cons_self _ _, hcn, e1, e2, e3⟩
    · obtain ⟨c', cn, hc', rest⟩ := ih e' he'
      exact ⟨c', cn, List.mem_cons_of_mem _ hc', rest⟩

/-- C8: `Build` never fails.  With fuel above the depth it returns a tree whose root is an
expanded directory at depth 0; a node whose directory cannot be read has zero children;
every entry of a directory that was read has its node, also when that entry is itself a
directory that cannot be read; and when the root path cannot be read the tree is the
childless root alone. -/
theorem Build_never_fails (env : Env) (fuel : Nat) (rootPath : String) (D : Int)
    (hf : D.toNat < fuel) :
    ∃ h, Build env fuel rootPath D = some (h, 0) ∧
      (∃ r : Node, h[0]? = some r ∧ r.Path = rootPath ∧ r.IsDir = true ∧
        r.IsExpanded = true ∧ r.Depth = 0) ∧
      (∀ (q : Nat) (n : Node), h[q]? = some n → env.ReadDir n.Path = none →
        n.Children = []) ∧
      (∀ (p : Nat) (pn : Node) (es : List DirEntry), h[p]? = some pn → pn.IsDir = true →
        pn.Depth < D → env.ReadDir pn.Path = some es →
        ∀ e ∈ es, ∃ (c : Nat) (cn : Node), c ∈ pn.Children ∧ h[c]? = some cn ∧
          cn.Name = e.Name ∧ cn.IsDir = e.IsDir ∧ cn.Path = env.Join pn.Path e.Name) ∧
      (env.ReadDir rootPath = none →
        h = [{ Name := env.Base rootPath, Path := rootPath, IsDir := true, IsExpanded := true,
               Children := [], Parent := none, Depth := 0 }]) := by
  obtain ⟨h, hb, _, hbuilt, r, hr, _, hrpath, hrdir, _, hrdepth⟩ :=
    Build_spec env fuel rootPath D hf
  refine ⟨h, hb, ?_, ?_, ?_, ?_⟩
  · obtain ⟨r', hr', b1, _, _⟩ := hbuilt 0 (get_lt hr)
    rw [hr] at hr'; cases hr'
    exact ⟨r, hr, hrpath, hrdir, b1.mpr (Or.inl rfl), hrdepth⟩
  · intro q n hq hnone
    obtain ⟨n', hq', _, b2, b3⟩ := hbuilt q (get_lt hq)
    rw [hq] at hq'; cases hq'
    by_cases hc : n.IsDir = true ∧ n.Depth < D
    · exact (b2 hc).2 hnone
    · exact b3 hc
  · intro p pn es hp hdir hlt hes e he
    obtain ⟨pn', hp', _, b2, _⟩ := hbuilt p (get_lt hp)
    rw [hp] at hp'; cases hp'
    exact ((b2 ⟨hdir, hlt⟩).1 es hes).exists_of_mem e he
  · intro hnone
    obtain ⟨k, rfl⟩ : ∃ k, fuel = k + 1 := ⟨fuel - 1, by omega⟩
    have : Build env (k + 1) rootPath D =
        some ([{ Name := env.Base rootPath, Path := rootPath, IsDir := true,
                 IsExpanded := true, Children := [], Parent := none, Depth := 0 }], 0) := by
      by_cases hd : (0 : Int) ≥ D
      · simp [Build, loadChildrenRecursive, hd]
      · simp [Build, loadChildrenRecursive, hd, hnone]
    rw [this] at hb
    simp only [Option.some.injEq, Prod.mk.injEq, and_true] at hb
    exact hb.symm

/-- Witness for C8: a root path that does not exist (`demoEnv` knows only `/r`). -/
theorem Build_never_fails_witness :
    (1 : Int).toNat < 2 ∧
    ∃ h, Build demoEnv 2 "/this/path/does/not/exist" 1 = some (h, 0) ∧
      (∃ r : Node, h[0]? = some r ∧ r.Path = "/this/path/does/not/exist" ∧ r.IsDir = true ∧
        r.IsExpanded = true ∧ r.Depth = 0) ∧
      (∀ (q : Nat) (n : Node), h[q]? = some n → demoEnv.ReadDir n.Path = none →
        n.Children = []) ∧
      (∀ (p : Nat) (pn : Node) (es : List DirEntry), h[p]? = some pn → pn.IsDir = true →
        pn.Depth < 1 → demoEnv.ReadDir pn.Path = some es →
        ∀ e ∈ es, ∃ (c : Nat) (cn : Node), c ∈ pn.Children ∧ h[c]? = some cn ∧
          cn.Name = e.Name ∧ cn.IsDir = e.IsDir ∧ cn.Path = demoEnv.Join pn.Path e.Name) ∧
      (demoEnv.ReadDir "/this/path/does/not/exist" = none →
        h = [{ Name := demoEnv.Base "/this/path/does/not/exist",
               Path := "/this/path/does/not/exist", IsDir := true, IsExpanded := true,
               Children := [], Parent := none, Depth := 0 }]) :=
  ⟨by decide, Build_never_fails demoEnv 2 "/this/path/does/not/exist" 1 (by decide)⟩

theorem range'_children (env : Env) (node : Nat) {n v : Node} :
    ∀ (es : List DirEntry) (h : Heap) (tail : List Node) (k : Nat), k = h.length →
      node < h.length →
      List.Forall₂ (fun (c : Nat) (e : DirEntry) =>
        ((h ++ es.map (newChild env node n) ++ tail).set node v)[c]? =
          some { Name := e.Name, Path := env.Join n.Path e.Name, IsDir := e.IsDir,
                 IsExpanded := false, Children := [], Parent := some node,
                 Depth := n.Depth + 1 }) (List.range' k es.length) es := by
  intro es
  induction es with
  | nil => intro h tail k _ _; exact List.Forall₂.nil
  | cons e rest ih =>
    intro h tail k hk hlt
    subst hk
    simp only [List.length_cons, List.range'_succ, List.map_cons]
    refine List.Forall₂.cons ?_ ?_
    · rw [List.getElem?_set, if_neg (by omega), List.append_assoc,
        List.getElem?_append_right (le_refl _)]
      simp [newChild]
    · have := ih (h ++ [newChild env node n e]) tail (h.length + 1) (by simp)
        (by rw [List.length_append]; omega)
      simpa [List.append_assoc] using this

/-- One call of `LoadChildren` on a node whose directory read returns `es`. -/
theorem LoadChildren_read (env : Env) (h : Heap) (node : Nat) (n : Node)
    (es : List DirEntry) (hn : h[node]? = some n) (hes : env.ReadDir n.Path = some es) :
    ∃ h1 : Heap, LoadChildren env h node = some h1 ∧ h1.length = h.length + es.length ∧
      h1[node]? = some { n with Children := n.Children ++ List.range' h.length es.length } ∧
      List.Forall₂ (fun (c : Nat) (e : DirEntry) =>
        h1[c]? = some { Name := e.Name, Path := env.Join n.Path e.Name, IsDir := e.IsDir,
                        IsExpanded := false, Children := [], Parent := some node,
                        Depth := n.Depth + 1 }) (List.range' h.length es.length) es ∧
      (∀ q, q < h.length → q ≠ node → h1[q]? = h[q]?) := by
  have hlt := get_lt hn
  refine ⟨(h ++ es.map (newChild env node n)).set node
    { n with Children := n.Children ++ List.range' h.length es.length }, ?_, ?_, ?_, ?_, ?_⟩
  · unfold LoadChildren
    simp only [hn, hes]
    exact LoadChildren_loop_eq env node es h n hn
  · simp
  · rw [List.getElem?_set, if_pos rfl, if_pos (by rw [List.length_append]; omega)]
  · have hr := range'_children env node (n := n)
      (v := { n with Children := n.Children ++ List.range' h.length es.length })
      es h [] h.length rfl hlt
    simpa only [List.append_nil] using hr
  · intro q hq hne
    rw [List.getElem?_set, if_neg (fun hh => hne hh.symm)]
    exact List.getElem?_append_left hq

/-- C9: `LoadChildren` appends and does not guard itself.  When the directory read returns
the entries `es`, the children of the node become the old children followed by one new
pointer per entry, each to a fresh record carrying the entry's name and kind, the joined
path, the node as parent, the node's depth plus one, `IsExpanded` false and no children;
nothing else changes.  A second call on the unchanged directory appends the entries again,
giving `2k` more children than at the start.  When the read fails the heap is unchanged. -/
theorem LoadChildren_appends (env : Env) (h : Heap) (node : Nat) (n : Node)
    (hn : h[node]? = some n) :
    (∀ es, env.ReadDir n.Path = some es →
      ∃ (h1 : Heap) (kids : List Nat), LoadChildren env h node = some h1 ∧
        h1[node]? = some { n with Children := n.Children ++ kids } ∧
        List.Forall₂ (fun (c : Nat) (e : DirEntry) =>
          h1[c]? = some { Name := e.Name, Path := env.Join n.Path e.Name, IsDir := e.IsDir,
                          IsExpanded := false, Children := [], Parent := some node,
                          Depth := n.Depth + 1 }) kids es ∧
        (∀ c ∈ kids, h.length ≤ c) ∧
        (∀ q, q < h.length → q ≠ node → h1[q]? = h[q]?) ∧
        ∃ (h2 : Heap) (n2 : Node), LoadChildren env h1 node = some h2 ∧
          h2[node]? = some n2 ∧ n2.Children.length = n.Children.length + 2 * es.length) ∧
    (env.ReadDir n.Path = none → LoadChildren env h node = some h) := by
  constructor
  · intro es hes
    obtain ⟨h1, hl1, hlen1, hnode1, hkids1, hframe1⟩ := LoadChildren_read env h node n es hn hes
    obtain ⟨h2, hl2, _, hnode2, _, _⟩ := LoadChildren_read env h1 node _ es hnode1 hes
    refine ⟨h1, List.range' h.length es.length, hl1, hnode1, hkids1, ?_, hframe1,
      h2, _, hl2, hnode2, ?_⟩
    · intro c hc
      exact (List.mem_range'_1.mp hc).1
    · simp only [List.length_append, List.length_range']
      omega
  · intro hnone
    unfold LoadChildren
    simp only [hn, hnone]

theorem demoHeap_reload : LoadChildren demoEnv demoHeap 0 = some demoHeapReloaded := by rfl

/-- Witness for C9: the root of the demo tree. -/
theorem LoadChildren_appends_witness :
    LoadChildren demoEnv demoHeap 0 = some demoHeapReloaded ∧
    demoHeap[0]? = some demoRoot ∧
    (∀ es, demoEnv.ReadDir "/r" = some es →
      ∃ (h1 : Heap) (kids : List Nat), LoadChildren demoEnv demoHeap 0 = some h1 ∧
        h1[0]? = some { demoRoot with Children := [1, 2, 3] ++ kids } ∧
        List.Forall₂ (fun (c : Nat) (e : DirEntry) =>
          h1[c]? = some { Name := e.Name, Path := demoEnv.Join "/r" e.Name, IsDir := e.IsDir,
                          IsExpanded := false, Children := [], Parent := some 0,
                          Depth := 0 + 1 }) kids es ∧
        (∀ c ∈ kids, demoHeap.length ≤ c) ∧
        (∀ q, q < demoHeap.length → q ≠ 0 → h1[q]? = demoHeap[q]?) ∧
        ∃ (h2 : Heap) (n2 : Node), LoadChildren demoEnv h1 0 = some h2 ∧
          h2[0]? = some n2 ∧ n2.Children.length = [1, 2, 3].length + 2 * es.length) ∧
    (demoEnv.ReadDir "/r" = none → LoadChildren demoEnv demoHeap 0 = some demoHeap) :=
  ⟨demoHeap_reload, rfl, LoadChildren_appends demoEnv demoHeap 0 demoRoot rfl⟩

/-- C10: `IsLastChild` answers true for a node without parent; and among the children of a
parent whose children list is non-empty and without repetition (each child pointing back
to the parent), it answers true for the child in the last position and false for the child
in any other position. -/
theorem IsLastChild_spec (h : Heap) :
    (∀ (x : Nat) (n : Node), h[x]? = some n → n.Parent = none → IsLastChild h x = some true) ∧
    (∀ (p : Nat) (pn : Node), h[p]? = some pn → pn.Children ≠ [] → pn.Children.Nodup →
      (∀ c ∈ pn.Children, ∃ cn : Node, h[c]? = some cn ∧ cn.Parent = some p) →
      ∀ (i : Nat) (hi : i < pn.Children.length),
        IsLastChild h pn.Children[i] = some (decide (i = pn.Children.length - 1))) := by
  constructor
  · intro x n hx hp
    simp [IsLastChild, hx, hp]
  · intro p pn hp hne hnd hback i hi
    obtain ⟨cn, hcn, hpar⟩ := hback pn.Children[i] (List.getElem_mem _)
    have hlen : pn.Children.length ≠ 0 := fun hh => hne (List.length_eq_zero.mp hh)
    have hlast : pn.Children.length - 1 < pn.Children.length := by omega
    unfold IsLastChild
    simp only [hcn, hpar, hp, if_neg hlen, Option.some.injEq]
    rw [List.getElem?_eq_getElem hlast]
    simp only [Option.some.injEq, decide_eq_decide]
    rw [hnd.getElem_inj_iff]
    omega

/-- Witness for C10: the children `[1, 2, 3]` of the demo root; only the last answers
true. -/
theorem IsLastChild_spec_witness :
    (demoHeap[0]? = some demoRoot ∧ IsLastChild demoHeap 0 = some true) ∧
    (IsLastChild demoHeap 1 = some false ∧ IsLastChild demoHeap 2 = some false ∧
      IsLastChild demoHeap 3 = some true) := by
  have hroot : demoHeap[0]? = some demoRoot := rfl
  have hspec := (IsLastChild_spec demoHeap).2 0 demoRoot hroot (by decide) (by decide)
    (by
      intro c hc
      have hc' : c = 1 ∨ c = 2 ∨ c = 3 := by simpa [demoRoot] using hc
      rcases hc' with rfl | rfl | rfl <;> exact ⟨_, rfl, rfl⟩)
  exact ⟨⟨hroot, (IsLastChild_spec demoHeap).1 0 demoRoot hroot rfl⟩,
    hspec 0 (by decide), hspec 1 (by decide), hspec 2 (by decide)⟩

/-! ## Claims about jumps, steps and resizing -/

theorem adjust_viewportHeight (m : Model) :
    (adjustViewportToCursor m).viewportHeight = m.viewportHeight := by
  unfold adjustViewportToCursor
  simp only []
  split_ifs <;> rfl

/-- `adjustViewportToCursor` when the result is forced: the offset it leaves is the only
one that meets the view conditions. -/
theorem adjust_to (m : Model) (target : Int) (hlen : m.len < 9223372036854775808)
    (hc0 : 0 ≤ m.cursor) (hc1 : m.cursor < m.len)
    (hv0 : 1 ≤ m.viewportHeight) (hv1 : m.viewportHeight < 9223372036854775808)
    (ho0 : 0 ≤ m.viewportOffset) (ho1 : m.viewportOffset < 9223372036854775808)
    (ht : ∀ o : Int, 0 ≤ o → o ≤ max 0 (m.len - m.viewportHeight) → o ≤ m.cursor →
      m.cursor < o + m.viewportHeight → o = target) :
    adjustViewportToCursor m = { m with viewportOffset := target } := by
  obtain ⟨o, he, h1, h2, h3, h4⟩ := adjust_ok m hlen hc0 hc1 hv0 hv1 ho0 ho1
  rw [he, ht o h1 h2 h3 h4]

/-- C14: from a state of a session in which no `g` is pending, a first `g` changes nothing
but the pending flag, and a second `g` right after it puts cursor and viewport offset at 0
and clears the flag, changing nothing else. -/
theorem jump_to_top_gesture (m : Model) (hr : Reachable m) (hp : m.pendingG = false)
    (env : Env) (fuel : Nat) :
    Update env fuel m (Msg.KeyMsg "g") = some ({ m with pendingG := true }, none) ∧
    Update env fuel { m with pendingG := true } (Msg.KeyMsg "g") =
      some ({ m with cursor := 0, viewportOffset := 0, pendingG := false }, none) := by
  have hv := hr.inv.view
  have h1 := hv.cursor_lo
  have h2 := hv.cursor_hi
  constructor
  · unfold Update
    dsimp only
    rw [if_neg (by decide), if_neg (by decide), if_neg (by decide), if_neg (by decide),
      if_neg (by decide), if_neg (by decide), if_neg (by decide), if_pos rfl,
      if_neg (by rw [hp]; decide)]
  · have hj : jumpToTop { m with pendingG := true } =
        { m with pendingG := true, cursor := 0, viewportOffset := 0 } := by
      unfold jumpToTop
      exact adjust_to { m with pendingG := true, cursor := 0 } 0 hv.len_fit (le_refl _)
        (by show (0 : Int) < m.len; omega) hv.vh_lo hv.vh_hi hv.off_lo hv.off_fit
        (fun o ho0 _ ho2 _ => by
          have : o ≤ 0 := ho2
          omega)
    unfold Update
    dsimp only
    rw [if_neg (by decide), if_neg (by decide), if_neg (by decide), if_neg (by decide),
      if_neg (by decide), if_neg (by decide), if_neg (by decide), if_pos rfl, if_pos rfl, hj]

/-- Witness for C14: the demo session scrolled down by one line. -/
theorem jump_to_top_gesture_witness :
    Reachable demoModelScrolled ∧ demoModelScrolled.pendingG = false ∧
    Update demoEnv 0 demoModelScrolled (Msg.KeyMsg "g") =
      some ({ demoModelScrolled with pendingG := true }, none) ∧
    Update demoEnv 0 { demoModelScrolled with pendingG := true } (Msg.KeyMsg "g") =
      some ({ demoModelScrolled with cursor := 0, viewportOffset := 0, pendingG := false },
        none) :=
  ⟨demoModelScrolled_reachable, rfl,
    jump_to_top_gesture demoModelScrolled demoModelScrolled_reachable rfl demoEnv 0⟩

/-- C15: from any state of a session a single `G` puts the cursor on the last index, clears
the pending flag and leaves the viewport offset at `max(0, len - viewportHeight)`, changing
nothing else. -/
theorem jump_to_bottom (m : Model) (hr : Reachable m) (env : Env) (fuel : Nat) :
    Update env fuel m (Msg.KeyMsg "G") =
      some ({ m with cursor := m.len - 1,
                     viewportOffset := max 0 (m.len - m.viewportHeight),
                     pendingG := false }, none) := by
  have hv := hr.inv.view
  have h1 := hv.cursor_lo
  have h2 := hv.cursor_hi
  have h3 := hv.len_fit
  have hw : wrapInt (m.len - 1) = m.len - 1 := by unfold wrapInt; omega
  have hj : jumpToBottom m =
      { m with cursor := m.len - 1, viewportOffset := max 0 (m.len - m.viewportHeight) } := by
    unfold jumpToBottom
    rw [if_pos (by omega), hw]
    exact adjust_to { m with cursor := m.len - 1 } _ hv.len_fit
      (by show 0 ≤ m.len - 1; omega) (by show m.len - 1 < m.len; omega)
      hv.vh_lo hv.vh_hi hv.off_lo hv.off_fit
      (fun o ho0 ho1 _ ho3 => by
        have a : o ≤ max 0 (m.len - m.viewportHeight) := ho1
        have b : m.len - 1 < o + m.viewportHeight := ho3
        omega)
  unfold Update
  dsimp only
  rw [if_neg (by decide), if_neg (by decide), if_neg (by decide), if_neg (by decide),
    if_neg (by decide), if_neg (by decide), if_neg (by decide), if_neg (by decide),
    if_pos rfl, hj]

/-- Witness for C15: the demo session after `G` and `enter`, cursor on `sub`. -/
theorem jump_to_bottom_witness :
    Reachable demoModelExpanded ∧
    Update demoEnv 0 demoModelExpanded (Msg.KeyMsg "G") =
      some ({ demoModelExpanded with
                cursor := demoModelExpanded.len - 1,
                viewportOffset :=
                  max 0 (demoModelExpanded.len - demoModelExpanded.viewportHeight),
                pendingG := false }, none) :=
  ⟨demoModelExpanded_reachable, jump_to_bottom demoModelExpanded demoModelExpanded_reachable
    demoEnv 0⟩

/-- `adjustViewportToCursor` when the cursor has just moved one row below the window. -/
theorem adjust_scroll (m : Model) (hlen : m.len < 9223372036854775808)
    (hc0 : 0 ≤ m.cursor) (hc1 : m.cursor < m.len)
    (hv0 : 1 ≤ m.viewportHeight) (hv1 : m.viewportHeight < 9223372036854775808)
    (ho0 : 0 ≤ m.viewportOffset)
    (hrow : m.cursor = m.viewportOffset + m.viewportHeight) :
    adjustViewportToCursor m =
      { m with viewportOffset := m.cursor - m.viewportHeight + 1 } := by
  have hl : ∀ o : Int, Model.len { m with viewportOffset := o } = m.len := fun _ => rfl
  have hex : ∃ o : Int, adjustViewportToCursor m = { m with viewportOffset := o } ∧
      o = m.cursor - m.viewportHeight + 1 := by
    unfold adjustViewportToCursor wrapInt
    simp only []
    split_ifs <;> simp only [hl] at * <;> exact ⟨_, rfl, by omega⟩
  obtain ⟨o, he, ho⟩ := hex
  rw [he, ho]

/-- C17: in a state that satisfies the view conditions, with the cursor on the last visible
row (`cursor = viewportOffset + viewportHeight - 1`) and not on the last index, a step down
(`down` or `j`) moves the cursor to `cursor + 1` and the offset to
`cursor + 1 - viewportHeight + 1`, changing nothing else; and in the scenario of a two-line
window over five nodes, cursor and offset at 0, three steps down end with cursor 3 and
offset 2. -/
theorem step_down_scrolls :
    (∀ (m : Model) (env : Env) (fuel : Nat) (key : String),
      ViewOK m.len m.cursor m.viewportHeight m.viewportOffset →
      m.cursor = m.viewportOffset + m.viewportHeight - 1 → m.cursor < m.len - 1 →
      key = "down" ∨ key = "j" →
      Update env fuel m (Msg.KeyMsg key) =
        some ({ m with cursor := m.cursor + 1,
                       viewportOffset := m.cursor + 1 - m.viewportHeight + 1 }, none)) ∧
    (scrollScenario.viewportHeight = 2 ∧ scrollScenario.len = 5 ∧
      scrollScenario.cursor = 0 ∧ scrollScenario.viewportOffset = 0 ∧
      ∀ (env : Env) (fuel : Nat),
        Update env fuel scrollScenario (Msg.KeyMsg "down") =
          some ({ scrollScenario with cursor := 1, viewportOffset := 0 }, none) ∧
        Update env fuel { scrollScenario with cursor := 1, viewportOffset := 0 }
            (Msg.KeyMsg "down") =
          some ({ scrollScenario with cursor := 2, viewportOffset := 1 }, none) ∧
        Update env fuel { scrollScenario with cursor := 2, viewportOffset := 1 }
            (Msg.KeyMsg "down") =
          some ({ scrollScenario with cursor := 3, viewportOffset := 2 }, none)) := by
  constructor
  · intro m env fuel key hv hrow hnl hk
    have h1 := hv.cursor_lo
    have h3 := hv.len_fit
    have h4 := hv.vh_lo
    have h5 := hv.off_lo
    have hw : wrapInt (m.len - 1) = m.len - 1 := by unfold wrapInt; omega
    have hw2 : wrapInt (m.cursor + 1) = m.cursor + 1 := by unfold wrapInt; omega
    have k1 : ¬ (key = "q" ∨ key = "ctrl+c" ∨ key = "esc") := by
      rcases hk with rfl | rfl <;> decide
    have k2 : ¬ (key = "up" ∨ key = "k") := by
      rcases hk with rfl | rfl <;> decide
    have ha : adjustViewportToCursor { m with cursor := m.cursor + 1 } =
        { m with cursor := m.cursor + 1,
                 viewportOffset := m.cursor + 1 - m.viewportHeight + 1 } :=
      adjust_scroll { m with cursor := m.cursor + 1 } hv.len_fit
        (by show 0 ≤ m.cursor + 1; omega) (by show m.cursor + 1 < m.len; omega)
        hv.vh_lo hv.vh_hi hv.off_lo
        (by show m.cursor + 1 = m.viewportOffset + m.viewportHeight; omega)
    unfold Update
    dsimp only
    rw [if_neg k1, if_neg k2, if_pos hk, hw, if_pos hnl, hw2, ha]
  · refine ⟨rfl, rfl, rfl, rfl, fun env fuel => ⟨by rfl, by rfl, by rfl⟩⟩

/-- Witness for C17: the second step of the scenario, from cursor 1 on the last visible row
of the window `[0, 1]`. -/
theorem step_down_scrolls_witness :
    ViewOK (5 : Int) 1 2 0 ∧
    Update demoEnv 0 { scrollScenario with cursor := 1, viewportOffset := 0 }
        (Msg.KeyMsg "j") =
      some ({ scrollScenario with cursor := 1 + 1, viewportOffset := 1 + 1 - 2 + 1 }, none) :=
  have hv : ViewOK (5 : Int) 1 2 0 :=
    ⟨by decide, by decide, by decide, by decide, by decide, by decide, by decide, by decide,
      by decide⟩
  ⟨hv, step_down_scrolls.1 { scrollScenario with cursor := 1, viewportOffset := 0 } demoEnv 0
    "j" hv rfl (by decide) (Or.inr rfl)⟩

/-- C18: for every terminal height `H > 10` (a Go `int`, so below `2^63`), after a
`WindowSizeMsg` the viewport height is `max(1, H - chromeLines)`, where `chromeLines` is 3
when the status message is empty and 4 when it is not. -/
theorem resize_normal_terminal (m : Model) (env : Env) (fuel : Nat) (W H : Int)
    (hH : 10 < H) (hint : H < 9223372036854775808) :
    ∃ m', Update env fuel m (Msg.WindowSizeMsg W H) = some (m', none) ∧
      m'.viewportHeight = max 1 (H - (if m.status = "" then 3 else 4)) := by
  refine ⟨_, rfl, ?_⟩
  rw [adjust_viewportHeight]
  unfold updateViewportHeight wrapInt
  dsimp only
  by_cases hs : m.status = ""
  · simp only [hs, ne_eq, not_true_eq_false, if_false, if_true]
    split_ifs <;> dsimp only at * <;> omega
  · simp only [hs, ne_eq, not_false_eq_true, if_true, if_false]
    split_ifs <;> dsimp only at * <;> omega

/-- Witness for C18: the demo model in a terminal of 24 lines. -/
theorem resize_normal_terminal_witness :
    (10 : Int) < 24 ∧ (24 : Int) < 9223372036854775808 ∧
    ∃ m', Update demoEnv 0 demoModel (Msg.WindowSizeMsg 80 24) = some (m', none) ∧
      m'.viewportHeight = max 1 (24 - (if demoModel.status = "" then 3 else 4)) :=
  ⟨by decide, by decide,
    resize_normal_terminal demoModel demoEnv 0 80 24 (by decide) (by decide)⟩

/-- C19, counterexample: the demo model has four visible nodes; after a resize to a
terminal of 10 lines its viewport height is 7, not 4. -/
theorem resize_small_not_length :
    demoModel.len = 4 ∧
    Update demoEnv 0 demoModel (Msg.WindowSizeMsg 80 10) =
      some ({ demoModel with viewportHeight := 7, terminalHeight := 10 }, none) :=
  ⟨rfl, by rfl⟩

/-- C19, amended: for every terminal height `H ≤ 10`, after a `WindowSizeMsg` the viewport
height is at least the length of the flattened sequence (so no node is hidden) and at
least 1; for `H ≥ -2^63 + 4` it is the largest of 1, `H - chromeLines` and that length,
hence equal to the length exactly when `H - chromeLines` does not exceed it. -/
theorem resize_small_terminal (m : Model) (env : Env) (fuel : Nat) (W H : Int)
    (hH : H ≤ 10) (hfit : FitsInt m) :
    ∃ m', Update env fuel m (Msg.WindowSizeMsg W H) = some (m', none) ∧
      m.len ≤ m'.viewportHeight ∧ 1 ≤ m'.viewportHeight ∧
      (-9223372036854775804 ≤ H →
        m'.viewportHeight = max 1 (max (H - (if m.status = "" then 3 else 4)) m.len)) := by
  have hl0 : 0 ≤ m.len := by unfold Model.len; omega
  have hl1 : m.len < 9223372036854775808 := hfit
  have hl : Model.len { m with terminalHeight := H, terminalWidth := W } = m.len := rfl
  refine ⟨_, rfl, ?_⟩
  rw [adjust_viewportHeight]
  unfold updateViewportHeight wrapInt
  dsimp only
  rw [hl]
  by_cases hs : m.status = ""
  · simp only [hs, ne_eq, not_true_eq_false, if_false, if_true]
    split_ifs <;> dsimp only at * <;> refine ⟨?_, ?_, ?_⟩ <;> omega
  · simp only [hs, ne_eq, not_false_eq_true, if_true, if_false]
    split_ifs <;> dsimp only at * <;> refine ⟨?_, ?_, ?_⟩ <;> omega

/-- Witness for C19 (amended): the demo model in a terminal of 10 lines. -/
theorem resize_small_terminal_witness :
    (10 : Int) ≤ 10 ∧ FitsInt demoModel ∧
    ∃ m', Update demoEnv 0 demoModel (Msg.WindowSizeMsg 80 10) = some (m', none) ∧
      demoModel.len ≤ m'.viewportHeight ∧ 1 ≤ m'.viewportHeight ∧
      (-9223372036854775804 ≤ (10 : Int) →
        m'.viewportHeight =
          max 1 (max (10 - (if demoModel.status = "" then 3 else 4)) demoModel.len)) :=
  ⟨by decide, by decide,
    resize_small_terminal demoModel demoEnv 0 80 10 (by decide) (by decide)⟩

/-! ## Claims about the pending `g` and the page jumps -/

theorem adjust_pendingG (m : Model) :
    (adjustViewportToCursor m).pendingG = m.pendingG := by
  unfold adjustViewportToCursor
  simp only []
  split_ifs <;> rfl

/-- The navigation cases of `Update` do not touch the pending flag. -/
theorem navigation_keeps_pendingG (m : Model) (env : Env) (fuel : Nat) (key : String)
    (hk : key = "up" ∨ key = "k" ∨ key = "down" ∨ key = "j" ∨ key = "ctrl+u" ∨
      key = "ctrl+d" ∨ key = "ctrl+b" ∨ key = "ctrl+f") :
    ∃ m', Update env fuel m (Msg.KeyMsg key) = some (m', none) ∧ m'.pendingG = m.pendingG := by
  have hmove : ∀ d, (moveCursor m d).pendingG = m.pendingG := by
    intro d; unfold moveCursor; rw [adjust_pendingG]
  rcases hk with rfl | rfl | rfl | rfl | rfl | rfl | rfl | rfl
  · by_cases c : m.cursor > 0
    · refine ⟨_, by unfold Update; dsimp only; rw [if_neg (by decide), if_pos (by decide),
        if_pos c], ?_⟩
      rw [adjust_pendingG]
    · exact ⟨m, by unfold Update; dsimp only; rw [if_neg (by decide), if_pos (by decide),
        if_neg c], rfl⟩
  · by_cases c : m.cursor > 0
    · refine ⟨_, by unfold Update; dsimp only; rw [if_neg (by decide), if_pos (by decide),
        if_pos c], ?_⟩
      rw [adjust_pendingG]
    · exact ⟨m, by unfold Update; dsimp only; rw [if_neg (by decide), if_pos (by decide),
        if_neg c], rfl⟩
  · by_cases c : m.cursor < wrapInt (m.len - 1)
    · refine ⟨_, by unfold Update; dsimp only; rw [if_neg (by decide), if_neg (by decide),
        if_pos (by decide), if_pos c], ?_⟩
      rw [adjust_pendingG]
    · exact ⟨m, by unfold Update; dsimp only; rw [if_neg (by decide), if_neg (by decide),
        if_pos (by decide), if_neg c], rfl⟩
  · by_cases c : m.cursor < wrapInt (m.len - 1)
    · refine ⟨_, by unfold Update; dsimp only; rw [if_neg (by decide), if_neg (by decide),
        if_pos (by decide), if_pos c], ?_⟩
      rw [adjust_pendingG]
    · exact ⟨m, by unfold Update; dsimp only; rw [if_neg (by decide), if_neg (by decide),
        if_pos (by decide), if_neg c], rfl⟩
  · exact ⟨jumpHalfScreen m (-1), by rfl, hmove _⟩
  · exact ⟨jumpHalfScreen m 1, by rfl, hmove _⟩
  · exact ⟨jumpFullScreen m (-1), by rfl, hmove _⟩
  · exact ⟨jumpFullScreen m 1, by rfl, hmove _⟩

/-- C13, the code at the failing input: in the demo session the keys `g`, `j`, `g` leave the
pending flag set after `j`, and the final `g` completes the gesture, moving the cursor from
index 1 to the top. -/
theorem pending_g_survives_navigation :
    Update demoEnv 0 demoModel (Msg.KeyMsg "g") =
      some ({ demoModel with pendingG := true }, none) ∧
    Update demoEnv 0 { demoModel with pendingG := true } (Msg.KeyMsg "j") =
      some ({ demoModel with pendingG := true, cursor := 1 }, none) ∧
    Update demoEnv 0 { demoModel with pendingG := true, cursor := 1 } (Msg.KeyMsg "g") =
      some ({ demoModel with pendingG := false, cursor := 0 }, none) :=
  ⟨by rfl, by rfl, by rfl⟩

theorem demoModelTall_reachable : Reachable demoModelTall :=
  Reachable.step
    (Reachable.step demoModelExpanded_reachable
      (by rfl : Update demoEnv 0 demoModelExpanded (Msg.KeyMsg "G") =
        some ({ demoModelExpanded with cursor := 4 }, none)) (by decide))
    (by rfl : Update demoEnv 0 { demoModelExpanded with cursor := 4 }
        (Msg.WindowSizeMsg 80 9223372036854775807) = some (demoModelTall, none))
    (by decide)

/-- C16, counterexample: in the demo session resized to a terminal of `2^63 - 1` lines, with
the cursor on index 4 of 5, `ctrl+f` computes `4 + (2^63 - 4)` in a 64-bit `int`, which
wraps to a negative number, and the cursor lands on 0, not on `min(n - 1, c + max(1, h))`,
which is 4. -/
theorem page_down_wraps :
    Reachable demoModelTall ∧
    Update demoEnv 0 demoModelTall (Msg.KeyMsg "ctrl+f") =
      some ({ demoModelTall with cursor := 0 }, none) ∧
    min (demoModelTall.len - 1)
      (demoModelTall.cursor + max 1 demoModelTall.viewportHeight) = 4 :=
  ⟨demoModelTall_reachable, by rfl, by decide⟩

/-- C16, amended: from any state of a session with cursor `c`, length `n` and viewport
height `h` (`h / 2` is integer division), `ctrl+u` sets the cursor to
`max(0, c - max(1, h/2))` and `ctrl+b` to `max(0, c - max(1, h))`; `ctrl+d` sets it to
`min(n-1, c + max(1, h/2))` and `ctrl+f` to `min(n-1, c + max(1, h))` whenever the sum is a
value of a Go `int`, that is below `2^63`. -/
theorem page_jumps (m : Model) (hr : Reachable m) (env : Env) (fuel : Nat) :
    (∃ m', Update env fuel m (Msg.KeyMsg "ctrl+u") = some (m', none) ∧
      m'.cursor = max 0 (m.cursor - max 1 (m.viewportHeight / 2))) ∧
    (∃ m', Update env fuel m (Msg.KeyMsg "ctrl+b") = some (m', none) ∧
      m'.cursor = max 0 (m.cursor - max 1 m.viewportHeight)) ∧
    (m.cursor + max 1 (m.viewportHeight / 2) < 9223372036854775808 →
      ∃ m', Update env fuel m (Msg.KeyMsg "ctrl+d") = some (m', none) ∧
        m'.cursor = min (m.len - 1) (m.cursor + max 1 (m.viewportHeight / 2))) ∧
    (m.cursor + max 1 m.viewportHeight < 9223372036854775808 →
      ∃ m', Update env fuel m (Msg.KeyMsg "ctrl+f") = some (m', none) ∧
        m'.cursor = min (m.len - 1) (m.cursor + max 1 m.viewportHeight)) := by
  have hv := hr.inv.view
  have h1 := hv.cursor_lo
  have h2 := hv.cursor_hi
  have h3 := hv.len_fit
  have h4 := hv.vh_lo
  have h5 := hv.vh_hi
  have htdiv : Int.tdiv m.viewportHeight 2 = m.viewportHeight / 2 :=
    Int.tdiv_eq_ediv (by omega) (by norm_num)
  refine ⟨⟨jumpHalfScreen m (-1), by rfl, ?_⟩, ⟨jumpFullScreen m (-1), by rfl, ?_⟩,
    fun hf => ⟨jumpHalfScreen m 1, by rfl, ?_⟩, fun hf => ⟨jumpFullScreen m 1, by rfl, ?_⟩⟩
  · unfold jumpHalfScreen
    dsimp only
    rw [moveCursor_cursor, htdiv]
    unfold wrapInt
    split_ifs <;> omega
  · unfold jumpFullScreen
    dsimp only
    rw [moveCursor_cursor]
    unfold wrapInt
    split_ifs <;> omega
  · unfold jumpHalfScreen
    dsimp only
    rw [moveCursor_cursor, htdiv]
    unfold wrapInt
    split_ifs <;> omega
  · unfold jumpFullScreen
    dsimp only
    rw [moveCursor_cursor]
    unfold wrapInt
    split_ifs <;> omega

/-- Witness for C16 (amended): the demo session after `G` and `enter`, cursor 3 of 5 in a
window of 1000 lines. -/
theorem page_jumps_witness :
    Reachable demoModelExpanded ∧
    (∃ m', Update demoEnv 0 demoModelExpanded (Msg.KeyMsg "ctrl+u") = some (m', none) ∧
      m'.cursor = max 0 (demoModelExpanded.cursor -
        max 1 (demoModelExpanded.viewportHeight / 2))) ∧
    (∃ m', Update demoEnv 0 demoModelExpanded (Msg.KeyMsg "ctrl+b") = some (m', none) ∧
      m'.cursor = max 0 (demoModelExpanded.cursor - max 1 demoModelExpanded.viewportHeight)) ∧
    (demoModelExpanded.cursor + max 1 (demoModelExpanded.viewportHeight / 2) <
        9223372036854775808 →
      ∃ m', Update demoEnv 0 demoModelExpanded (Msg.KeyMsg "ctrl+d") = some (m', none) ∧
        m'.cursor = min (demoModelExpanded.len - 1)
          (demoModelExpanded.cursor + max 1 (demoModelExpanded.viewportHeight / 2))) ∧
    (demoModelExpanded.cursor + max 1 demoModelExpanded.viewportHeight <
        9223372036854775808 →
      ∃ m', Update demoEnv 0 demoModelExpanded (Msg.KeyMsg "ctrl+f") = some (m', none) ∧
        m'.cursor = min (demoModelExpanded.len - 1)
          (demoModelExpanded.cursor + max 1 demoModelExpanded.viewportHeight)) :=
  ⟨demoModelExpanded_reachable,
    page_jumps demoModelExpanded demoModelExpanded_reachable demoEnv 0⟩

/-! ## Claims about expanding and collapsing -/

theorem demoModelAtSub_reachable : Reachable demoModelAtSub :=
  Reachable.step demoModel_reachable
    (by rfl : Update demoEnv 5 demoModel (Msg.KeyMsg "G") = some (demoModelAtSub, none))
    (by decide)

/-- `adjustViewportToCursor` changes nothing but the viewport offset. -/
theorem adjust_shape (m : Model) :
    ∃ o : Int, adjustViewportToCursor m = { m with viewportOffset := o } := by
  unfold adjustViewportToCursor
  simp only []
  split_ifs <;> exact ⟨_, rfl⟩

theorem set_self {h : Heap} {x : Nat} {n : Node} (hn : h[x]? = some n) : h.set x n = h := by
  apply List.ext_getElem?
  intro i
  rw [List.getElem?_set]
  by_cases hi : x = i
  · subst hi; simp [get_lt hn, hn]
  · simp [hi]

theorem setIsExpanded_eq {h : Heap} {x : Nat} {n : Node} (b : Bool) (hn : h[x]? = some n) :
    setIsExpanded h x b = some (h.set x { n with IsExpanded := b }) := by
  simp [setIsExpanded, hn]

/-- The keys `enter` and space run the same case of `Update`. -/
theorem Update_enter_key (env : Env) (fuel : Nat) (m : Model) (key : String)
    (hk : key = "enter" ∨ key = " ") :
    Update env fuel m (Msg.KeyMsg key) =
      match Update.enter env fuel m with
      | none => none
      | some m1 => some (m1, none) := by
  rcases hk with rfl | rfl <;> rfl

/-- The `enter` case on a directory, step by step: the flag is flipped, the children are
loaded if the node is now expanded and has none, the tree is flattened again and the
viewport adjusted. -/
theorem Update_enter_dir {env : Env} {fuel : Nat} {m : Model} {x : Nat} {n : Node}
    {g : Heap} {L : List Nat} (hc0 : 0 ≤ m.cursor) (hc1 : m.cursor < m.len)
    (hx : m.flattenedNodes[m.cursor.toNat]? = some x) (hn : m.heap[x]? = some n)
    (hdir : n.IsDir = true)
    (hl : (if (!n.IsExpanded) = true ∧ n.Children.length = 0 then
        LoadChildren env (m.heap.set x { n with IsExpanded := !n.IsExpanded }) x
      else some (m.heap.set x { n with IsExpanded := !n.IsExpanded })) = some g)
    (hfl : flattenRecursive g fuel m.tree [] = some L) :
    Update.enter env fuel m =
      some (adjustViewportToCursor
        { m with pendingG := false, heap := g, flattenedNodes := L }) := by
  have hlen0 : Model.len { m with pendingG := false } = m.len := rfl
  unfold Update.enter
  dsimp only
  rw [hlen0, if_pos hc1, if_neg (by omega), hx]
  dsimp only
  rw [hn]
  dsimp only
  rw [if_pos hdir, setIsExpanded_eq _ hn]
  dsimp only
  rw [hl]
  dsimp only
  unfold updateFlattenedNodes
  dsimp only
  rw [hfl]

/-- If the node listed at position `i` was collapsed and is now expanded, everything else
being as before, the new listing is the old one with the listing of the node's children
inserted after position `i`. -/
theorem Flat.splice {h : Heap} (h' : Heap) {x : Nat} {n n' : Node} {K rs L : List Nat}
    (hL : Flat h rs L) (hn : h[x]? = some n) (hcol : n.IsExpanded = false)
    (hn' : h'[x]? = some n') (hexp : n'.IsExpanded = true) (hK : Flat h' n'.Children K) :
    L.Nodup → (∀ q ∈ L, q ≠ x → h'[q]? = h[q]?) →
    ∀ i : Nat, L[i]? = some x → Flat h' rs (L.take (i + 1) ++ K ++ L.drop (i + 1)) := by
  induction hL with
  | nil => intro _ _ i hi; simp at hi
  | @collapsed r m rs L hm he hrest ih =>
    intro hnd hagree i hi
    have hnd' := List.nodup_cons.mp hnd
    have hag : ∀ q ∈ L, q ≠ x → h'[q]? = h[q]? :=
      fun q hq => hagree q (List.mem_cons_of_mem _ hq)
    cases i with
    | zero =>
      have hrx : r = x := by simpa using hi
      subst hrx
      have hsame : Flat h' rs L :=
        hrest.frame (fun q hq => hag q hq (fun hh => hnd'.1 (hh ▸ hq)))
      have := Flat.expanded hn' hexp hK hsame
      simpa using this
    | succ j =>
      have hj : L[j]? = some x := by simpa using hi
      have hxL : x ∈ L := List.mem_iff_getElem?.mpr ⟨j, hj⟩
      have hrx : r ≠ x := fun hh => hnd'.1 (hh ▸ hxL)
      have hr : h'[r]? = some m := by rw [hagree r (List.mem_cons_self _ _) hrx]; exact hm
      have := Flat.collapsed hr he (ih hnd'.2 hag j hj)
      simpa using this
  | @expanded r m rs L1 L2 hm he hkids hrest ih1 ih2 =>
    intro hnd hagree i hi
    have hnd' := List.nodup_cons.mp hnd
    have hnd12 := List.nodup_append.mp hnd'.2
    have hag1 : ∀ q ∈ L1, q ≠ x → h'[q]? = h[q]? :=
      fun q hq => hagree q (List.mem_cons_of_mem _ (List.mem_append_left _ hq))
    have hag2 : ∀ q ∈ L2, q ≠ x → h'[q]? = h[q]? :=
      fun q hq => hagree q (List.mem_cons_of_mem _ (List.mem_append_right _ hq))
    cases i with
    | zero =>
      have hrx : r = x := by simpa using hi
      subst hrx
      rw [hm] at hn; cases hn
      rw [he] at hcol; cases hcol
    | succ j =>
      have hj : (L1 ++ L2)[j]? = some x := by simpa using hi
      have hxL : x ∈ L1 ++ L2 := List.mem_iff_getElem?.mpr ⟨j, hj⟩
      have hrx : r ≠ x := fun hh => hnd'.1 (hh ▸ hxL)
      have hr : h'[r]? = some m := by rw [hagree r (List.mem_cons_self _ _) hrx]; exact hm
      by_cases hjl : j < L1.length
      · have hj1 : L1[j]? = some x := by rwa [List.getElem?_append_left hjl] at hj
        have hx1 : x ∈ L1 := List.mem_iff_getElem?.mpr ⟨_, hj1⟩
        have hx2 : x ∉ L2 := fun hm2 => hnd12.2.2 hx1 hm2
        have hsame : Flat h' rs L2 :=
          hrest.frame (fun q hq => hag2 q hq (fun hh => hx2 (hh ▸ hq)))
        have := Flat.expanded hr he (ih1 hnd12.1 hag1 j hj1) hsame
        have e1 : List.take (j + 1) (L1 ++ L2) = List.take (j + 1) L1 :=
          List.take_append_of_le_length (by omega)
        have e2 : List.drop (j + 1) (L1 ++ L2) = List.drop (j + 1) L1 ++ L2 :=
          List.drop_append_of_le_length (by omega)
        simp only [List.take_succ_cons, List.drop_succ_cons, e1, e2]
        simpa [List.append_assoc] using this
      · have hj2 : L2[j - L1.length]? = some x := by
          rwa [List.getElem?_append_right (by omega)] at hj
        have hx2 : x ∈ L2 := List.mem_iff_getElem?.mpr ⟨_, hj2⟩
        have hx1 : x ∉ L1 := fun hm1 => hnd12.2.2 hm1 hx2
        have hsame : Flat h' m.Children L1 :=
          hkids.frame (fun q hq => hag1 q hq (fun hh => hx1 (hh ▸ hq)))
        have := Flat.expanded hr he hsame (ih2 hnd12.2.1 hag2 (j - L1.length) hj2)
        have e0 : j + 1 = L1.length + (j - L1.length + 1) := by omega
        have e1 : List.take (j + 1) (L1 ++ L2) = L1 ++ List.take (j - L1.length + 1) L2 := by
          rw [e0, List.take_append]
        have e2 : List.drop (j + 1) (L1 ++ L2) = List.drop (j - L1.length + 1) L2 := by
          rw [e0, List.drop_append]
        simp only [List.take_succ_cons, List.drop_succ_cons, e1, e2]
        simpa [List.append_assoc] using this

/-- `LoadChildren` leaves the node itself as it was, but for children appended. -/
theorem LoadChildren_node {env : Env} {h h' : Heap} {x : Nat} {n : Node}
    (hn : h[x]? = some n) (hl : LoadChildren env h x = some h') :
    ∃ kids : List Nat, h'[x]? = some { n with Children := n.Children ++ kids } := by
  cases hrd : env.ReadDir n.Path with
  | none =>
    have : LoadChildren env h x = some h := by
      unfold LoadChildren
      simp only [hn, hrd]
    rw [this] at hl
    cases hl
    exact ⟨[], by simpa using hn⟩
  | some es =>
    obtain ⟨h1, hl1, _, hnode, _, _⟩ := LoadChildren_read env h x n es hn hrd
    rw [hl1] at hl
    cases hl
    exact ⟨_, hnode⟩

/-- C11: in a state of a session with the cursor at index `i` on a collapsed directory,
`enter` or space (with enough fuel) sets the directory's `IsExpanded` to true; the heap is
otherwise untouched when the directory already has children, and is the result of
`LoadChildren` when it has none; and the new flattened sequence is the old one up to and
including index `i`, then the flattening of the directory's children, then the old one from
index `i + 1` on. -/
theorem enter_expands (m : Model) (hr : Reachable m) (env : Env) (key : String) (i x : Nat)
    (n : Node) (hk : key = "enter" ∨ key = " ") (hi : m.cursor = (i : Int))
    (hx : m.flattenedNodes[i]? = some x) (hn : m.heap[x]? = some n)
    (hdir : n.IsDir = true) (hcol : n.IsExpanded = false) :
    ∃ fuel0, ∀ fuel, fuel0 ≤ fuel →
      ∃ (m' : Model) (n' : Node) (K : List Nat),
        Update env fuel m (Msg.KeyMsg key) = some (m', none) ∧
        m'.heap[x]? = some n' ∧ n'.IsExpanded = true ∧
        (n.Children ≠ [] → m'.heap = m.heap.set x { n with IsExpanded := true }) ∧
        (n.Children = [] →
          LoadChildren env (m.heap.set x { n with IsExpanded := true }) x = some m'.heap) ∧
        flattenRecursive.loop (flattenRecursive m'.heap fuel) n'.Children [] = some K ∧
        m'.flattenedNodes =
          m.flattenedNodes.take (i + 1) ++ K ++ m.flattenedNodes.drop (i + 1) := by
  have hm := hr.inv
  have hv := hm.view
  have hc0 := hv.cursor_lo
  have hc1 := hv.cursor_hi
  have hto : m.cursor.toNat = i := by omega
  have hx' : m.flattenedNodes[m.cursor.toNat]? = some x := by rw [hto]; exact hx
  have hneg : (!n.IsExpanded) = true := by rw [hcol]; rfl
  have hs := setIsExpanded_eq (!n.IsExpanded) hn
  have ht1 : TreeInv (m.heap.set x { n with IsExpanded := !n.IsExpanded }) m.tree :=
    hm.tree.setIsExpanded hs (fun y hy => by rw [hn] at hy; cases hy; exact Or.inl hdir)
  obtain ⟨-, n0, hn0, hnode1, -⟩ := setIsExpanded_spec hs
  rw [hn] at hn0; cases hn0
  have hrec1 : ({ n with IsExpanded := !n.IsExpanded } : Node) =
      { n with IsExpanded := true } := by rw [hneg]
  -- the heap after the optional lazy load
  obtain ⟨g, hl, hor, hload, htg, n', hn', hexp'⟩ : ∃ g : Heap,
      (if (!n.IsExpanded) = true ∧ n.Children.length = 0 then
        LoadChildren env (m.heap.set x { n with IsExpanded := !n.IsExpanded }) x
      else some (m.heap.set x { n with IsExpanded := !n.IsExpanded })) = some g ∧
      (g = m.heap.set x { n with IsExpanded := !n.IsExpanded } ∨
        LoadChildren env (m.heap.set x { n with IsExpanded := !n.IsExpanded }) x = some g) ∧
      ((n.Children ≠ [] → g = m.heap.set x { n with IsExpanded := true }) ∧
        (n.Children = [] →
          LoadChildren env (m.heap.set x { n with IsExpanded := true }) x = some g)) ∧
      TreeInv g m.tree ∧ ∃ n' : Node, g[x]? = some n' ∧ n'.IsExpanded = true := by
    by_cases hc : n.Children = []
    · obtain ⟨g, hg⟩ := LoadChildren_some env hnode1
      obtain ⟨kids, hk'⟩ := LoadChildren_node hnode1 hg
      refine ⟨g, ?_, Or.inr hg, ⟨fun hne => absurd hc hne, fun _ => ?_⟩,
        LoadChildren_TreeInv ht1 hnode1 hdir hg, _, hk', hneg⟩
      · rw [if_pos ⟨hneg, by rw [hc]; rfl⟩]; exact hg
      · rw [← hrec1]; exact hg
    · refine ⟨_, ?_, Or.inl rfl, ⟨fun _ => by rw [hrec1], fun he => absurd he hc⟩, ht1, _,
        hnode1, hneg⟩
      rw [if_neg (fun hh => hc (List.length_eq_zero.mp hh.2))]
  obtain ⟨r, hroot, _⟩ := htg.root_ok
  refine ⟨g.length, fun fuel hfuel => ?_⟩
  obtain ⟨L', hL', hflat'⟩ :=
    flattenRecursive_total htg.ordered fuel m.tree (get_lt hroot) (by omega)
  obtain ⟨K, hK, hKflat⟩ := flattenRecursive_loop_total (flattenRecursive g fuel) x
    (fun c _ hc2 => flattenRecursive_total htg.ordered fuel c hc2 (by omega))
    n'.Children (htg.ordered x n' hn')
  have hnd : m.flattenedNodes.Nodup :=
    hm.flat.nodup hm.tree (List.nodup_singleton _) (depthOf m.heap m.tree)
      (fun r hr => by rw [List.mem_singleton.mp hr])
  have hframe := toggle_frame hs hor
  have hspl := Flat.splice g hm.flat hn hcol hn' hexp' hKflat hnd
    (fun q hq hne => hframe q hne (by
      obtain ⟨qn, hqn⟩ := hm.flat.valid q hq
      exact get_lt hqn)) i hx
  have hLeq : L' = m.flattenedNodes.take (i + 1) ++ K ++ m.flattenedNodes.drop (i + 1) :=
    hspl.det hflat'
  have hen := Update_enter_dir hc0 hc1 hx' hn hdir hl (by simpa using hL' [])
  obtain ⟨o, ho⟩ := adjust_shape { m with pendingG := false, heap := g, flattenedNodes := L' }
  rw [ho] at hen
  refine ⟨{ ({ m with pendingG := false, heap := g, flattenedNodes := L' } : Model) with
      viewportOffset := o }, n', K, ?_, hn', hexp', hload.1, hload.2,
    by simpa using hK [], hLeq⟩
  rw [Update_enter_key env fuel m key hk, hen]

/-- Witness for C11: the demo tree built with depth 1, cursor on the collapsed `sub`; the
sequence `[root, a.txt, b.txt, sub]` becomes `[root, a.txt, b.txt, sub, c.txt]`. -/
theorem enter_expands_witness :
    (Update demoEnv 5 demoModelAtSub (Msg.KeyMsg "enter") = some (demoModelExpanded, none) ∧
      demoModelAtSub.flattenedNodes = [0, 1, 2, 3] ∧
      demoModelExpanded.flattenedNodes = [0, 1, 2, 3, 4]) ∧
    Reachable demoModelAtSub ∧
    ∃ fuel0, ∀ fuel, fuel0 ≤ fuel →
      ∃ (m' : Model) (n' : Node) (K : List Nat),
        Update demoEnv fuel demoModelAtSub (Msg.KeyMsg "enter") = some (m', none) ∧
        m'.heap[3]? = some n' ∧ n'.IsExpanded = true ∧
        (([] : List Nat) ≠ [] → m'.heap = demoModelAtSub.heap.set 3
          { Name := "sub", Path := "/r/sub", IsDir := true, IsExpanded := true,
            Children := [], Parent := some 0, Depth := 1 }) ∧
        (([] : List Nat) = [] →
          LoadChildren demoEnv (demoModelAtSub.heap.set 3
            { Name := "sub", Path := "/r/sub", IsDir := true, IsExpanded := true,
              Children := [], Parent := some 0, Depth := 1 }) 3 = some m'.heap) ∧
        flattenRecursive.loop (flattenRecursive m'.heap fuel) n'.Children [] = some K ∧
        m'.flattenedNodes =
          demoModelAtSub.flattenedNodes.take (3 + 1) ++ K ++
            demoModelAtSub.flattenedNodes.drop (3 + 1) :=
  ⟨⟨by rfl, rfl, rfl⟩, demoModelAtSub_reachable,
    enter_expands demoModelAtSub demoModelAtSub_reachable demoEnv "enter" 3 3
      { Name := "sub", Path := "/r/sub", IsDir := true, IsExpanded := false,
        Children := [], Parent := some 0, Depth := 1 }
      (Or.inl rfl) rfl rfl rfl rfl rfl⟩

/-- C12: in a state of a session with the cursor on an expanded directory whose children list
is not empty, two presses of `enter` or space return, whatever the file system answers (the
two resulting models are the same for every environment: nothing is read), the first press
only clears the directory's `IsExpanded`, and after the second press the heap (every node,
with its children and its flag), the tree root, the flattened sequence and the cursor are
exactly what they were. -/
theorem collapse_expand_round_trip (m : Model) (hr : Reachable m) (key1 key2 : String)
    (i x : Nat) (n : Node) (fuel : Nat) (hfuel : m.heap.length ≤ fuel)
    (hk1 : key1 = "enter" ∨ key1 = " ") (hk2 : key2 = "enter" ∨ key2 = " ")
    (hi : m.cursor = (i : Int)) (hx : m.flattenedNodes[i]? = some x)
    (hn : m.heap[x]? = some n) (hdir : n.IsDir = true) (hexp : n.IsExpanded = true)
    (hkids : n.Children ≠ []) :
    ∃ m1 m2 : Model,
      (∀ env env' : Env,
        Update env fuel m (Msg.KeyMsg key1) = some (m1, none) ∧
        Update env' fuel m1 (Msg.KeyMsg key2) = some (m2, none)) ∧
      m1.heap = m.heap.set x { n with IsExpanded := false } ∧
      m2.heap = m.heap ∧ m2.tree = m.tree ∧
      m2.flattenedNodes = m.flattenedNodes ∧ m2.cursor = m.cursor := by
  have hm := hr.inv
  have hv := hm.view
  have hc0 := hv.cursor_lo
  have hc1 := hv.cursor_hi
  have hto : m.cursor.toNat = i := by omega
  have hx' : m.flattenedNodes[m.cursor.toNat]? = some x := by rw [hto]; exact hx
  have hneg : (!n.IsExpanded) = false := by rw [hexp]; rfl
  have hs := setIsExpanded_eq (!n.IsExpanded) hn
  have ht1 : TreeInv (m.heap.set x { n with IsExpanded := !n.IsExpanded }) m.tree :=
    hm.tree.setIsExpanded hs (fun y hy => by rw [hn] at hy; cases hy; exact Or.inl hdir)
  obtain ⟨hlen1, n0, hn0, hnode1, hframe⟩ := setIsExpanded_spec hs
  rw [hn] at hn0; cases hn0
  obtain ⟨r, hroot, _⟩ := hm.tree.root_ok
  obtain ⟨r1, hroot1, _⟩ := ht1.root_ok
  -- first press: collapse
  obtain ⟨L1, hL1, hflat1⟩ :=
    flattenRecursive_total ht1.ordered fuel m.tree (get_lt hroot1) (by omega)
  have hnd : m.flattenedNodes.Nodup :=
    hm.flat.nodup hm.tree (List.nodup_singleton _) (depthOf m.heap m.tree)
      (fun r hr => by rw [List.mem_singleton.mp hr])
  have hpre := Flat.prefix_stable (m.heap.set x { n with IsExpanded := !n.IsExpanded }) hm.flat
    hnd (fun q _ hne => hframe q hne) i L1 hx hflat1
  have hx1 : L1[i]? = some x := by
    have h1 : (L1.take (i + 1))[i]? = some x := by
      rw [hpre, List.getElem?_take_of_lt (Nat.lt_succ_self i)]; exact hx
    rwa [List.getElem?_take_of_lt (Nat.lt_succ_self i)] at h1
  have hi1 : i < L1.length := by
    by_contra hh
    rw [List.getElem?_eq_none (by omega)] at hx1
    cases hx1
  have hl1 : ∀ env : Env, (if (!n.IsExpanded) = true ∧ n.Children.length = 0 then
        LoadChildren env (m.heap.set x { n with IsExpanded := !n.IsExpanded }) x
      else some (m.heap.set x { n with IsExpanded := !n.IsExpanded })) =
      some (m.heap.set x { n with IsExpanded := !n.IsExpanded }) := fun env =>
    if_neg (fun hh => by rw [hneg] at hh; exact Bool.noConfusion hh.1)
  obtain ⟨o1, ho1⟩ := adjust_shape
    { m with pendingG := false, heap := m.heap.set x { n with IsExpanded := !n.IsExpanded },
             flattenedNodes := L1 }
  have hen1 := fun env : Env =>
    Update_enter_dir hc0 hc1 hx' hn hdir (hl1 env) (by simpa using hL1 [])
  -- second press: expand again, the children are there
  let m0 : Model :=
    { m with pendingG := false, heap := m.heap.set x { n with IsExpanded := !n.IsExpanded },
             flattenedNodes := L1 }
  let m1 : Model := { m0 with viewportOffset := o1 }
  have hc0' : 0 ≤ m1.cursor := hc0
  have hc1' : m1.cursor < m1.len := by
    show m.cursor < (L1.length : Int)
    omega
  have hx1' : m1.flattenedNodes[m1.cursor.toNat]? = some x := by
    show L1[m.cursor.toNat]? = some x
    rw [hto]; exact hx1
  have hback : (m.heap.set x { n with IsExpanded := !n.IsExpanded }).set x
      { ({ n with IsExpanded := !n.IsExpanded } : Node) with
        IsExpanded := !(!n.IsExpanded) } = m.heap := by
    rw [List.set_set, Bool.not_not]
    exact set_self hn
  have hl2 : ∀ env : Env,
      (if (!(!n.IsExpanded)) = true ∧ n.Children.length = 0 then
        LoadChildren env ((m.heap.set x { n with IsExpanded := !n.IsExpanded }).set x
          { ({ n with IsExpanded := !n.IsExpanded } : Node) with
            IsExpanded := !(!n.IsExpanded) }) x
      else some ((m.heap.set x { n with IsExpanded := !n.IsExpanded }).set x
          { ({ n with IsExpanded := !n.IsExpanded } : Node) with
            IsExpanded := !(!n.IsExpanded) })) = some m.heap := fun env => by
    rw [if_neg (fun hh => hkids (List.length_eq_zero.mp hh.2)), hback]
  obtain ⟨L2, hL2, hflat2⟩ :=
    flattenRecursive_total hm.tree.ordered fuel m.tree (get_lt hroot) (by omega)
  have hL2eq : L2 = m.flattenedNodes := (hflat2.det hm.flat).symm
  obtain ⟨o2, ho2⟩ :=
    adjust_shape { m1 with pendingG := false, heap := m.heap, flattenedNodes := L2 }
  have hen2 := fun env : Env =>
    Update_enter_dir (m := m1) hc0' hc1' hx1' hnode1 hdir (hl2 env) (by simpa using hL2 [])
  let m2 : Model := { m1 with pendingG := false, heap := m.heap, flattenedNodes := L2 }
  refine ⟨m1, { m2 with viewportOffset := o2 }, fun env env' => ⟨?_, ?_⟩, ?_, rfl, rfl,
    hL2eq, rfl⟩
  · rw [Update_enter_key env fuel m key1 hk1, hen1 env, ho1]
  · rw [Update_enter_key env' fuel m1 key2 hk2, hen2 env', ho2]
  · show m.heap.set x { n with IsExpanded := !n.IsExpanded } = _
    rw [hneg]

/-- Witness for C12: the demo session with the cursor on the expanded `sub`, which holds
`c.txt`; `enter` then space. -/
theorem collapse_expand_round_trip_witness :
    Reachable demoModelExpanded ∧ demoModelExpanded.heap.length ≤ 5 ∧
    demoModelExpanded.cursor = ((3 : Nat) : Int) ∧
    demoModelExpanded.flattenedNodes[3]? = some 3 ∧
    demoModelExpanded.heap[3]? = some
      { Name := "sub", Path := "/r/sub", IsDir := true, IsExpanded := true, Children := [4],
        Parent := some 0, Depth := 1 } ∧
    ∃ m1 m2 : Model,
      (∀ env env' : Env,
        Update env 5 demoModelExpanded (Msg.KeyMsg "enter") = some (m1, none) ∧
        Update env' 5 m1 (Msg.KeyMsg " ") = some (m2, none)) ∧
      m1.heap = demoModelExpanded.heap.set 3
        { Name := "sub", Path := "/r/sub", IsDir := true, IsExpanded := false,
          Children := [4], Parent := some 0, Depth := 1 } ∧
      m2.heap = demoModelExpanded.heap ∧ m2.tree = demoModelExpanded.tree ∧
      m2.flattenedNodes = demoModelExpanded.flattenedNodes ∧
      m2.cursor = demoModelExpanded.cursor :=
  ⟨demoModelExpanded_reachable, by decide, rfl, rfl, rfl,
    collapse_expand_round_trip demoModelExpanded demoModelExpanded_reachable "enter" " " 3 3
      { Name := "sub", Path := "/r/sub", IsDir := true, IsExpanded := true, Children := [4],
        Parent := some 0, Depth := 1 }
      5 (by decide) (Or.inl rfl) (Or.inr rfl) rfl rfl rfl rfl rfl (List.cons_ne_nil _ _)⟩

/-! ## Claims about the tree connectors -/

theorem TreeInv.depth_nonneg {h : Heap} {root : Nat} (ht : TreeInv h root) {q : Nat}
    {n : Node} (hq : h[q]? = some n) : 0 ≤ n.Depth := by
  obtain ⟨r, hr, _, hd, _⟩ := ht.root_ok
  have h1 := ((ht.desc_root q (get_lt hq)).depth_le ht).1
  simp only [depthOf, hr, hq, hd] at h1
  exact h1

theorem IsLastChild_total {h : Heap} {root : Nat} (ht : TreeInv h root) {q : Nat} {n : Node}
    (hq : h[q]? = some n) : ∃ b, IsLastChild h q = some b := by
  unfold IsLastChild
  rw [hq]
  dsimp only
  cases hp : n.Parent with
  | none => exact ⟨true, rfl⟩
  | some p =>
    obtain ⟨_, pn, hpn, _, _⟩ := ht.parent_of q n p hq hp
    dsimp only
    rw [hpn]
    dsimp only
    split_ifs <;> exact ⟨_, rfl⟩

theorem drop_set_self {α : Type} (l : List α) (v : α) :
    ∀ j, j < l.length → (l.set j v).drop j = [v] ++ l.drop (j + 1) := by
  induction l with
  | nil => intro j hj; simp at hj
  | cons x xs ih =>
    intro j hj
    cases j with
    | zero => rfl
    | succ j =>
      simp only [List.set_cons_succ, List.drop_succ_cons]
      exact ih j (by simpa using hj)

theorem getTreeChars_climb_spec {h : Heap} {root : Nat} (ht : TreeInv h root) :
    ∀ (fuel c : Nat) (cn : Node) (positions : List Bool), h[c]? = some cn →
      cn.Depth.toNat < fuel → cn.Depth.toNat ≤ positions.length →
      ∃ flags : List Bool, flags.length = cn.Depth.toNat ∧
        (∀ k, k < cn.Depth.toNat → ∃ (a : Nat) (b : Bool), Desc h a c ∧
          depthOf h a = (k : Int) + 1 ∧ IsLastChild h a = some b ∧ flags[k]? = some (!b)) ∧
        getTreeChars.climb h fuel c positions =
          some (flags ++ positions.drop cn.Depth.toNat) := by
  intro fuel
  induction fuel with
  | zero => intro c cn positions _ hf _; omega
  | succ fuel ih =>
    intro c cn positions hc hf hlen
    have hd0 := ht.depth_nonneg hc
    unfold getTreeChars.climb
    rw [hc]
    dsimp only
    cases hp : cn.Parent with
    | none =>
      have hroot : c = root := by
        by_contra hne
        exact ht.has_parent c cn hc hne hp
      obtain ⟨r, hr, _, hd, _⟩ := ht.root_ok
      rw [hroot, hr] at hc
      cases hc
      refine ⟨[], by rw [hd]; rfl, fun k hk => by rw [hd] at hk; simp at hk, ?_⟩
      rw [hd]
      rfl
    | some p =>
      obtain ⟨_, pn, hpn, hmem, hdep⟩ := ht.parent_of c cn p hc hp
      obtain ⟨b, hb⟩ := IsLastChild_total ht hc
      have hpd0 := ht.depth_nonneg hpn
      dsimp only
      rw [hb]
      dsimp only
      have hj : (cn.Depth - 1).toNat = pn.Depth.toNat := by omega
      rw [if_pos ⟨by omega, by omega⟩, hj]
      obtain ⟨flags, hfl, hprop, hres⟩ := ih p pn (positions.set pn.Depth.toNat (!b)) hpn
        (by omega) (by rw [List.length_set]; omega)
      rw [hres]
      have hcd : cn.Depth.toNat = pn.Depth.toNat + 1 := by omega
      refine ⟨flags ++ [!b], by rw [List.length_append, hfl, hcd]; rfl, ?_, ?_⟩
      · intro k hk
        by_cases hkj : k < pn.Depth.toNat
        · obtain ⟨a, b', hda, hdp, hil, hfk⟩ := hprop k hkj
          refine ⟨a, b', Desc.step hda hpn hmem, hdp, hil, ?_⟩
          rw [List.getElem?_append_left (by omega)]
          exact hfk
        · have hke : k = pn.Depth.toNat := by omega
          refine ⟨c, b, Desc.refl c, ?_, hb, ?_⟩
          · simp only [depthOf, hc]
            omega
          · rw [List.getElem?_append_right (by omega), hfl, hke]
            simp
      · rw [hcd]
        congr 1
        rw [List.append_assoc]
        congr 1
        exact drop_set_self positions (!b) pn.Depth.toNat (by omega)

theorem join_cons_eq (s : String) (ss : List String) :
    String.join (s :: ss) = s ++ String.join ss := by
  apply String.ext
  simp [String.data_join]

theorem getTreeChars_emit_spec (positions : List Bool) :
    ∀ (is : List Nat) (result : String), (∀ i ∈ is, i < positions.length) →
      getTreeChars.emit positions is result = some (result ++ String.join
        (is.map (fun i => if positions.getD i false = true then "│   " else "    "))) := by
  intro is
  induction is with
  | nil =>
    intro result _
    unfold getTreeChars.emit
    congr 1
    apply String.ext
    simp [String.data_join]
  | cons i is ih =>
    intro result hall
    have hi : i < positions.length := hall i (List.mem_cons_self _ _)
    unfold getTreeChars.emit
    rw [List.getElem?_eq_getElem hi]
    dsimp only
    rw [ih _ (fun j hj => hall j (List.mem_cons_of_mem _ hj)), List.map_cons,
      join_cons_eq, List.getD_eq_getElem _ _ hi, String.append_assoc]

theorem segments_length (f : Nat → Bool) : ∀ is : List Nat,
    (String.join (is.map (fun i => if f i = true then "│   " else "    "))).length =
      4 * is.length := by
  intro is
  induction is with
  | nil => rfl
  | cons i is ih =>
    rw [List.map_cons, join_cons_eq, String.length_append, ih, List.length_cons]
    have h1 : "    ".length = 4 := rfl
    have h2 : "│   ".length = 4 := rfl
    cases f i
    · rw [if_neg (by decide), h1]; omega
    · rw [if_pos rfl, h2]; omega

/-- C20: `getTreeChars` returns the empty string for every node at depth 0; for a node `x`
at depth `d > 0` of a well-formed tree it returns (with fuel above `d`) `d - 1` segments
followed by one connector, where the `k`-th segment (`1 ≤ k < d`) is four blanks if the
ancestor of `x` at depth `k` is the last child of its parent and `"│   "` otherwise, and
the connector is `"└── "` if `x` is the last child of its parent and `"├── "` otherwise; the
result is `4 * d` characters long. -/
theorem getTreeChars_spec :
    (∀ (h : Heap) (fuel x : Nat) (n : Node), h[x]? = some n → n.Depth = 0 →
      getTreeChars h fuel x = some "") ∧
    (∀ (h : Heap) (root : Nat), TreeInv h root → ∀ (fuel x : Nat) (n : Node),
      h[x]? = some n → 0 < n.Depth → n.Depth.toNat < fuel →
      ∃ (segs : List String) (last : Bool) (out : String),
        getTreeChars h fuel x = some out ∧
        out = String.join segs ++ (if last = true then "└── " else "├── ") ∧
        IsLastChild h x = some last ∧
        segs.length + 1 = n.Depth.toNat ∧
        (∀ k, 1 ≤ k → k < n.Depth.toNat → ∃ (a : Nat) (b : Bool),
          Desc h a x ∧ depthOf h a = (k : Int) ∧ IsLastChild h a = some b ∧
          segs[k - 1]? = some (if b = true then "    " else "│   ")) ∧
        out.length = 4 * n.Depth.toNat) := by
  constructor
  · intro h fuel x n hx hd
    unfold getTreeChars
    rw [hx]
    dsimp only
    rw [if_pos hd]
  · intro h root ht fuel x n hx hd hfuel
    obtain ⟨flags, hfl, hprop, hclimb⟩ := getTreeChars_climb_spec ht fuel x n
      (List.replicate n.Depth.toNat false) hx hfuel (by rw [List.length_replicate])
    obtain ⟨last, hlast⟩ := IsLastChild_total ht hx
    have hdrop : List.drop n.Depth.toNat (List.replicate n.Depth.toNat false) = [] := by
      simp
    rw [hdrop, List.append_nil] at hclimb
    have hemit := getTreeChars_emit_spec flags (List.range (n.Depth - 1).toNat) ""
      (fun i hi => by rw [List.mem_range] at hi; omega)
    have hget : getTreeChars h fuel x = some ("" ++ String.join
        ((List.range (n.Depth - 1).toNat).map
          (fun i => if flags.getD i false = true then "│   " else "    ")) ++
        (if last = true then "└── " else "├── ")) := by
      unfold getTreeChars
      rw [hx]
      dsimp only
      rw [if_neg (by omega), if_neg (by omega), hclimb]
      dsimp only
      rw [hemit]
      dsimp only
      rw [hlast]
    have hempty : ∀ s : String, "" ++ s = s := fun s => by
      apply String.ext
      simp
    rw [hempty] at hget
    refine ⟨_, last, _, hget, rfl, hlast, ?_, ?_, ?_⟩
    · rw [List.length_map, List.length_range]
      omega
    · intro k hk1 hk2
      obtain ⟨a, b, hda, hdp, hil, hfk⟩ := hprop (k - 1) (by omega)
      refine ⟨a, b, hda, by rw [hdp]; omega, hil, ?_⟩
      rw [List.getElem?_map, List.getElem?_range (by omega)]
      have hgd : flags.getD (k - 1) false = !b := by
        rw [List.getD_eq_getElem?_getD, hfk]
        rfl
      simp only [Option.map_some', hgd]
      cases b <;> rfl
    · rw [String.length_append, segments_length (fun i => flags.getD i false),
        List.length_range]
      have h1 : "└── ".length = 4 := rfl
      have h2 : "├── ".length = 4 := rfl
      cases last
      · rw [if_neg (by decide), h2]; omega
      · rw [if_pos rfl, h1]; omega

theorem siblingHeap_built : Build siblingEnv 3 "/r" 2 = some (siblingHeap, 0) := by rfl

theorem siblingHeap_inv : TreeInv siblingHeap 0 := (Build_sound siblingHeap_built).2.1

/-- Witness for C20: in the tree `r/{d/{x.txt}, z.txt}` the root gets no prefix and `x.txt`,
at depth 2 below `d`, which is not the last child, gets `"│   └── "`; in the demo tree
`c.txt` is below `sub`, the last child, and gets `"    └── "`. -/
theorem getTreeChars_spec_witness :
    (getTreeChars siblingHeap 0 0 = some "" ∧
      getTreeChars siblingHeap 3 2 = some "│   └── " ∧
      getTreeChars siblingHeap 3 1 = some "├── " ∧
      getTreeChars demoHeapExpanded 3 4 = some "    └── ") ∧
    TreeInv siblingHeap 0 ∧
    ∃ (segs : List String) (last : Bool) (out : String),
      getTreeChars siblingHeap 3 2 = some out ∧
      out = String.join segs ++ (if last = true then "└── " else "├── ") ∧
      IsLastChild siblingHeap 2 = some last ∧
      segs.length + 1 = (2 : Int).toNat ∧
      (∀ k, 1 ≤ k → k < (2 : Int).toNat → ∃ (a : Nat) (b : Bool),
        Desc siblingHeap a 2 ∧ depthOf siblingHeap a = (k : Int) ∧
        IsLastChild siblingHeap a = some b ∧
        segs[k - 1]? = some (if b = true then "    " else "│   ")) ∧
      out.length = 4 * (2 : Int).toNat :=
  ⟨⟨getTreeChars_spec.1 siblingHeap 0 0
        { Name := "r", Path := "/r", IsDir := true, IsExpanded := true, Children := [1, 3],
          Parent := none, Depth := 0 }
        rfl rfl,
      by rfl, by rfl, by rfl⟩,
    siblingHeap_inv,
    getTreeChars_spec.2 siblingHeap 0 siblingHeap_inv 3 2
      { Name := "x.txt", Path := "/r/d/x.txt", IsDir := false, IsExpanded := false,
        Children := [], Parent := some 1, Depth := 2 }
      rfl (by decide) (by decide)⟩

/-! ## Claims about invariants of the session -/

/-- C26: in every tree returned by `Build`, and in every state of a session (after any
sequence of `Update` messages), every node that is not a directory has `IsExpanded` false
and an empty children list. -/
theorem files_never_expanded :
    (∀ (env : Env) (fuel : Nat) (rootPath : String) (D : Int) (h : Heap) (root : Nat),
      Build env fuel rootPath D = some (h, root) →
      ∀ (q : Nat) (n : Node), h[q]? = some n → n.IsDir = false →
        n.IsExpanded = false ∧ n.Children = []) ∧
    (∀ m : Model, Reachable m →
      ∀ (q : Nat) (n : Node), m.heap[q]? = some n → n.IsDir = false →
        n.IsExpanded = false ∧ n.Children = []) :=
  ⟨fun _ _ _ _ _ _ hb q n hq hf => (Build_sound hb).2.1.file_leaf q n hq hf,
    fun _ hr q n hq hf => hr.inv.tree.file_leaf q n hq hf⟩

/-- Witness for C26: the file `a.txt` of the demo tree as built, and the file `c.txt` loaded
by the `enter` on `sub`. -/
theorem files_never_expanded_witness :
    (Build demoEnv 2 "/r" 1 = some (demoHeap, 0) ∧
      (false = false ∧ ([] : List Nat) = [])) ∧
    (Reachable demoModelExpanded ∧ (false = false ∧ ([] : List Nat) = [])) :=
  ⟨⟨demoHeap_built,
      files_never_expanded.1 demoEnv 2 "/r" 1 demoHeap 0 demoHeap_built 1
        { Name := "a.txt", Path := "/r/a.txt", IsDir := false, IsExpanded := false,
          Children := [], Parent := some 0, Depth := 1 } rfl rfl⟩,
    ⟨demoModelExpanded_reachable,
      files_never_expanded.2 demoModelExpanded demoModelExpanded_reachable 4
        { Name := "c.txt", Path := "/r/sub/c.txt", IsDir := false, IsExpanded := false,
          Children := [], Parent := some 3, Depth := 2 } rfl rfl⟩⟩

/-- C27: in every state of a session `flattenedNodes` is the flattening of the current tree:
`flattenRecursive` run on the current heap from the root returns it for every fuel from the
heap size on (and returns nothing else for any fuel), so `updateFlattenedNodes` would change
nothing; and it starts with the root, hence is not empty. -/
theorem flattened_in_sync (m : Model) (hr : Reachable m) :
    (∀ fuel, m.heap.length ≤ fuel →
      flattenRecursive m.heap fuel m.tree [] = some m.flattenedNodes ∧
      updateFlattenedNodes fuel m = some m) ∧
    (∀ fuel L, flattenRecursive m.heap fuel m.tree [] = some L → L = m.flattenedNodes) ∧
    (∃ T, m.flattenedNodes = m.tree :: T) ∧ m.flattenedNodes ≠ [] := by
  have hm := hr.inv
  obtain ⟨r, hroot, _⟩ := hm.tree.root_ok
  obtain ⟨T, hT⟩ := hm.flat.head
  have hfl : ∀ fuel, m.heap.length ≤ fuel →
      flattenRecursive m.heap fuel m.tree [] = some m.flattenedNodes := by
    intro fuel hfuel
    obtain ⟨L, hL, hflat⟩ :=
      flattenRecursive_total hm.tree.ordered fuel m.tree (get_lt hroot) (by omega)
    rw [hL [], List.nil_append, hflat.det hm.flat]
  refine ⟨fun fuel hfuel => ⟨hfl fuel hfuel, ?_⟩, ?_, ⟨T, hT⟩, by rw [hT]; exact List.cons_ne_nil _ _⟩
  · unfold updateFlattenedNodes
    rw [hfl fuel hfuel]
  · intro fuel L hL
    obtain ⟨L', hLe, hflat⟩ := flattenRecursive_sound fuel m.tree [] L hL
    rw [hLe, List.nil_append]
    exact hm.flat.det hflat

/-- Witness for C27: the demo session after `G` and `enter`, where `sub` has been expanded
and `c.txt` loaded. -/
theorem flattened_in_sync_witness :
    Reachable demoModelExpanded ∧
    (∀ fuel, demoModelExpanded.heap.length ≤ fuel →
      flattenRecursive demoModelExpanded.heap fuel demoModelExpanded.tree [] =
        some [0, 1, 2, 3, 4] ∧
      updateFlattenedNodes fuel demoModelExpanded = some demoModelExpanded) ∧
    (∀ fuel L, flattenRecursive demoModelExpanded.heap fuel demoModelExpanded.tree [] =
      some L → L = [0, 1, 2, 3, 4]) ∧
    (∃ T, demoModelExpanded.flattenedNodes = demoModelExpanded.tree :: T) ∧
    demoModelExpanded.flattenedNodes ≠ [] :=
  ⟨demoModelExpanded_reachable, flattened_in_sync demoModelExpanded demoModelExpanded_reachable⟩

/-- C29: in a state of a session with the cursor at index `i` on a directory (expanded or
collapsed), `enter` or space (with enough fuel) returns a model whose flattened sequence has
the same first `i + 1` elements, so the node at the cursor is the same directory; the cursor
itself is unchanged and is a valid index of the new sequence. -/
theorem toggle_keeps_cursor (m : Model) (hr : Reachable m) (env : Env) (key : String)
    (i x : Nat) (n : Node) (hk : key = "enter" ∨ key = " ") (hi : m.cursor = (i : Int))
    (hx : m.flattenedNodes[i]? = some x) (hn : m.heap[x]? = some n)
    (hdir : n.IsDir = true) :
    ∃ fuel0, ∀ fuel, fuel0 ≤ fuel →
      ∃ m' : Model, Update env fuel m (Msg.KeyMsg key) = some (m', none) ∧
        m'.flattenedNodes.take (i + 1) = m.flattenedNodes.take (i + 1) ∧
        m'.cursor = m.cursor ∧ m'.cursor < m'.len ∧
        m'.flattenedNodes[m'.cursor.toNat]? = some x := by
  have hm := hr.inv
  have hv := hm.view
  have hc0 := hv.cursor_lo
  have hc1 := hv.cursor_hi
  have hto : m.cursor.toNat = i := by omega
  have hx' : m.flattenedNodes[m.cursor.toNat]? = some x := by rw [hto]; exact hx
  have hs := setIsExpanded_eq (!n.IsExpanded) hn
  have ht1 : TreeInv (m.heap.set x { n with IsExpanded := !n.IsExpanded }) m.tree :=
    hm.tree.setIsExpanded hs (fun y hy => by rw [hn] at hy; cases hy; exact Or.inl hdir)
  obtain ⟨-, n0, hn0, hnode1, -⟩ := setIsExpanded_spec hs
  rw [hn] at hn0; cases hn0
  obtain ⟨g, hl, hor, htg⟩ : ∃ g : Heap,
      (if (!n.IsExpanded) = true ∧ n.Children.length = 0 then
        LoadChildren env (m.heap.set x { n with IsExpanded := !n.IsExpanded }) x
      else some (m.heap.set x { n with IsExpanded := !n.IsExpanded })) = some g ∧
      (g = m.heap.set x { n with IsExpanded := !n.IsExpanded } ∨
        LoadChildren env (m.heap.set x { n with IsExpanded := !n.IsExpanded }) x = some g) ∧
      TreeInv g m.tree := by
    by_cases hc : (!n.IsExpanded) = true ∧ n.Children.length = 0
    · obtain ⟨g, hg⟩ := LoadChildren_some env hnode1
      exact ⟨g, by rw [if_pos hc]; exact hg, Or.inr hg,
        LoadChildren_TreeInv ht1 hnode1 hdir hg⟩
    · exact ⟨_, by rw [if_neg hc], Or.inl rfl, ht1⟩
  obtain ⟨r, hroot, _⟩ := htg.root_ok
  refine ⟨g.length, fun fuel hfuel => ?_⟩
  obtain ⟨L', hL', hflat'⟩ :=
    flattenRecursive_total htg.ordered fuel m.tree (get_lt hroot) (by omega)
  have hnd : m.flattenedNodes.Nodup :=
    hm.flat.nodup hm.tree (List.nodup_singleton _) (depthOf m.heap m.tree)
      (fun r hr => by rw [List.mem_singleton.mp hr])
  have hframe := toggle_frame hs hor
  have hpre := Flat.prefix_stable g hm.flat hnd
    (fun q hq hne => hframe q hne (by
      obtain ⟨qn, hqn⟩ := hm.flat.valid q hq
      exact get_lt hqn)) i L' hx hflat'
  have hx1 : L'[i]? = some x := by
    have h1 : (L'.take (i + 1))[i]? = some x := by
      rw [hpre, List.getElem?_take_of_lt (Nat.lt_succ_self i)]; exact hx
    rwa [List.getElem?_take_of_lt (Nat.lt_succ_self i)] at h1
  have hi1 : i < L'.length := by
    by_contra hh
    rw [List.getElem?_eq_none (by omega)] at hx1
    cases hx1
  have hen := Update_enter_dir hc0 hc1 hx' hn hdir hl (by simpa using hL' [])
  obtain ⟨o, ho⟩ := adjust_shape { m with pendingG := false, heap := g, flattenedNodes := L' }
  rw [ho] at hen
  let m0 : Model := { m with pendingG := false, heap := g, flattenedNodes := L' }
  refine ⟨{ m0 with viewportOffset := o }, ?_, hpre, rfl, ?_, ?_⟩
  · rw [Update_enter_key env fuel m key hk, hen]
  · show m.cursor < (L'.length : Int)
    omega
  · show L'[m.cursor.toNat]? = some x
    rw [hto]; exact hx1

/-- Witness for C29: collapsing the expanded `sub` of the demo session shrinks the sequence
from five nodes to four and leaves the cursor, index 3, on `sub`. -/
theorem toggle_keeps_cursor_witness :
    Update demoEnv 5 demoModelExpanded (Msg.KeyMsg "enter") =
      some ({ demoModelExpanded with
              heap := demoHeapExpanded.set 3
                { Name := "sub", Path := "/r/sub", IsDir := true, IsExpanded := false,
                  Children := [4], Parent := some 0, Depth := 1 },
              flattenedNodes := [0, 1, 2, 3] },
        none) ∧
    Reachable demoModelExpanded ∧
    ∃ fuel0, ∀ fuel, fuel0 ≤ fuel →
      ∃ m' : Model, Update demoEnv fuel demoModelExpanded (Msg.KeyMsg "enter") =
          some (m', none) ∧
        m'.flattenedNodes.take (3 + 1) = demoModelExpanded.flattenedNodes.take (3 + 1) ∧
        m'.cursor = demoModelExpanded.cursor ∧ m'.cursor < m'.len ∧
        m'.flattenedNodes[m'.cursor.toNat]? = some 3 :=
  ⟨by rfl, demoModelExpanded_reachable,
    toggle_keeps_cursor demoModelExpanded demoModelExpanded_reachable demoEnv "enter" 3 3
      { Name := "sub", Path := "/r/sub", IsDir := true, IsExpanded := true, Children := [4],
        Parent := some 0, Depth := 1 }
      (Or.inl rfl) rfl rfl rfl rfl⟩

/-- C30: for every file system and every `initialDepth` `D`, `Build` returns once the fuel
exceeds `D` (a bound that does not depend on the file system, which may be infinitely deep);
in the tree it returns only nodes at depth below `D` have children, so every node has a
depth between 0 and `max(0, D)`. -/
theorem Build_terminates (env : Env) (rootPath : String) (D : Int) (fuel : Nat)
    (hf : D.toNat < fuel) :
    ∃ h, Build env fuel rootPath D = some (h, 0) ∧
      (∀ (q : Nat) (n : Node), h[q]? = some n → n.Children ≠ [] → n.Depth < D) ∧
      (∀ (q : Nat) (n : Node), h[q]? = some n → 0 ≤ n.Depth ∧ n.Depth ≤ max 0 D) := by
  obtain ⟨h, hb, ht, hbuilt, _⟩ := Build_spec env fuel rootPath D hf
  have hkids : ∀ (q : Nat) (n : Node), h[q]? = some n → n.Children ≠ [] → n.Depth < D := by
    intro q n hq hne
    obtain ⟨n', hq', _, _, b3⟩ := hbuilt q (get_lt hq)
    rw [hq] at hq'; cases hq'
    by_contra hd
    exact hne (b3 (fun hh => hd hh.2))
  refine ⟨h, hb, hkids, fun q n hq => ⟨ht.depth_nonneg hq, ?_⟩⟩
  cases hp : n.Parent with
  | none =>
    have hroot : q = 0 := by
      by_contra hne
      exact ht.has_parent q n hq hne hp
    obtain ⟨r, hr, _, hd, _⟩ := ht.root_ok
    rw [hroot, hr] at hq
    cases hq
    rw [hd]
    exact le_max_left _ _
  | some p =>
    obtain ⟨_, pn, hpn, hmem, hdep⟩ := ht.parent_of q n p hq hp
    have := hkids p pn hpn (List.ne_nil_of_mem hmem)
    have h2 := le_max_right 0 D
    omega

/-- Witness for C30: in the infinitely deep file system `Build` with depth 2 and fuel 3
returns three nodes, at depths 0, 1 and 2; with depth 0 or a negative depth, the root
alone. -/
theorem Build_terminates_witness :
    ((Build deepEnv 3 "/r" 2).map (fun r => r.1.map (fun n => n.Depth)) = some [0, 1, 2] ∧
      (Build deepEnv 1 "/r" 0).map (fun r => r.1.map (fun n => n.Depth)) = some [0] ∧
      (Build deepEnv 1 "/r" (-5)).map (fun r => r.1.map (fun n => n.Depth)) = some [0]) ∧
    (2 : Int).toNat < 3 ∧
    ∃ h, Build deepEnv 3 "/r" 2 = some (h, 0) ∧
      (∀ (q : Nat) (n : Node), h[q]? = some n → n.Children ≠ [] → n.Depth < 2) ∧
      (∀ (q : Nat) (n : Node), h[q]? = some n → 0 ≤ n.Depth ∧ n.Depth ≤ max 0 2) :=
  ⟨⟨by rfl, by rfl, by rfl⟩, by decide, Build_terminates deepEnv "/r" 2 3 (by decide)⟩

/-! ## Claims about the status line and the quit command -/

/-- The shape of what `Update` returns for a key that is none of the quit keys and none of
`enter` and space: the status is the one before. -/
theorem Update_key_status {env : Env} {fuel : Nat} {m m' : Model} {key : String}
    {cmd : Option Cmd} (hne : ¬ (key = "enter" ∨ key = " "))
    (hu : Update env fuel m (Msg.KeyMsg key) = some (m', cmd)) : m'.status = m.status := by
  have hadj : ∀ a : Model, (adjustViewportToCursor a).status = a.status := fun a => by
    obtain ⟨o, ho⟩ := adjust_shape a
    rw [ho]
  have hmove : ∀ d : Int, (moveCursor m d).status = m.status := fun d => by
    unfold moveCursor
    dsimp only
    rw [hadj]
  unfold Update at hu
  dsimp only at hu
  by_cases k1 : key = "q" ∨ key = "ctrl+c" ∨ key = "esc"
  · rw [if_pos k1] at hu; cases hu; rfl
  rw [if_neg k1] at hu
  by_cases k2 : key = "up" ∨ key = "k"
  · rw [if_pos k2] at hu
    by_cases c : m.cursor > 0
    · rw [if_pos c] at hu; cases hu; rw [hadj]
    · rw [if_neg c] at hu; cases hu; rfl
  rw [if_neg k2] at hu
  by_cases k3 : key = "down" ∨ key = "j"
  · rw [if_pos k3] at hu
    by_cases c : m.cursor < wrapInt (m.len - 1)
    · rw [if_pos c] at hu; cases hu; rw [hadj]
    · rw [if_neg c] at hu; cases hu; rfl
  rw [if_neg k3] at hu
  by_cases k4 : key = "ctrl+u"
  · rw [if_pos k4] at hu; cases hu; exact hmove _
  rw [if_neg k4] at hu
  by_cases k5 : key = "ctrl+d"
  · rw [if_pos k5] at hu; cases hu; exact hmove _
  rw [if_neg k5] at hu
  by_cases k6 : key = "ctrl+b"
  · rw [if_pos k6] at hu; cases hu; exact hmove _
  rw [if_neg k6] at hu
  by_cases k7 : key = "ctrl+f"
  · rw [if_pos k7] at hu; cases hu; exact hmove _
  rw [if_neg k7] at hu
  by_cases k8 : key = "g"
  · rw [if_pos k8] at hu
    by_cases c : m.pendingG = true
    · rw [if_pos c] at hu; cases hu
      show (jumpToTop m).status = m.status
      unfold jumpToTop
      rw [hadj]
    · rw [if_neg c] at hu; cases hu; rfl
  rw [if_neg k8] at hu
  by_cases k9 : key = "G"
  · rw [if_pos k9] at hu; cases hu
    show (jumpToBottom m).status = m.status
    unfold jumpToBottom
    split_ifs
    · rw [hadj]
    · rfl
  rw [if_neg k9, if_neg hne] at hu
  cases hu; rfl

/-- The `enter` case on a file: the opener is called on the node's path. -/
theorem Update_enter_file {env : Env} {fuel : Nat} {m : Model} {x : Nat} {n : Node}
    (hc0 : 0 ≤ m.cursor) (hx : m.flattenedNodes[m.cursor.toNat]? = some x)
    (hn : m.heap[x]? = some n) (hdir : n.IsDir = false) :
    Update.enter env fuel m = some (openFileWithStatus env { m with pendingG := false } n.Path) := by
  have hlen0 : Model.len { m with pendingG := false } = m.len := rfl
  have hc1 : m.cursor < m.len := by
    have hlt : m.cursor.toNat < m.flattenedNodes.length := by
      by_contra hh
      rw [List.getElem?_eq_none (by omega)] at hx
      cases hx
    unfold Model.len
    omega
  unfold Update.enter
  dsimp only
  rw [hlen0, if_pos hc1, if_neg (by omega), hx]
  dsimp only
  rw [hn]
  dsimp only
  rw [hdir]
  rfl

/-- The `enter` case changes the status only through the opener, that is only with the
cursor on a file. -/
theorem Update_enter_status {env : Env} {fuel : Nat} {m m' : Model}
    (he : Update.enter env fuel m = some m') :
    m'.status = m.status ∨ ∃ (x : Nat) (n : Node), 0 ≤ m.cursor ∧
      m.flattenedNodes[m.cursor.toNat]? = some x ∧ m.heap[x]? = some n ∧ n.IsDir = false := by
  have hlen0 : Model.len { m with pendingG := false } = m.len := rfl
  unfold Update.enter at he
  dsimp only at he
  rw [hlen0] at he
  by_cases hc1 : m.cursor < m.len
  · rw [if_pos hc1] at he
    by_cases hc0 : m.cursor < 0
    · rw [if_pos hc0] at he; cases he
    rw [if_neg hc0] at he
    cases hx : m.flattenedNodes[m.cursor.toNat]? with
    | none => rw [hx] at he; cases he
    | some x =>
      rw [hx] at he
      dsimp only at he
      cases hn : m.heap[x]? with
      | none => rw [hn] at he; cases he
      | some n =>
        rw [hn] at he
        dsimp only at he
        by_cases hdir : n.IsDir = true
        · left
          rw [if_pos hdir] at he
          cases hs : setIsExpanded m.heap x (!n.IsExpanded) with
          | none => rw [hs] at he; cases he
          | some h1 =>
            rw [hs] at he
            dsimp only at he
            cases hl : (if (!n.IsExpanded) = true ∧ n.Children.length = 0 then
                LoadChildren env h1 x else some h1) with
            | none => rw [hl] at he; cases he
            | some h2 =>
              rw [hl] at he
              dsimp only at he
              unfold updateFlattenedNodes at he
              dsimp only at he
              cases hf : flattenRecursive h2 fuel m.tree [] with
              | none => rw [hf] at he; cases he
              | some L =>
                rw [hf] at he
                dsimp only at he
                cases he
                obtain ⟨o, ho⟩ := adjust_shape
                  { m with pendingG := false, heap := h2, flattenedNodes := L }
                rw [ho]
        · right
          exact ⟨x, n, by omega, rfl, hn, by simpa using hdir⟩
  · rw [if_neg hc1] at he
    cases he
    exact Or.inl rfl

/-- C24: `Update` changes the status only on `enter` or space with the cursor on a file:
whenever it returns, the status is the one before unless the key is one of those two and the
node at the cursor is not a directory (so navigation keys, `g`, `G`, expanding, collapsing
and a resize leave it alone). With the cursor on a file the call returns; if the opener
fails with an error of text `e`, the status becomes `"Error opening <base name>: <e>"`,
which is not empty, and if it succeeds the status becomes empty. -/
theorem status_transitions (m : Model) (env : Env) (fuel : Nat) :
    (∀ (msg : Msg) (m' : Model) (cmd : Option Cmd), Update env fuel m msg = some (m', cmd) →
      m'.status = m.status ∨
      ∃ (key : String) (x : Nat) (n : Node), msg = Msg.KeyMsg key ∧
        (key = "enter" ∨ key = " ") ∧ 0 ≤ m.cursor ∧
        m.flattenedNodes[m.cursor.toNat]? = some x ∧ m.heap[x]? = some n ∧
        n.IsDir = false) ∧
    (∀ (key : String) (x : Nat) (n : Node), (key = "enter" ∨ key = " ") → 0 ≤ m.cursor →
      m.flattenedNodes[m.cursor.toNat]? = some x → m.heap[x]? = some n → n.IsDir = false →
      ∃ m' : Model, Update env fuel m (Msg.KeyMsg key) = some (m', none) ∧
        (∀ e : String, env.OpenFile n.Path = some e →
          m'.status = "Error opening " ++ env.Base n.Path ++ ": " ++ e ∧ m'.status ≠ "") ∧
        (env.OpenFile n.Path = none → m'.status = "")) := by
  constructor
  · intro msg m' cmd hu
    cases msg with
    | WindowSizeMsg width height =>
      left
      unfold Update at hu
      dsimp only at hu
      cases hu
      obtain ⟨o, ho⟩ := adjust_shape
        (updateViewportHeight { m with terminalHeight := height, terminalWidth := width })
      rw [ho]
      unfold updateViewportHeight
      dsimp only
      split_ifs <;> rfl
    | other =>
      left
      unfold Update at hu
      dsimp only at hu
      cases hu; rfl
    | KeyMsg key =>
      by_cases hk : key = "enter" ∨ key = " "
      · rw [Update_enter_key env fuel m key hk] at hu
        cases he : Update.enter env fuel m with
        | none => rw [he] at hu; cases hu
        | some m1 =>
          rw [he] at hu
          cases hu
          rcases Update_enter_status he with h1 | ⟨x, n, h1, h2, h3, h4⟩
          · exact Or.inl h1
          · exact Or.inr ⟨key, x, n, rfl, hk, h1, h2, h3, h4⟩
      · exact Or.inl (Update_key_status hk hu)
  · intro key x n hk hc0 hx hn hdir
    refine ⟨openFileWithStatus env { m with pendingG := false } n.Path, ?_, ?_, ?_⟩
    · rw [Update_enter_key env fuel m key hk, Update_enter_file hc0 hx hn hdir]
    · intro e he
      have hst : (openFileWithStatus env { m with pendingG := false } n.Path).status =
          "Error opening " ++ env.Base n.Path ++ ": " ++ e := by
        unfold openFileWithStatus FormatOpenError
        rw [he]
      refine ⟨hst, ?_⟩
      rw [hst]
      intro h0
      have := congrArg String.length h0
      simp only [String.length_append] at this
      have h14 : "Error opening ".length = 14 := rfl
      have h00 : "".length = 0 := rfl
      omega
    · intro he
      unfold openFileWithStatus
      rw [he]

/-- Witness for C24: in the demo session with the cursor on `a.txt`, `enter` sets the error
status; `j` keeps it; `enter` on `b.txt`, which opens, clears it. -/
theorem status_transitions_witness :
    (Update openEnv 0 { demoModel with cursor := 1 } (Msg.KeyMsg "enter") =
        some ({ demoModel with cursor := 1, status := "Error opening a.txt: exit status 1" },
          none) ∧
      Update openEnv 0
          { demoModel with cursor := 1, status := "Error opening a.txt: exit status 1" }
          (Msg.KeyMsg "j") =
        some ({ demoModel with cursor := 2, status := "Error opening a.txt: exit status 1" },
          none) ∧
      Update openEnv 0
          { demoModel with cursor := 2, status := "Error opening a.txt: exit status 1" }
          (Msg.KeyMsg "enter") =
        some ({ demoModel with cursor := 2, status := "" }, none)) ∧
    (({ demoModel with cursor := 2, status := "Error opening a.txt: exit status 1" } :
          Model).status =
        ({ demoModel with cursor := 1, status := "Error opening a.txt: exit status 1" } :
          Model).status ∨
      ∃ (key : String) (x : Nat) (n : Node), Msg.KeyMsg "j" = Msg.KeyMsg key ∧
        (key = "enter" ∨ key = " ") ∧
        0 ≤ ({ demoModel with cursor := 1,
                              status := "Error opening a.txt: exit status 1" } : Model).cursor ∧
        ({ demoModel with cursor := 1,
                          status := "Error opening a.txt: exit status 1" } :
            Model).flattenedNodes[(1 : Int).toNat]? = some x ∧
        demoHeap[x]? = some n ∧ n.IsDir = false) ∧
    ∃ m' : Model,
      Update openEnv 0 { demoModel with cursor := 1 } (Msg.KeyMsg "enter") = some (m', none) ∧
      (∀ e : String, openEnv.OpenFile "/r/a.txt" = some e →
        m'.status = "Error opening " ++ openEnv.Base "/r/a.txt" ++ ": " ++ e ∧
        m'.status ≠ "") ∧
      (openEnv.OpenFile "/r/a.txt" = none → m'.status = "") :=
  ⟨⟨by rfl, by rfl, by rfl⟩,
    (status_transitions
      { demoModel with cursor := 1, status := "Error opening a.txt: exit status 1" }
      openEnv 0).1 (Msg.KeyMsg "j") _ none (by rfl),
    (status_transitions { demoModel with cursor := 1 } openEnv 0).2 "enter" 1
      { Name := "a.txt", Path := "/r/a.txt", IsDir := false, IsExpanded := false,
        Children := [], Parent := some 0, Depth := 1 }
      (Or.inl rfl) (by decide) rfl rfl rfl⟩

/-- A key that is not a quit key never yields a command. -/
theorem Update_key_no_cmd {env : Env} {fuel : Nat} {m m' : Model} {key : String}
    {cmd : Option Cmd} (k1 : ¬ (key = "q" ∨ key = "ctrl+c" ∨ key = "esc"))
    (hu : Update env fuel m (Msg.KeyMsg key) = some (m', cmd)) : cmd = none := by
  unfold Update at hu
  dsimp only at hu
  rw [if_neg k1] at hu
  by_cases k2 : key = "up" ∨ key = "k"
  · rw [if_pos k2] at hu
    by_cases c : m.cursor > 0
    · rw [if_pos c] at hu; cases hu; rfl
    · rw [if_neg c] at hu; cases hu; rfl
  rw [if_neg k2] at hu
  by_cases k3 : key = "down" ∨ key = "j"
  · rw [if_pos k3] at hu
    by_cases c : m.cursor < wrapInt (m.len - 1)
    · rw [if_pos c] at hu; cases hu; rfl
    · rw [if_neg c] at hu; cases hu; rfl
  rw [if_neg k3] at hu
  by_cases k4 : key = "ctrl+u"
  · rw [if_pos k4] at hu; cases hu; rfl
  rw [if_neg k4] at hu
  by_cases k5 : key = "ctrl+d"
  · rw [if_pos k5] at hu; cases hu; rfl
  rw [if_neg k5] at hu
  by_cases k6 : key = "ctrl+b"
  · rw [if_pos k6] at hu; cases hu; rfl
  rw [if_neg k6] at hu
  by_cases k7 : key = "ctrl+f"
  · rw [if_pos k7] at hu; cases hu; rfl
  rw [if_neg k7] at hu
  by_cases k8 : key = "g"
  · rw [if_pos k8] at hu
    by_cases c : m.pendingG = true
    · rw [if_pos c] at hu; cases hu; rfl
    · rw [if_neg c] at hu; cases hu; rfl
  rw [if_neg k8] at hu
  by_cases k9 : key = "G"
  · rw [if_pos k9] at hu; cases hu; rfl
  rw [if_neg k9] at hu
  by_cases k10 : key = "enter" ∨ key = " "
  · rw [if_pos k10] at hu
    cases he : Update.enter env fuel m with
    | none => rw [he] at hu; cases hu
    | some m1 => rw [he] at hu; cases hu; rfl
  rw [if_neg k10] at hu
  cases hu; rfl

/-- C25: for the keys `q`, `ctrl+c` and `esc` `Update` returns the quit command and the
model with every field unchanged; whenever `Update` returns, the command is the quit command
exactly when the message is one of these three keys; and in every state of a session any
other message (another key, a resize, an unknown message) returns, with enough fuel, a model
and no command. -/
theorem quit_keys (m : Model) (env : Env) :
    (∀ (fuel : Nat) (key : String), (key = "q" ∨ key = "ctrl+c" ∨ key = "esc") →
      Update env fuel m (Msg.KeyMsg key) = some (m, some Cmd.Quit)) ∧
    (∀ (fuel : Nat) (msg : Msg) (m' : Model) (cmd : Option Cmd),
      Update env fuel m msg = some (m', cmd) →
      (cmd = some Cmd.Quit ↔
        ∃ key, msg = Msg.KeyMsg key ∧ (key = "q" ∨ key = "ctrl+c" ∨ key = "esc")) ∧
      (cmd = some Cmd.Quit ∨ cmd = none)) ∧
    (Reachable m → ∀ msg : Msg,
      (¬ ∃ key, msg = Msg.KeyMsg key ∧ (key = "q" ∨ key = "ctrl+c" ∨ key = "esc")) →
      ∃ fuel0, ∀ fuel, fuel0 ≤ fuel → ∃ m', Update env fuel m msg = some (m', none)) := by
  have hquit : ∀ (fuel : Nat) (key : String), (key = "q" ∨ key = "ctrl+c" ∨ key = "esc") →
      Update env fuel m (Msg.KeyMsg key) = some (m, some Cmd.Quit) := by
    intro fuel key hk
    unfold Update
    dsimp only
    rw [if_pos hk]
  have hcmd : ∀ (fuel : Nat) (msg : Msg) (m' : Model) (cmd : Option Cmd),
      Update env fuel m msg = some (m', cmd) →
      (cmd = some Cmd.Quit ↔
        ∃ key, msg = Msg.KeyMsg key ∧ (key = "q" ∨ key = "ctrl+c" ∨ key = "esc")) ∧
      (cmd = some Cmd.Quit ∨ cmd = none) := by
    intro fuel msg m' cmd hu
    cases msg with
    | WindowSizeMsg width height =>
      unfold Update at hu
      dsimp only at hu
      cases hu
      exact ⟨⟨fun h => (by cases h), fun ⟨_, h, _⟩ => (by cases h)⟩, Or.inr rfl⟩
    | other =>
      unfold Update at hu
      dsimp only at hu
      cases hu
      exact ⟨⟨fun h => (by cases h), fun ⟨_, h, _⟩ => (by cases h)⟩, Or.inr rfl⟩
    | KeyMsg key =>
      by_cases k1 : key = "q" ∨ key = "ctrl+c" ∨ key = "esc"
      · rw [hquit fuel key k1] at hu
        cases hu
        exact ⟨⟨fun _ => ⟨key, rfl, k1⟩, fun _ => rfl⟩, Or.inl rfl⟩
      · have hn := Update_key_no_cmd k1 hu
        subst hn
        refine ⟨⟨fun h => (by cases h), fun ⟨key', h, hk⟩ => ?_⟩, Or.inr rfl⟩
        cases h
        exact absurd hk k1
  refine ⟨hquit, hcmd, fun hr msg hne => ?_⟩
  obtain ⟨fuel0, htot⟩ := Update_total hr env msg
  refine ⟨fuel0, fun fuel hfuel => ?_⟩
  obtain ⟨m', cmd, hu⟩ := htot fuel hfuel
  rcases (hcmd fuel msg m' cmd hu).2 with hq | hq
  · exact absurd ((hcmd fuel msg m' cmd hu).1.mp hq) hne
  · subst hq
    exact ⟨m', hu⟩

/-- Witness for C25 in the demo session: `esc` quits and returns the model as it is; `x`
and an unknown message return no command. -/
theorem quit_keys_witness :
    Update demoEnv 0 demoModel (Msg.KeyMsg "esc") = some (demoModel, some Cmd.Quit) ∧
    ((some Cmd.Quit = some Cmd.Quit ↔
        ∃ key, Msg.KeyMsg "esc" = Msg.KeyMsg key ∧
          (key = "q" ∨ key = "ctrl+c" ∨ key = "esc")) ∧
      (some Cmd.Quit = some Cmd.Quit ∨ some Cmd.Quit = none)) ∧
    Reachable demoModel ∧
    (∃ fuel0, ∀ fuel, fuel0 ≤ fuel →
      ∃ m', Update demoEnv fuel demoModel (Msg.KeyMsg "x") = some (m', none)) ∧
    Update demoEnv 0 demoModel Msg.other = some (demoModel, none) :=
  ⟨(quit_keys demoModel demoEnv).1 0 "esc" (Or.inr (Or.inr rfl)),
    (quit_keys demoModel demoEnv).2.1 0 (Msg.KeyMsg "esc") demoModel (some Cmd.Quit) (by rfl),
    demoModel_reachable,
    (quit_keys demoModel demoEnv).2.2 demoModel_reachable (Msg.KeyMsg "x")
      (fun ⟨key, h, hk⟩ => by
        cases h
        revert hk
        decide),
    by rfl⟩

/-! ## Claims about the view -/

/-- A node's depth is at most its index in the heap: parents are allocated first. -/
theorem TreeInv.depth_le_index {h : Heap} {root : Nat} (ht : TreeInv h root) :
    ∀ (q : Nat) (n : Node), h[q]? = some n → n.Depth ≤ (q : Int) := by
  intro q
  induction q using Nat.strong_induction_on with
  | _ q ih =>
    intro n hq
    cases hp : n.Parent with
    | none =>
      have hroot : q = root := by
        by_contra hne
        exact ht.has_parent q n hq hne hp
      obtain ⟨r, hr, _, hd, _⟩ := ht.root_ok
      rw [hroot, hr] at hq
      cases hq
      rw [hd]
      omega
    | some p =>
      obtain ⟨hlt, pn, hpn, _, hdep⟩ := ht.parent_of q n p hq hp
      have := ih p hlt pn hpn
      omega

/-- In a well-formed tree `getTreeChars` returns, given fuel for the whole heap. -/
theorem getTreeChars_some {h : Heap} {root : Nat} (ht : TreeInv h root) {x : Nat} {n : Node}
    (hx : h[x]? = some n) (fuel : Nat) (hfuel : h.length ≤ fuel) :
    ∃ s, getTreeChars h fuel x = some s := by
  have hd0 := ht.depth_nonneg hx
  have hdi := ht.depth_le_index x n hx
  have hxl := get_lt hx
  unfold getTreeChars
  rw [hx]
  dsimp only
  by_cases hd : n.Depth = 0
  · rw [if_pos hd]; exact ⟨_, rfl⟩
  rw [if_neg hd, if_neg (by omega)]
  obtain ⟨flags, hfl, -, hclimb⟩ := getTreeChars_climb_spec ht fuel x n
    (List.replicate n.Depth.toNat false) hx (by omega) (by rw [List.length_replicate])
  rw [hclimb]
  dsimp only
  rw [getTreeChars_emit_spec _ (List.range (n.Depth - 1).toNat) ""
    (fun i hi => by
      rw [List.mem_range] at hi
      rw [List.length_append, hfl]
      omega)]
  dsimp only
  obtain ⟨b, hb⟩ := IsLastChild_total ht hx
  rw [hb]
  exact ⟨_, rfl⟩

/-- What `renderTreeLine` returns once the connectors and the node are known. -/
theorem renderTreeLine_eq (st : Styles) {fuel : Nat} {m : Model} {x : Nat} {n : Node}
    {tc : String} (i : Int) (htc : getTreeChars m.heap fuel x = some tc)
    (hx : m.heap[x]? = some n) :
    renderTreeLine st fuel m i x = some
      ((if i = m.cursor then st.cursorStyle ">" else " ") ++ " " ++ tc ++
        (if n.IsDir = true then
          st.dirStyle ((if n.IsExpanded = true then "▼ " else "▶ ") ++ n.Name)
        else st.fileStyle n.Name)) := by
  unfold renderTreeLine
  rw [htc]
  dsimp only
  rw [hx]

/-- The rendering loop of `View` over indices of the flattened sequence, in a model that
satisfies the invariant: it returns, having appended one line per index, in order. -/
theorem View_loop_spec (st : Styles) {fuel : Nat} {m : Model} (hm : ModelInv m)
    (hfuel : m.heap.length ≤ fuel) :
    ∀ is : List Int, (∀ i ∈ is, 0 ≤ i ∧ i < m.len) →
      ∃ lines : List String,
        List.Forall₂ (fun (i : Int) (line : String) => ∃ node : Nat,
          m.flattenedNodes[i.toNat]? = some node ∧
          renderTreeLine st fuel m i node = some line) is lines ∧
        ∀ b, View.loop st fuel m is b =
          some (b ++ String.join (lines.map (fun line => line ++ "\n"))) := by
  intro is
  induction is with
  | nil =>
    intro _
    refine ⟨[], List.Forall₂.nil, fun b => ?_⟩
    unfold View.loop
    congr 1
    apply String.ext
    simp [String.data_join]
  | cons i is ih =>
    intro hall
    obtain ⟨hi0, hi1⟩ := hall i (List.mem_cons_self _ _)
    obtain ⟨lines, hrel, hloop⟩ := ih (fun j hj => hall j (List.mem_cons_of_mem _ hj))
    have hlt : i.toNat < m.flattenedNodes.length := by
      unfold Model.len at hi1
      omega
    have hnode : m.flattenedNodes[i.toNat]? = some m.flattenedNodes[i.toNat] :=
      List.getElem?_eq_getElem hlt
    obtain ⟨n, hn⟩ := hm.flat.valid _ (List.mem_iff_getElem?.mpr ⟨_, hnode⟩)
    obtain ⟨tc, htc⟩ := getTreeChars_some hm.tree hn fuel hfuel
    have hline := renderTreeLine_eq st i htc hn
    refine ⟨_ :: lines, List.Forall₂.cons ⟨_, hnode, hline⟩ hrel, fun b => ?_⟩
    unfold View.loop
    rw [if_neg (by omega), hnode]
    dsimp only
    rw [hline]
    dsimp only
    rw [hloop, List.map_cons, join_cons_eq, String.append_assoc]

/-- The indices `View` renders: from the viewport offset up to, not including, the smaller
of offset plus height and the length. -/
theorem View_window {m : Model} (hv : ViewOK m.len m.cursor m.viewportHeight m.viewportOffset) :
    (if m.viewportHeight ≥ m.len then ((0 : Int), m.len)
      else (m.viewportOffset,
        if wrapInt (m.viewportOffset + m.viewportHeight) > m.len then m.len
        else wrapInt (m.viewportOffset + m.viewportHeight))) =
      (m.viewportOffset, min (m.viewportOffset + m.viewportHeight) m.len) := by
  have h1 := hv.len_fit; have h2 := hv.vh_lo; have h3 := hv.vh_hi
  have h4 := hv.off_lo; have h5 := hv.off_hi
  have hl0 : 0 ≤ m.len := by unfold Model.len; omega
  have hw : wrapInt (m.viewportOffset + m.viewportHeight) =
      m.viewportOffset + m.viewportHeight := by
    unfold wrapInt
    omega
  rw [hw]
  by_cases hc : m.viewportHeight ≥ m.len
  · rw [if_pos hc]
    have ho : m.viewportOffset = 0 := by omega
    rw [ho]
    congr 1
    omega
  · rw [if_neg hc]
    congr 1
    split_ifs <;> omega

/-- In a model that satisfies the invariant `View` returns, given fuel for the whole heap:
the header and a blank line, then one line for each index of the window, in order, then the
controls legend and, when a status is set, the status. -/
theorem View_spec (st : Styles) {fuel : Nat} {m : Model} (hm : ModelInv m)
    (hfuel : m.heap.length ≤ fuel) :
    ∃ lines : List String,
      List.Forall₂ (fun (i : Int) (line : String) => ∃ node : Nat,
          m.flattenedNodes[i.toNat]? = some node ∧
          renderTreeLine st fuel m i node = some line)
        ((List.range
            (min (m.viewportOffset + m.viewportHeight) m.len - m.viewportOffset).toNat).map
          (fun (k : Nat) => m.viewportOffset + (k : Int))) lines ∧
      View st fuel m = some
        (st.headerStyle ("DTree - " ++ m.rootPath ++ " (initial depth: " ++
            toString m.initialDepth ++ ")") ++ "\n\n" ++
          String.join (lines.map (fun line => line ++ "\n")) ++ st.newStyle controlsText ++
          (if m.status ≠ "" then st.errorStyle ("\n" ++ m.status) else "")) := by
  have hv := hm.view
  have h4 := hv.off_lo
  obtain ⟨lines, hrel, hloop⟩ := View_loop_spec st hm hfuel
    ((List.range
        (min (m.viewportOffset + m.viewportHeight) m.len - m.viewportOffset).toNat).map
      (fun (k : Nat) => m.viewportOffset + (k : Int)))
    (fun i hi => by
      obtain ⟨k, hk, rfl⟩ := List.mem_map.mp hi
      rw [List.mem_range] at hk
      have := min_le_right (m.viewportOffset + m.viewportHeight) m.len
      omega)
  refine ⟨lines, hrel, ?_⟩
  unfold View
  dsimp only
  rw [View_window hv]
  dsimp only
  rw [hloop]
  dsimp only
  have hempty : ∀ s : String, s ++ "" = s := fun s => by
    apply String.ext
    simp
  by_cases hs : m.status = ""
  · rw [if_neg (fun h => h hs), if_neg (fun h => h hs), hempty]
  · rw [if_pos hs, if_pos hs]

theorem countP_forall2 {α β : Type} {R : α → β → Prop} (p : α → Bool) (q : β → Bool)
    (hpq : ∀ a b, R a b → p a = q b) :
    ∀ {xs : List α} {ys : List β}, List.Forall₂ R xs ys →
      (xs.filter p).length = (ys.filter q).length := by
  intro xs ys h
  induction h with
  | nil => rfl
  | cons hab _ ih =>
    rw [List.filter_cons, List.filter_cons, hpq _ _ hab]
    split_ifs <;> simp [ih]

/-- The window of `View` holds the cursor exactly once. -/
theorem window_cursor_once {len cursor vh off : Int} (hv : ViewOK len cursor vh off) :
    (((List.range (min (off + vh) len - off).toNat).map
      (fun (k : Nat) => off + (k : Int))).filter (fun i => decide (i = cursor))).length = 1 := by
  have h1 := hv.cursor_hi; have h2 := hv.win_lo; have h3 := hv.win_hi
  rw [← List.countP_eq_length_filter]
  have hnd : ((List.range (min (off + vh) len - off).toNat).map
      (fun (k : Nat) => off + (k : Int))).Nodup := by
    apply List.Nodup.map _ (List.nodup_range _)
    intro a b hab
    simp only at hab
    omega
  have hmem : cursor ∈ (List.range (min (off + vh) len - off).toNat).map
      (fun (k : Nat) => off + (k : Int)) := by
    refine List.mem_map.mpr ⟨(cursor - off).toNat, ?_, ?_⟩
    · rw [List.mem_range]
      omega
    · omega
  have := List.count_eq_one_of_mem hnd hmem
  rw [List.count] at this
  rw [← this]
  apply List.countP_congr
  intro i _
  simp

/-- `SetStatus` keeps the model invariant: the status is no part of it. -/
theorem ModelInv.setStatus {m : Model} (hm : ModelInv m) (s : String) :
    ModelInv (SetStatus m s) :=
  ⟨hm.tree, hm.flat, hm.view⟩

/-! ## The height budget of the view -/

/-- C28, the code at the failing input: a directory with eight files is built with depth 1
(nine visible nodes) and the terminal is resized to 11 lines.  The viewport height becomes
`11 - 3 = 8`, and `View` (styles taken as identity, no status) returns the header, a blank
line, eight node lines, a blank line and the controls legend: 12 lines, one more than the
terminal has. -/
theorem view_exceeds_terminal :
    (((Build wideEnv 2 "/r" 1).bind (fun r => New 9 r.1 r.2 1 "/r")).bind
        (fun m => Update wideEnv 9 m (Msg.WindowSizeMsg 80 11))).map
      (fun r => (r.1.viewportHeight, r.1.len, View plainStyles 9 r.1)) =
      some (8, 9, some
        ("DTree - /r (initial depth: 1)\n\n" ++
          "> ▼ r\n  ├── f1\n  ├── f2\n  ├── f3\n  ├── f4\n  ├── f5\n  ├── f6\n  ├── f7\n" ++
          "\nControls: ↑↓/jk navigate, Ctrl+U/D half-page, Ctrl+B/F full-page, gg/G top/bottom, Enter/Space expand/collapse, q quit")) ∧
    lineCount
        ("DTree - /r (initial depth: 1)\n\n" ++
          "> ▼ r\n  ├── f1\n  ├── f2\n  ├── f3\n  ├── f4\n  ├── f5\n  ├── f6\n  ├── f7\n" ++
          "\nControls: ↑↓/jk navigate, Ctrl+U/D half-page, Ctrl+B/F full-page, gg/G top/bottom, Enter/Space expand/collapse, q quit") =
      12 :=
  ⟨by rfl, by rfl⟩

/-! ## No access out of range -/

/-- `Update` returns on every message as soon as its `enter` case does: no other case reads
a slice or follows a pointer. -/
theorem Update_some_of_enter {env : Env} {fuel : Nat} {m : Model}
    (he : ∃ m1, Update.enter env fuel m = some m1) (msg : Msg) :
    ∃ m' cmd, Update env fuel m msg = some (m', cmd) := by
  obtain ⟨me, hme⟩ := he
  cases msg with
  | WindowSizeMsg width height => exact ⟨_, _, rfl⟩
  | other => exact ⟨_, _, rfl⟩
  | KeyMsg key =>
    unfold Update
    dsimp only
    rw [hme]
    dsimp only
    by_cases k1 : key = "q" ∨ key = "ctrl+c" ∨ key = "esc"
    · rw [if_pos k1]; exact ⟨_, _, rfl⟩
    rw [if_neg k1]
    by_cases k2 : key = "up" ∨ key = "k"
    · rw [if_pos k2]
      by_cases c2 : m.cursor > 0
      · rw [if_pos c2]; exact ⟨_, _, rfl⟩
      · rw [if_neg c2]; exact ⟨_, _, rfl⟩
    rw [if_neg k2]
    by_cases k3 : key = "down" ∨ key = "j"
    · rw [if_pos k3]
      by_cases c3 : m.cursor < wrapInt (m.len - 1)
      · rw [if_pos c3]; exact ⟨_, _, rfl⟩
      · rw [if_neg c3]; exact ⟨_, _, rfl⟩
    rw [if_neg k3]
    by_cases k4 : key = "ctrl+u"
    · rw [if_pos k4]; exact ⟨_, _, rfl⟩
    rw [if_neg k4]
    by_cases k5 : key = "ctrl+d"
    · rw [if_pos k5]; exact ⟨_, _, rfl⟩
    rw [if_neg k5]
    by_cases k6 : key = "ctrl+b"
    · rw [if_pos k6]; exact ⟨_, _, rfl⟩
    rw [if_neg k6]
    by_cases k7 : key = "ctrl+f"
    · rw [if_pos k7]; exact ⟨_, _, rfl⟩
    rw [if_neg k7]
    by_cases k8 : key = "g"
    · rw [if_pos k8]
      by_cases pg : m.pendingG = true
      · rw [if_pos pg]; exact ⟨_, _, rfl⟩
      · rw [if_neg pg]; exact ⟨_, _, rfl⟩
    rw [if_neg k8]
    by_cases k9 : key = "G"
    · rw [if_pos k9]; exact ⟨_, _, rfl⟩
    rw [if_neg k9]
    by_cases k10 : key = "enter" ∨ key = " "
    · rw [if_pos k10]; exact ⟨_, _, rfl⟩
    rw [if_neg k10]
    exact ⟨_, _, rfl⟩

/-- The index `current.Depth - 1` that `getTreeChars(node)` writes for an ancestor-or-self
`a` of `node` that has a parent lies in `positions`, whose size is `node.Depth`. -/
theorem positions_index_ok {h : Heap} {root : Nat} (ht : TreeInv h root) {x a p : Nat}
    {n an : Node} (hx : h[x]? = some n) (hd : Desc h a x) (ha : h[a]? = some an)
    (hp : an.Parent = some p) : 0 ≤ an.Depth - 1 ∧ an.Depth - 1 < n.Depth := by
  obtain ⟨_, pn, hpn, _, hdep⟩ := ht.parent_of a an p ha hp
  have h0 := ht.depth_nonneg hpn
  have hle := (hd.depth_le ht).1
  simp only [depthOf, ha, hx] at hle
  omega

/-- C31: in every state of a session (a tree made by `Build`, then any `Update` messages)
no index is out of range.  The cursor is an index of `flattenedNodes` and the node there
exists, so `Update` can read `flattenedNodes[cursor]`; every index `i` of the rows `View`
renders (from `start` to `end` as `View` computes them) is an index of `flattenedNodes`;
and for every node `x` and every ancestor-or-self `a` of `x` that has a parent, the index
`a.Depth - 1` that `getTreeChars(x)` writes lies in `positions`, of size `x.Depth`.  Hence,
with enough fuel, `Update` returns on every message, `View` returns, and `getTreeChars`
returns on every node. -/
theorem no_out_of_range (m : Model) (hr : Reachable m) (env : Env) (st : Styles) :
    (0 ≤ m.cursor ∧ m.cursor < m.len ∧ ∃ (node : Nat) (n : Node),
      m.flattenedNodes[m.cursor.toNat]? = some node ∧ m.heap[node]? = some n) ∧
    (∀ (range : Int × Int) (k : Nat),
      range = (if m.viewportHeight ≥ m.len then ((0 : Int), m.len)
        else (m.viewportOffset,
          if wrapInt (m.viewportOffset + m.viewportHeight) > m.len then m.len
          else wrapInt (m.viewportOffset + m.viewportHeight))) →
      k < (range.2 - range.1).toNat →
      0 ≤ range.1 + (k : Int) ∧ range.1 + (k : Int) < m.len ∧ ∃ (node : Nat) (n : Node),
        m.flattenedNodes[(range.1 + (k : Int)).toNat]? = some node ∧
        m.heap[node]? = some n) ∧
    (∀ (x a p : Nat) (n an : Node), m.heap[x]? = some n → Desc m.heap a x →
      m.heap[a]? = some an → an.Parent = some p →
      0 ≤ an.Depth - 1 ∧ an.Depth - 1 < n.Depth) ∧
    (∃ fuel0, ∀ fuel, fuel0 ≤ fuel →
      (∀ msg : Msg, ∃ m' cmd, Update env fuel m msg = some (m', cmd)) ∧
      (∃ v, View st fuel m = some v) ∧
      (∀ (x : Nat) (n : Node), m.heap[x]? = some n →
        ∃ s, getTreeChars m.heap fuel x = some s)) := by
  have hm := hr.inv
  have hv := hm.view
  have hc0 := hv.cursor_lo
  have hc1 := hv.cursor_hi
  have hnode : ∀ i : Int, 0 ≤ i → i < m.len → ∃ (node : Nat) (n : Node),
      m.flattenedNodes[i.toNat]? = some node ∧ m.heap[node]? = some n := by
    intro i hi0 hi1
    have hlt : i.toNat < m.flattenedNodes.length := by
      unfold Model.len at hi1
      omega
    have hget : m.flattenedNodes[i.toNat]? = some m.flattenedNodes[i.toNat] :=
      List.getElem?_eq_getElem hlt
    obtain ⟨n, hn⟩ := hm.flat.valid _ (List.mem_iff_getElem?.mpr ⟨_, hget⟩)
    exact ⟨_, n, hget, hn⟩
  refine ⟨⟨hc0, hc1, hnode _ hc0 hc1⟩, ?_, ?_, ?_⟩
  · intro range k hrange hk
    rw [View_window hv] at hrange
    subst hrange
    dsimp only at hk ⊢
    have h4 := hv.off_lo
    have := min_le_right (m.viewportOffset + m.viewportHeight) m.len
    have h0 : 0 ≤ m.viewportOffset + (k : Int) := by omega
    have h1 : m.viewportOffset + (k : Int) < m.len := by omega
    exact ⟨h0, h1, hnode _ h0 h1⟩
  · intro x a p n an hx hd ha hp
    exact positions_index_ok hm.tree hx hd ha hp
  · obtain ⟨fuel0, hen⟩ := Update_enter_total hm env
    refine ⟨max fuel0 m.heap.length, fun fuel hfuel => ⟨fun msg => ?_, ?_, ?_⟩⟩
    · exact Update_some_of_enter (hen fuel (le_trans (le_max_left _ _) hfuel)) msg
    · obtain ⟨lines, _, hview⟩ :=
        View_spec st hm (le_trans (le_max_right _ _) hfuel)
      exact ⟨_, hview⟩
    · intro x n hx
      exact getTreeChars_some hm.tree hx fuel (le_trans (le_max_right _ _) hfuel)

/-- Witness for C31: the demo session in a 5-line terminal, scrolled down by one, with the
cursor on `c.txt` at depth 2. -/
theorem no_out_of_range_witness :
    (Update demoEnv 5 demoModelScrolled (Msg.KeyMsg "k") =
        some ({ demoModelScrolled with cursor := 3 }, none) ∧
      getTreeChars demoModelScrolled.heap 5 4 = some "    └── ") ∧
    Reachable demoModelScrolled ∧
    (0 ≤ demoModelScrolled.cursor ∧ demoModelScrolled.cursor < demoModelScrolled.len ∧
      ∃ (node : Nat) (n : Node),
        demoModelScrolled.flattenedNodes[demoModelScrolled.cursor.toNat]? = some node ∧
        demoModelScrolled.heap[node]? = some n) ∧
    (∀ (range : Int × Int) (k : Nat),
      range = (if demoModelScrolled.viewportHeight ≥ demoModelScrolled.len then
          ((0 : Int), demoModelScrolled.len)
        else (demoModelScrolled.viewportOffset,
          if wrapInt (demoModelScrolled.viewportOffset + demoModelScrolled.viewportHeight) >
              demoModelScrolled.len then demoModelScrolled.len
          else wrapInt
            (demoModelScrolled.viewportOffset + demoModelScrolled.viewportHeight))) →
      k < (range.2 - range.1).toNat →
      0 ≤ range.1 + (k : Int) ∧ range.1 + (k : Int) < demoModelScrolled.len ∧
      ∃ (node : Nat) (n : Node),
        demoModelScrolled.flattenedNodes[(range.1 + (k : Int)).toNat]? = some node ∧
        demoModelScrolled.heap[node]? = some n) ∧
    (∀ (x a p : Nat) (n an : Node), demoModelScrolled.heap[x]? = some n →
      Desc demoModelScrolled.heap a x → demoModelScrolled.heap[a]? = some an →
      an.Parent = some p → 0 ≤ an.Depth - 1 ∧ an.Depth - 1 < n.Depth) ∧
    (∃ fuel0, ∀ fuel, fuel0 ≤ fuel →
      (∀ msg : Msg, ∃ m' cmd, Update demoEnv fuel demoModelScrolled msg = some (m', cmd)) ∧
      (∃ v, View plainStyles fuel demoModelScrolled = some v) ∧
      (∀ (x : Nat) (n : Node), demoModelScrolled.heap[x]? = some n →
        ∃ s, getTreeChars demoModelScrolled.heap fuel x = some s)) :=
  ⟨⟨by rfl, by rfl⟩, demoModelScrolled_reachable,
    no_out_of_range demoModelScrolled demoModelScrolled_reachable demoEnv plainStyles⟩

/-! ## The cursor at the two ends of the sequence -/

theorem breakModel_reachable : Reachable breakModel :=
  Reachable.init
    (by rfl : Build breakEnv 2 "/r" 1 = some (breakModel.heap, 0))
    (by rfl : New 2 breakModel.heap 0 1 "/r" = some breakModel) (by decide)

theorem rowsOf_go_break (l : List Char) (hl : '\n' ∉ l) :
    ∀ (cur rest : List Char), rowsOf.go (l ++ '\n' :: rest) cur =
      String.mk (cur.reverse ++ l) :: rowsOf.go rest [] := by
  induction l with
  | nil =>
    intro cur rest
    simp [rowsOf.go]
  | cons c cs ih =>
    intro cur rest
    have hc : c ≠ '\n' := fun h => hl (by rw [h]; exact List.mem_cons_self _ _)
    have hcs : '\n' ∉ cs := fun h => hl (List.mem_cons_of_mem _ h)
    rw [List.cons_append, rowsOf.go, if_neg hc, ih hcs]
    simp

theorem rowsOf_go_last (l : List Char) (hl : '\n' ∉ l) :
    ∀ cur : List Char, rowsOf.go l cur = [String.mk (cur.reverse ++ l)] := by
  induction l with
  | nil =>
    intro cur
    simp [rowsOf.go]
  | cons c cs ih =>
    intro cur
    have hc : c ≠ '\n' := fun h => hl (by rw [h]; exact List.mem_cons_self _ _)
    have hcs : '\n' ∉ cs := fun h => hl (List.mem_cons_of_mem _ h)
    rw [rowsOf.go, if_neg hc, ih hcs]
    simp

/-- A row without line break, followed by a line break, is the first row. -/
theorem rowsOf_cons {a : String} (ha : NoBreak a) (b : String) :
    rowsOf (a ++ "\n" ++ b) = a :: rowsOf b := by
  unfold rowsOf
  have h : (a ++ "\n" ++ b).data = a.data ++ '\n' :: b.data := by
    simp [String.data_append]
  rw [h, rowsOf_go_break a.data ha]
  simp

/-- A string without line break is its only row. -/
theorem rowsOf_single {a : String} (ha : NoBreak a) : rowsOf a = [a] := by
  unfold rowsOf
  rw [rowsOf_go_last a.data ha]
  simp

theorem NoBreak.concat {a b : String} (ha : NoBreak a) (hb : NoBreak b) : NoBreak (a ++ b) := by
  unfold NoBreak at *
  rw [String.data_append, List.mem_append]
  exact fun h => h.elim ha hb

/-- Rows that hold no line break, each followed by one, are the first rows of the string. -/
theorem rowsOf_join (lines : List String) (hl : ∀ l ∈ lines, NoBreak l) (rest : String) :
    rowsOf (String.join (lines.map (fun line => line ++ "\n")) ++ rest) =
      lines ++ rowsOf rest := by
  induction lines with
  | nil =>
    have : String.join (([] : List String).map (fun line => line ++ "\n")) ++ rest = rest := by
      apply String.ext
      simp [String.data_join]
    rw [this]
    rfl
  | cons l ls ih =>
    have h : String.join ((l :: ls).map (fun line => line ++ "\n")) ++ rest =
        l ++ "\n" ++ (String.join (ls.map (fun line => line ++ "\n")) ++ rest) := by
      rw [List.map_cons, join_cons_eq]
      simp only [String.append_assoc]
    rw [h, rowsOf_cons (hl l (List.mem_cons_self _ _)),
      ih (fun x hx => hl x (List.mem_cons_of_mem _ hx))]
    rfl

theorem getTreeChars_emit_noBreak (positions : List Bool) :
    ∀ (is : List Nat) (result r : String), NoBreak result →
      getTreeChars.emit positions is result = some r → NoBreak r := by
  intro is
  induction is with
  | nil =>
    intro result r hres h
    unfold getTreeChars.emit at h
    cases h
    exact hres
  | cons i is ih =>
    intro result r hres h
    unfold getTreeChars.emit at h
    cases hp : positions[i]? with
    | none => rw [hp] at h; cases h
    | some b =>
      rw [hp] at h
      dsimp only at h
      refine ih _ r (hres.concat ?_) h
      cases b <;> decide

/-- The connectors `getTreeChars` returns hold no line break. -/
theorem getTreeChars_noBreak {h : Heap} {fuel x : Nat} {s : String}
    (hs : getTreeChars h fuel x = some s) : NoBreak s := by
  unfold getTreeChars at hs
  cases hx : h[x]? with
  | none => rw [hx] at hs; cases hs
  | some n =>
    rw [hx] at hs
    dsimp only at hs
    by_cases hd : n.Depth = 0
    · rw [if_pos hd] at hs
      cases hs
      decide
    rw [if_neg hd] at hs
    by_cases hd2 : n.Depth < 0
    · rw [if_pos hd2] at hs; cases hs
    rw [if_neg hd2] at hs
    cases hc : getTreeChars.climb h fuel x (List.replicate n.Depth.toNat false) with
    | none => rw [hc] at hs; cases hs
    | some positions =>
      rw [hc] at hs
      dsimp only at hs
      cases he : getTreeChars.emit positions (List.range (n.Depth - 1).toNat) "" with
      | none => rw [he] at hs; cases hs
      | some result =>
        rw [he] at hs
        dsimp only at hs
        have hres := getTreeChars_emit_noBreak positions _ "" result (by decide) he
        cases hl : IsLastChild h x with
        | none => rw [hl] at hs; cases hs
        | some isLast =>
          rw [hl] at hs
          dsimp only at hs
          cases hs
          refine hres.concat ?_
          cases isLast <;> decide

theorem digitChar_ne_break (k : Nat) : Nat.digitChar (k % 10) ≠ '\n' := by
  have hk : k % 10 < 10 := Nat.mod_lt _ (by decide)
  generalize k % 10 = d at hk
  interval_cases d <;> decide

theorem toDigitsCore_noBreak : ∀ (fuel n : Nat) (ds : List Char), '\n' ∉ ds →
    '\n' ∉ Nat.toDigitsCore 10 fuel n ds := by
  intro fuel
  induction fuel with
  | zero => intro n ds hds; simpa [Nat.toDigitsCore] using hds
  | succ fuel ih =>
    intro n ds hds
    have hcons : '\n' ∉ Nat.digitChar (n % 10) :: ds := by
      intro h
      rcases List.mem_cons.mp h with h | h
      · exact digitChar_ne_break n h.symm
      · exact hds h
    rw [Nat.toDigitsCore]
    split_ifs
    · exact hcons
    · exact ih _ _ hcons

/-- The decimal digits `%d` prints hold no line break. -/
theorem toString_int_noBreak (i : Int) : NoBreak (toString i) := by
  have hnat : ∀ n : Nat, '\n' ∉ (Nat.repr n).data := fun n =>
    toDigitsCore_noBreak _ _ [] (by simp)
  cases i with
  | ofNat n => exact hnat n
  | negSucc n =>
    show NoBreak ("-" ++ Nat.repr (n + 1))
    exact NoBreak.concat (by decide) (hnat _)

theorem forall2_mem_right {α β : Type} {R : α → β → Prop} :
    ∀ {xs : List α} {ys : List β}, List.Forall₂ R xs ys → ∀ y ∈ ys, ∃ x ∈ xs, R x y := by
  intro xs ys h
  induction h with
  | nil => intro y hy; cases hy
  | @cons a b l₁ l₂ hab _ ih =>
    intro y hy
    rcases List.mem_cons.mp hy with rfl | hy
    · exact ⟨a, List.mem_cons_self _ _, hab⟩
    · obtain ⟨x, hx, hr⟩ := ih y hy
      exact ⟨x, List.mem_cons_of_mem _ hx, hr⟩

/-- The string of a node holds no line break when the rendered marker and the rendered name
hold none. -/
theorem renderTreeLine_noBreak (st : Styles) {fuel : Nat} {m : Model} {x : Nat} {n : Node}
    {line : String} (i : Int) (hx : m.heap[x]? = some n)
    (hline : renderTreeLine st fuel m i x = some line)
    (hmark : NoBreak (st.cursorStyle ">"))
    (hname : NoBreak (if n.IsDir = true then
        st.dirStyle ((if n.IsExpanded = true then "▼ " else "▶ ") ++ n.Name)
      else st.fileStyle n.Name)) : NoBreak line := by
  cases htc : getTreeChars m.heap fuel x with
  | none =>
    unfold renderTreeLine at hline
    rw [htc] at hline
    cases hline
  | some tc =>
    rw [renderTreeLine_eq st i htc hx] at hline
    cases hline
    refine NoBreak.concat (NoBreak.concat (NoBreak.concat ?_ (by decide))
      (getTreeChars_noBreak htc)) hname
    split_ifs
    · exact hmark
    · decide

/-- A string that starts with a blank does not start with a marker whose first character
is not a blank. -/
theorem marker_prefix (mark : String) (i cursor : Int) (rest : String)
    (hmark : ∃ c cs, mark.data = c :: cs ∧ c ≠ ' ') :
    mark.data <+: ((if i = cursor then mark else " ") ++ rest).data ↔ i = cursor := by
  obtain ⟨c, cs, hd, hc⟩ := hmark
  by_cases h : i = cursor
  · rw [if_pos h, String.data_append]
    exact ⟨fun _ => h, fun _ => List.prefix_append _ _⟩
  · rw [if_neg h, String.data_append, hd]
    refine ⟨fun hp => ?_, fun hh => absurd hh h⟩
    obtain ⟨t, ht⟩ := hp
    have h2 : (" ".data ++ rest.data) = ' ' :: rest.data := rfl
    rw [h2, List.cons_append] at ht
    exact absurd (List.cons.inj ht).1 hc

set_option maxRecDepth 8000 in
/-- C22, counterexample: a directory holds one file whose name is `x`, a line break, `> y`.
In the state `New` returns for its tree the cursor is on the root, index 0, and `View`
(styles taken as identity) shows two rows that start with `>`: the row of the root and the
second row of the file, whose index 1 is not the cursor. -/
theorem marker_on_second_row :
    Reachable breakModel ∧ breakModel.cursor = 0 ∧ breakModel.flattenedNodes = [0, 1] ∧
    View plainStyles 2 breakModel = some
      "DTree - /r (initial depth: 1)\n\n> ▼ r\n  └── x\n> y\n\nControls: ↑↓/jk navigate, Ctrl+U/D half-page, Ctrl+B/F full-page, gg/G top/bottom, Enter/Space expand/collapse, q quit" ∧
    renderTreeLine plainStyles 2 breakModel 1 1 = some "  └── x\n> y" ∧
    rowsOf
        "DTree - /r (initial depth: 1)\n\n> ▼ r\n  └── x\n> y\n\nControls: ↑↓/jk navigate, Ctrl+U/D half-page, Ctrl+B/F full-page, gg/G top/bottom, Enter/Space expand/collapse, q quit" =
      ["DTree - /r (initial depth: 1)", "", "> ▼ r", "  └── x", "> y", "",
        "Controls: ↑↓/jk navigate, Ctrl+U/D half-page, Ctrl+B/F full-page, gg/G top/bottom, Enter/Space expand/collapse, q quit"] ∧
    (["DTree - /r (initial depth: 1)", "", "> ▼ r", "  └── x", "> y", "",
        "Controls: ↑↓/jk navigate, Ctrl+U/D half-page, Ctrl+B/F full-page, gg/G top/bottom, Enter/Space expand/collapse, q quit"].filter
      (fun row => decide (row.data.head? = some '>'))).length = 2 :=
  ⟨breakModel_reachable, rfl, rfl, by rfl, by rfl, by rfl, by rfl⟩

/-- C22, amended: in every state of a session, for any styles and with fuel for the whole
heap, the string `View` renders for the node at index `i` of the window is the marker column
(`cursorStyle(">")` when `i` is the cursor, a blank otherwise), a blank, the tree connectors
and the name part: `dirStyle("▼ " + name)` for an expanded directory, `dirStyle("▶ " + name)`
for a collapsed one, `fileStyle(name)` for a file.  Exactly one index of the window is the
cursor.  When the rendered marker is not empty and does not start with a blank, a node
string starts with it if and only if its index is the cursor, and exactly one node string
does.  When the rendered marker and the rendered names of the window hold no line break,
no node string holds one, so the node strings are, one by one, rows of the view. -/
theorem cursor_marker (m : Model) (hr : Reachable m) (st : Styles) (fuel : Nat)
    (hfuel : m.heap.length ≤ fuel) :
    ∃ lines : List String,
      View st fuel m = some
        (st.headerStyle ("DTree - " ++ m.rootPath ++ " (initial depth: " ++
            toString m.initialDepth ++ ")") ++ "\n\n" ++
          String.join (lines.map (fun line => line ++ "\n")) ++ st.newStyle controlsText ++
          (if m.status ≠ "" then st.errorStyle ("\n" ++ m.status) else "")) ∧
      List.Forall₂ (fun (i : Int) (line : String) => ∃ (node : Nat) (n : Node) (tc : String),
          m.flattenedNodes[i.toNat]? = some node ∧ m.heap[node]? = some n ∧
          getTreeChars m.heap fuel node = some tc ∧
          line = (if i = m.cursor then st.cursorStyle ">" else " ") ++ " " ++ tc ++
            (if n.IsDir = true then
              st.dirStyle ((if n.IsExpanded = true then "▼ " else "▶ ") ++ n.Name)
            else st.fileStyle n.Name))
        ((List.range
            (min (m.viewportOffset + m.viewportHeight) m.len - m.viewportOffset).toNat).map
          (fun (k : Nat) => m.viewportOffset + (k : Int))) lines ∧
      (((List.range
            (min (m.viewportOffset + m.viewportHeight) m.len - m.viewportOffset).toNat).map
          (fun (k : Nat) => m.viewportOffset + (k : Int))).filter
        (fun i => decide (i = m.cursor))).length = 1 ∧
      ((∃ c cs, (st.cursorStyle ">").data = c :: cs ∧ c ≠ ' ') →
        List.Forall₂ (fun (i : Int) (line : String) =>
            ((st.cursorStyle ">").data <+: line.data ↔ i = m.cursor))
          ((List.range
              (min (m.viewportOffset + m.viewportHeight) m.len - m.viewportOffset).toNat).map
            (fun (k : Nat) => m.viewportOffset + (k : Int))) lines ∧
        (lines.filter
          (fun line => (st.cursorStyle ">").data.isPrefixOf line.data)).length = 1) ∧
      (NoBreak (st.cursorStyle ">") →
        (∀ (i : Int) (node : Nat) (n : Node),
          i ∈ (List.range
              (min (m.viewportOffset + m.viewportHeight) m.len - m.viewportOffset).toNat).map
            (fun (k : Nat) => m.viewportOffset + (k : Int)) →
          m.flattenedNodes[i.toNat]? = some node → m.heap[node]? = some n →
          NoBreak (if n.IsDir = true then
              st.dirStyle ((if n.IsExpanded = true then "▼ " else "▶ ") ++ n.Name)
            else st.fileStyle n.Name)) →
        (∀ line ∈ lines, NoBreak line) ∧
        ∀ rest : String,
          rowsOf (String.join (lines.map (fun line => line ++ "\n")) ++ rest) =
            lines ++ rowsOf rest) := by
  have hm := hr.inv
  obtain ⟨lines, hrel, hview⟩ := View_spec st hm hfuel
  have hrel2 : List.Forall₂ (fun (i : Int) (line : String) =>
      ∃ (node : Nat) (n : Node) (tc : String),
        m.flattenedNodes[i.toNat]? = some node ∧ m.heap[node]? = some n ∧
        getTreeChars m.heap fuel node = some tc ∧
        line = (if i = m.cursor then st.cursorStyle ">" else " ") ++ " " ++ tc ++
          (if n.IsDir = true then
            st.dirStyle ((if n.IsExpanded = true then "▼ " else "▶ ") ++ n.Name)
          else st.fileStyle n.Name))
      ((List.range
          (min (m.viewportOffset + m.viewportHeight) m.len - m.viewportOffset).toNat).map
        (fun (k : Nat) => m.viewportOffset + (k : Int))) lines := by
    refine List.Forall₂.imp ?_ hrel
    intro i line ⟨node, hnode, hline⟩
    obtain ⟨n, hn⟩ := hm.flat.valid node (List.mem_iff_getElem?.mpr ⟨_, hnode⟩)
    obtain ⟨tc, htc⟩ := getTreeChars_some hm.tree hn fuel hfuel
    rw [renderTreeLine_eq st i htc hn] at hline
    exact ⟨node, n, tc, hnode, hn, htc, (Option.some.inj hline).symm⟩
  refine ⟨lines, hview, hrel2, window_cursor_once hm.view, fun hmark => ?_,
    fun hmk hnames => ?_⟩
  · have hrel3 : List.Forall₂ (fun (i : Int) (line : String) =>
        ((st.cursorStyle ">").data <+: line.data ↔ i = m.cursor))
        ((List.range
            (min (m.viewportOffset + m.viewportHeight) m.len - m.viewportOffset).toNat).map
          (fun (k : Nat) => m.viewportOffset + (k : Int))) lines := by
      refine List.Forall₂.imp ?_ hrel2
      intro i line ⟨node, n, tc, _, _, _, hl⟩
      rw [hl, String.append_assoc, String.append_assoc]
      exact marker_prefix (st.cursorStyle ">") i m.cursor _ hmark
    refine ⟨hrel3, ?_⟩
    rw [← countP_forall2 (fun (i : Int) => decide (i = m.cursor))
      (fun (line : String) => (st.cursorStyle ">").data.isPrefixOf line.data) ?_ hrel3]
    · exact window_cursor_once hm.view
    · intro i line hiff
      show decide (i = m.cursor) = (st.cursorStyle ">").data.isPrefixOf line.data
      by_cases hc : i = m.cursor
      · rw [decide_eq_true hc, List.isPrefixOf_iff_prefix.mpr (hiff.mpr hc)]
      · rw [decide_eq_false hc]
        cases hb : (st.cursorStyle ">").data.isPrefixOf line.data with
        | false => rfl
        | true => exact absurd (hiff.mp (List.isPrefixOf_iff_prefix.mp hb)) hc
  · have hnb : ∀ line ∈ lines, NoBreak line := by
      intro line hl
      obtain ⟨i, hi, node, hnode, hline⟩ := forall2_mem_right hrel line hl
      obtain ⟨n, hn⟩ := hm.flat.valid node (List.mem_iff_getElem?.mpr ⟨_, hnode⟩)
      exact renderTreeLine_noBreak st i hn hline hmk (hnames i node n hi hnode hn)
    exact ⟨hnb, rowsOf_join lines hnb⟩

/-- Witness for C22: the demo session with the cursor on the collapsed `sub`, styles taken
as identity: the marker `>` is not a blank and no name of the tree holds a line break, so
the four node strings are rows of the view and exactly one of them starts with `>`. -/
theorem cursor_marker_witness :
    View plainStyles 5 demoModelAtSub = some
        ("DTree - /r (initial depth: 1)\n\n" ++
          "  ▼ r\n  ├── a.txt\n  ├── b.txt\n> └── ▶ sub\n" ++ controlsText) ∧
    Reachable demoModelAtSub ∧ demoModelAtSub.heap.length ≤ 5 ∧
    ∃ lines : List String,
      View plainStyles 5 demoModelAtSub = some
        ("DTree - /r (initial depth: 1)" ++ "\n\n" ++
          String.join (lines.map (fun line => line ++ "\n")) ++ controlsText ++ "") ∧
      lines.length = 4 ∧
      (lines.filter (fun line => ['>'].isPrefixOf line.data)).length = 1 ∧
      (∀ line ∈ lines, NoBreak line) ∧
      ∀ rest : String,
        rowsOf (String.join (lines.map (fun line => line ++ "\n")) ++ rest) =
          lines ++ rowsOf rest := by
  obtain ⟨lines, hview, hrel, -, hmark, hrows⟩ :=
    cursor_marker demoModelAtSub demoModelAtSub_reachable plainStyles 5 (by decide)
  have h1 := hmark ⟨'>', [], rfl, by decide⟩
  have h2 := hrows (by decide)
    (fun _ _ n _ _ hn =>
      (by decide : ∀ n ∈ demoModelAtSub.heap,
        NoBreak (if n.IsDir = true then
            plainStyles.dirStyle ((if n.IsExpanded = true then "▼ " else "▶ ") ++ n.Name)
          else plainStyles.fileStyle n.Name)) n (List.mem_iff_getElem?.mpr ⟨_, hn⟩))
  exact ⟨by rfl, demoModelAtSub_reachable, by decide, lines, hview,
    by rw [← hrel.length_eq]; rfl, h1.2, h2.1, h2.2⟩

/-- The rows of a text laid out as `View` does: header, blank row, the node rows, blank row,
legend, and the status when there is one. -/
theorem rowsOf_layout (header legend status : String) (lines : List String)
    (hh : NoBreak header) (hg : NoBreak legend) (hs : NoBreak status)
    (hl : ∀ l ∈ lines, NoBreak l) :
    rowsOf (header ++ "\n" ++ "\n" ++ String.join (lines.map (fun line => line ++ "\n")) ++
        "\n" ++ legend ++ (if status ≠ "" then "\n" ++ status else "")) =
      [header, ""] ++ lines ++ ["", legend] ++ (if status ≠ "" then [status] else []) := by
  have e : header ++ "\n" ++ "\n" ++ String.join (lines.map (fun line => line ++ "\n")) ++
        "\n" ++ legend ++ (if status ≠ "" then "\n" ++ status else "") =
      header ++ "\n" ++ ("" ++ "\n" ++ (String.join (lines.map (fun line => line ++ "\n")) ++
        ("" ++ "\n" ++ (legend ++ (if status ≠ "" then "\n" ++ status else ""))))) := by
    apply String.ext
    simp [String.data_append]
  have hemp : NoBreak "" := by decide
  rw [e, rowsOf_cons hh, rowsOf_cons hemp, rowsOf_join lines hl, rowsOf_cons hemp]
  by_cases hst : status = ""
  · rw [if_neg (fun h => h hst), if_neg (fun h => h hst)]
    have e2 : legend ++ "" = legend := by
      apply String.ext
      simp
    rw [e2, rowsOf_single hg]
    simp
  · rw [if_pos hst, if_pos hst, ← String.append_assoc, rowsOf_cons hg, rowsOf_single hs]
    simp

set_option maxRecDepth 8000 in
/-- C23, counterexample: a directory holds one file whose name is `x`, a line break, `> y`.
The state `New` returns for its tree has two visible nodes, both in the window, and no
status, so the layout of the claim has 1 + 1 + 2 + 1 + 1 = 6 lines; `View` (styles taken as
identity) returns 7: the file takes two. -/
theorem view_breaks_layout :
    Reachable breakModel ∧ breakModel.len = 2 ∧ breakModel.viewportOffset = 0 ∧
    breakModel.viewportHeight ≥ breakModel.len ∧ breakModel.status = "" ∧
    (View plainStyles 2 breakModel).map lineCount = some 7 ∧
    (View plainStyles 2 breakModel).map rowsOf ≠ some
      ["DTree - /r (initial depth: 1)", "", "> ▼ r", "  └── x\n> y", "",
        "Controls: ↑↓/jk navigate, Ctrl+U/D half-page, Ctrl+B/F full-page, gg/G top/bottom, Enter/Space expand/collapse, q quit"] :=
  ⟨breakModel_reachable, rfl, rfl, by decide, rfl, by rfl, by decide⟩

/-- C23, amended, with the styles taken as identity: in every state of a session `View`
returns the header text `DTree - <rootPath> (initial depth: <N>)`, two line breaks, for each
index of the window the string `renderTreeLine` gives followed by a line break, then a line
break and the controls legend, and then a line break and the status if and only if the
status is not empty.  When the root path, the status and the names of the nodes in the
window hold no line break, no node string holds one and the rows of the view are exactly:
the header, a blank row, one row per node of the window, a blank row, the legend, and one
row with the status if and only if it is not empty.  After `SetStatus(s)` with `s` not
empty the view ends with a line break and `s`; after `SetStatus("")` it ends with the
controls legend. -/
theorem view_layout (m : Model) (hr : Reachable m) (fuel : Nat)
    (hfuel : m.heap.length ≤ fuel) :
    (∃ lines : List String,
      lines.length =
        (min (m.viewportOffset + m.viewportHeight) m.len - m.viewportOffset).toNat ∧
      List.Forall₂ (fun (i : Int) (line : String) => ∃ node : Nat,
          m.flattenedNodes[i.toNat]? = some node ∧
          renderTreeLine plainStyles fuel m i node = some line)
        ((List.range
            (min (m.viewportOffset + m.viewportHeight) m.len - m.viewportOffset).toNat).map
          (fun (k : Nat) => m.viewportOffset + (k : Int))) lines ∧
      View plainStyles fuel m = some
        ("DTree - " ++ m.rootPath ++ " (initial depth: " ++ toString m.initialDepth ++ ")" ++
          "\n" ++ "\n" ++ String.join (lines.map (fun line => line ++ "\n")) ++ "\n" ++
          "Controls: ↑↓/jk navigate, Ctrl+U/D half-page, Ctrl+B/F full-page, gg/G top/bottom, Enter/Space expand/collapse, q quit" ++
          (if m.status ≠ "" then "\n" ++ m.status else "")) ∧
      (NoBreak m.rootPath → NoBreak m.status →
        (∀ (i : Int) (node : Nat) (n : Node),
          i ∈ (List.range
              (min (m.viewportOffset + m.viewportHeight) m.len - m.viewportOffset).toNat).map
            (fun (k : Nat) => m.viewportOffset + (k : Int)) →
          m.flattenedNodes[i.toNat]? = some node → m.heap[node]? = some n →
          NoBreak n.Name) →
        (∀ line ∈ lines, NoBreak line) ∧
        ∃ v : String, View plainStyles fuel m = some v ∧
          rowsOf v =
            ["DTree - " ++ m.rootPath ++ " (initial depth: " ++ toString m.initialDepth ++
              ")", ""] ++ lines ++
            ["", "Controls: ↑↓/jk navigate, Ctrl+U/D half-page, Ctrl+B/F full-page, gg/G top/bottom, Enter/Space expand/collapse, q quit"] ++
            (if m.status ≠ "" then [m.status] else []))) ∧
    (∀ s : String, s ≠ "" →
      ∃ pre : String, View plainStyles fuel (SetStatus m s) = some (pre ++ "\n" ++ s)) ∧
    (∃ pre : String, View plainStyles fuel (SetStatus m "") = some (pre ++ "\n" ++
      "Controls: ↑↓/jk navigate, Ctrl+U/D half-page, Ctrl+B/F full-page, gg/G top/bottom, Enter/Space expand/collapse, q quit")) := by
  have hm := hr.inv
  have hct : controlsText = "\n" ++
      "Controls: ↑↓/jk navigate, Ctrl+U/D half-page, Ctrl+B/F full-page, gg/G top/bottom, Enter/Space expand/collapse, q quit" := by
    decide
  have hempty : ∀ s : String, s ++ "" = s := fun s => by
    apply String.ext
    simp
  refine ⟨?_, ?_, ?_⟩
  · obtain ⟨lines, hrel, hview⟩ := View_spec plainStyles hm hfuel
    have hv2 : View plainStyles fuel m = some
        ("DTree - " ++ m.rootPath ++ " (initial depth: " ++ toString m.initialDepth ++ ")" ++
          "\n" ++ "\n" ++ String.join (lines.map (fun line => line ++ "\n")) ++ "\n" ++
          "Controls: ↑↓/jk navigate, Ctrl+U/D half-page, Ctrl+B/F full-page, gg/G top/bottom, Enter/Space expand/collapse, q quit" ++
          (if m.status ≠ "" then "\n" ++ m.status else "")) := by
      have hnn : "\n\n" = "\n" ++ "\n" := by decide
      rw [hview, hct, hnn]
      simp only [plainStyles, String.append_assoc]
    refine ⟨lines, ?_, hrel, hv2, fun hroot hstat hnames => ?_⟩
    · rw [← hrel.length_eq, List.length_map, List.length_range]
    · have hnb : ∀ line ∈ lines, NoBreak line := by
        intro line hl
        obtain ⟨i, hi, node, hnode, hline⟩ := forall2_mem_right hrel line hl
        obtain ⟨n, hn⟩ := hm.flat.valid node (List.mem_iff_getElem?.mpr ⟨_, hnode⟩)
        refine renderTreeLine_noBreak plainStyles i hn hline (by decide) ?_
        have hname := hnames i node n hi hnode hn
        show NoBreak (if n.IsDir = true then
          (if n.IsExpanded = true then "▼ " else "▶ ") ++ n.Name else n.Name)
        split_ifs
        · exact NoBreak.concat (by decide) hname
        · exact NoBreak.concat (by decide) hname
        · exact hname
      refine ⟨hnb, _, hv2, ?_⟩
      refine rowsOf_layout _ _ _ lines ?_ (by decide) hstat hnb
      exact NoBreak.concat (NoBreak.concat (NoBreak.concat (NoBreak.concat (by decide) hroot)
        (by decide)) (toString_int_noBreak _)) (by decide)
  · intro s hs
    obtain ⟨lines, -, hview⟩ := View_spec plainStyles (hm.setStatus s) hfuel
    refine ⟨"DTree - " ++ m.rootPath ++ " (initial depth: " ++ toString m.initialDepth ++
      ")" ++ "\n\n" ++ String.join (lines.map (fun line => line ++ "\n")) ++ controlsText,
      ?_⟩
    rw [hview]
    show some (_ ++ (if s ≠ "" then "\n" ++ s else "")) = _
    rw [if_pos hs]
    simp only [plainStyles, SetStatus, String.append_assoc]
  · obtain ⟨lines, -, hview⟩ := View_spec plainStyles (hm.setStatus "") hfuel
    refine ⟨"DTree - " ++ m.rootPath ++ " (initial depth: " ++ toString m.initialDepth ++
      ")" ++ "\n\n" ++ String.join (lines.map (fun line => line ++ "\n")), ?_⟩
    rw [hview]
    show some (_ ++ plainStyles.newStyle controlsText ++
      (if "" ≠ "" then "\n" ++ "" else "")) = _
    rw [if_neg (fun h => h rfl), hempty, hct]
    simp only [plainStyles, SetStatus, String.append_assoc]

set_option maxRecDepth 8000 in
/-- Witness for C23: the demo session as `New` returns it: no name holds a line break, and
the view has eight rows, four of them for the four nodes; then with a status set as in the
test of the status message. -/
theorem view_layout_witness :
    (View plainStyles 4 demoModel).map rowsOf = some
      ["DTree - /r (initial depth: 1)", "", "> ▼ r", "  ├── a.txt", "  ├── b.txt",
        "  └── ▶ sub", "",
        "Controls: ↑↓/jk navigate, Ctrl+U/D half-page, Ctrl+B/F full-page, gg/G top/bottom, Enter/Space expand/collapse, q quit"] ∧
    Reachable demoModel ∧ demoModel.heap.length ≤ 4 ∧
    NoBreak demoModel.rootPath ∧ NoBreak demoModel.status ∧
    (∃ (lines : List String) (v : String), lines.length = 4 ∧
      (∀ line ∈ lines, NoBreak line) ∧
      View plainStyles 4 demoModel = some v ∧
      rowsOf v = ["DTree - /r (initial depth: 1)", ""] ++ lines ++
        ["", "Controls: ↑↓/jk navigate, Ctrl+U/D half-page, Ctrl+B/F full-page, gg/G top/bottom, Enter/Space expand/collapse, q quit"] ++
        []) ∧
    (∃ pre : String, View plainStyles 4 (SetStatus demoModel "Test error message") =
      some (pre ++ "\n" ++ "Test error message")) ∧
    (∃ pre : String, View plainStyles 4 (SetStatus demoModel "") = some (pre ++ "\n" ++
      "Controls: ↑↓/jk navigate, Ctrl+U/D half-page, Ctrl+B/F full-page, gg/G top/bottom, Enter/Space expand/collapse, q quit")) := by
  obtain ⟨⟨lines, hlen, -, -, hrows⟩, hset, hclear⟩ :=
    view_layout demoModel demoModel_reachable 4 (by decide)
  obtain ⟨hnb, v, hv, hrowsv⟩ := hrows (by decide) (by decide)
    (fun _ _ n _ _ hn =>
      (by decide : ∀ n ∈ demoModel.heap, NoBreak n.Name) n
        (List.mem_iff_getElem?.mpr ⟨_, hn⟩))
  exact ⟨by rfl, demoModel_reachable, by decide, by decide, by decide,
    ⟨lines, v, hlen, hnb, hv, hrowsv⟩, hset "Test error message" (by decide), hclear⟩

end DTree
